import Mathlib

/-!
# Meeting scheduler: the recommendation engine, the interval functions and the services

A shallow embedding of `internal/service/recommendation_service.go`
(`RecommendationService.GetRecommendations`) together with the model types of
`internal/models` and the sentinel errors of `internal/errors`, of the interval functions
of `pkg/timeutil/timeutil.go`, and of the operations of
`internal/service/timeslot_service.go` and `internal/service/availability_service.go` that
validate a time range.

Modelling conventions

* `time.Time` is modelled by the instant it denotes, as a number of
  nanoseconds on one time line.  `Equal`, `Before` and `After` compare
  instants; the monotonic clock reading, which only `time.Now` produces, plays
  no part for the parsed and stored times handled here.
* `time.Duration` is an `int64` number of nanoseconds; products wrap around as
  Go's signed 64-bit multiplication does, and `Time.Sub` returns the largest or
  smallest duration when the difference of two instants does not fit.
* A Go `map` is an association list with unique keys.  Go leaves the order of
  a `range` over a map unspecified, so every traversal takes its order from a
  `MapOrder`, which may be any rearrangement of the keys.
* `sort.Slice` belongs to the Go standard library.  `GetRecommendations` takes
  the sorting routine as a parameter; `SortSliceSpec` is its documented
  contract, `Slice` is a model of the implementation in the standard library
  (pattern-defeating quicksort), and `Slice_spec` proves that the model meets
  the contract, so every property stated for a routine meeting the contract
  holds for `Slice`.
* A Go result pair `(*T, error)` returned by the service is a pair of options;
  a collaborator's result, which the service inspects only through
  `err != nil`, is an `Except`.
* A `nil` slice and an empty slice are both the empty list.
-/

namespace MeetingScheduler

/-! ## Basic types -/

/-- Identifier `uuid.UUID` (sixteen bytes compared with `==`), modelled by its numeric value. -/
abbrev UUID := Nat

/-- Go `time.Duration`: a signed 64-bit count of nanoseconds. -/
abbrev Duration := Int

/-- Wrap-around of a mathematical integer into the `int64` range. -/
def wrapInt64 (x : Int) : Int :=
  (x + 9223372036854775808) % 18446744073709551616 - 9223372036854775808

/-- Constant `time.Minute`. -/
def Minute : Duration := 60000000000

/-- Product of two durations, `a * b` on `int64`. -/
def mulDuration (a b : Duration) : Duration := wrapInt64 (a * b)

/-- Go `time.Time`, by the instant it denotes in nanoseconds. -/
structure Time where
  unixNano : Int
deriving DecidableEq, Repr

/-- Method `Time.Add`: the instant `t + d`. -/
def Time.Add (t : Time) (d : Duration) : Time := ⟨t.unixNano + d⟩

/-- Method `Time.After`. -/
def Time.After (t u : Time) : Bool := decide (u.unixNano < t.unixNano)

/-- Method `Time.Before`. -/
def Time.Before (t u : Time) : Bool := decide (t.unixNano < u.unixNano)

/-- Method `Time.Equal`. -/
def Time.Equal (t u : Time) : Bool := decide (t.unixNano = u.unixNano)

/-- Sentinel errors of `internal/errors`, and any other error value a collaborator may return. -/
inductive Error where
  | ErrInvalidTimeRange
  | ErrEventNotFound
  | ErrTimeSlotNotFound
  | ErrUserNotFound
  | ErrAvailabilityNotFound
  | other (msg : String)
deriving DecidableEq, Repr

/-! ## `internal/models` -/

/-- Model `models.Event`; `Duration` is the meeting length in minutes. -/
structure Event where
  ID : UUID
  Title : String
  Description : String
  CreatorID : UUID
  Duration : Int
  Status : String
  CreatedAt : Time
  UpdatedAt : Time
deriving DecidableEq, Repr

/-- Model `models.TimeSlot`. -/
structure TimeSlot where
  ID : UUID
  EventID : UUID
  StartTime : Time
  EndTime : Time
  CreatedAt : Time
  UpdatedAt : Time
deriving DecidableEq, Repr

/-- Model `models.Availability`. -/
structure Availability where
  ID : UUID
  UserID : UUID
  EventID : UUID
  StartTime : Time
  EndTime : Time
  CreatedAt : Time
  UpdatedAt : Time
deriving DecidableEq, Repr

/-- Model `models.User`. -/
structure User where
  ID : UUID
  Name : String
  Email : String
  CreatedAt : Time
  UpdatedAt : Time
deriving DecidableEq, Repr

/-- Model `models.TimeSlotResponse`. -/
structure TimeSlotResponse where
  ID : UUID
  StartTime : Time
  EndTime : Time
deriving DecidableEq, Repr

/-- Model `models.UserResponse`. -/
structure UserResponse where
  ID : UUID
  Name : String
  Email : String
deriving DecidableEq, Repr

/-- Model `models.Recommendation`. -/
structure Recommendation where
  TimeSlot : TimeSlotResponse
  Attendees : List UserResponse
  NonAttendees : List UserResponse
  Score : Int
deriving DecidableEq, Repr

/-- Model `models.RecommendationResponse`. -/
structure RecommendationResponse where
  Recommendations : List Recommendation
deriving DecidableEq, Repr

/-! ## Collaborators -/

/-- The read operation of `repository.EventRepository` used by the engine. -/
structure EventRepository where
  GetByID : UUID → Except Error Event

/-- The read operation of `repository.TimeSlotRepository` used by the engine. -/
structure TimeSlotRepository where
  GetByEventID : UUID → Except Error (List TimeSlot)

/-- The read operation of `repository.AvailabilityRepository` used by the engine. -/
structure AvailabilityRepository where
  GetByEventID : UUID → Except Error (List Availability)

/-- The bulk read operation of `repository.UserRepository` used by the engine. -/
structure UserRepository where
  GetByIDs : List UUID → Except Error (List User)

/-- Struct `RecommendationService`: the four injected repositories. -/
structure RecommendationService where
  eventRepo : EventRepository
  timeslotRepo : TimeSlotRepository
  availabilityRepo : AvailabilityRepository
  userRepo : UserRepository

/-! ## Go maps -/

/-- Map read `m[k]` with the presence flag. -/
def mapGet {ν : Type} : List (UUID × ν) → UUID → Option ν
  | [], _ => none
  | (k', v) :: rest, k => if k' = k then some v else mapGet rest k

/-- Map write `m[k] = v`: replaces the entry of an existing key, adds a new key otherwise. -/
def mapSet {ν : Type} : List (UUID × ν) → UUID → ν → List (UUID × ν)
  | [], k, v => [(k, v)]
  | (k', v') :: rest, k, v => if k' = k then (k, v) :: rest else (k', v') :: mapSet rest k v

/-- The keys held by a map. -/
def mapKeys {ν : Type} (m : List (UUID × ν)) : List UUID := m.map Prod.fst

/-- The order in which each `range` over a map visits the keys: traversal number `n` of a map
holding the keys `ks` visits them in the order `keys n ks`, some rearrangement of `ks`. -/
structure MapOrder where
  keys : Nat → List UUID → List UUID
  perm : ∀ n ks, (keys n ks).Perm ks

/-- The traversal order that visits keys in the order they were first inserted. -/
def MapOrder.insertion : MapOrder := ⟨fun _ ks => ks, fun _ _ => List.Perm.refl _⟩

/-! ## Go's `sort.Slice`

A model of `sort.Slice` of the Go standard library (package `sort`, the pattern-defeating
quicksort used since Go 1.19).  The slice is a list, `data.Less(i, j)` and `data.Swap(i, j)`
act on positions, and every loop carries a bound on its number of iterations that the loop
never exhausts. -/

/-- Call `data.Less(i, j)`: the comparison applied to the elements at positions `i` and `j`. -/
def lessAt {α : Type} (less : α → α → Bool) (data : List α) (i j : Nat) : Bool :=
  match data[i]?, data[j]? with
  | some x, some y => less x y
  | _, _ => false

/-- Call `data.Swap(i, j)`. -/
def swapAt {α : Type} (data : List α) (i j : Nat) : List α :=
  match data[i]?, data[j]? with
  | some x, some y => (data.set i y).set j x
  | _, _ => data

/-- The inner loop of `insertionSort_func`:
`for j := i; j > a && data.Less(j, j-1); j-- { data.Swap(j, j-1) }`. -/
def insertionInner {α : Type} (less : α → α → Bool) (a : Nat) : Nat → List α → List α
  | 0, data => data
  | j + 1, data =>
    if a < j + 1 && lessAt less data (j + 1) j then
      insertionInner less a j (swapAt data (j + 1) j)
    else data

/-- The outer loop of `insertionSort_func`: `for i := a + 1; i < b; i++`, with `n` bounding the
iterations left. -/
def insertionOuter {α : Type} (less : α → α → Bool) (a b : Nat) :
    Nat → Nat → List α → List α
  | 0, _, data => data
  | n + 1, i, data =>
    if i < b then insertionOuter less a b n (i + 1) (insertionInner less a i data) else data

/-- Function `insertionSort_func`: sorts `data[a:b]` by insertion sort. -/
def insertionSort_func {α : Type} (less : α → α → Bool) (data : List α) (a b : Nat) : List α :=
  insertionOuter less a b (b - a) (a + 1) data

/-- Function `siftDown_func` on `data[lo:hi]` with the heap rooted at offset `first`; `n` bounds
the iterations left and `root` starts at `lo`. -/
def siftDown_func {α : Type} (less : α → α → Bool) (hi first : Nat) :
    Nat → List α → Nat → List α
  | 0, data, _ => data
  | n + 1, data, root =>
    if 2 * root + 1 ≥ hi then data
    else
      let child :=
        if 2 * root + 2 < hi && lessAt less data (first + (2 * root + 1)) (first + (2 * root + 2))
        then 2 * root + 2 else 2 * root + 1
      if !lessAt less data (first + root) (first + child) then data
      else siftDown_func less hi first n (swapAt data (first + root) (first + child)) child

/-- The first loop of `heapSort_func`: `for i := (hi - 1) / 2; i >= 0; i--`, the argument being
`i + 1`. -/
def heapBuild {α : Type} (less : α → α → Bool) (hi first : Nat) : Nat → List α → List α
  | 0, data => data
  | i + 1, data => heapBuild less hi first i (siftDown_func less hi first hi data i)

/-- The second loop of `heapSort_func`: `for i := hi - 1; i >= 0; i--`, the argument being
`i + 1`. -/
def heapPop {α : Type} (less : α → α → Bool) (first : Nat) : Nat → List α → List α
  | 0, data => data
  | i + 1, data =>
    heapPop less first i (siftDown_func less i first i (swapAt data first (first + i)) 0)

/-- Function `heapSort_func`. -/
def heapSort_func {α : Type} (less : α → α → Bool) (data : List α) (a b : Nat) : List α :=
  heapPop less a (b - a) (heapBuild less (b - a) a ((b - a - 1) / 2 + 1) data)

/-- Type `sortedHint`. -/
inductive sortedHint where
  | unknownHint
  | increasingHint
  | decreasingHint
deriving DecidableEq, Repr

/-- Function `order2_func`: the two positions in order and the updated swap count. -/
def order2_func {α : Type} (less : α → α → Bool) (data : List α) (a b swaps : Nat) :
    Nat × Nat × Nat :=
  if lessAt less data b a then (b, a, swaps + 1) else (a, b, swaps)

/-- Function `median_func`: the position of the median of three and the updated swap count. -/
def median_func {α : Type} (less : α → α → Bool) (data : List α) (a b c swaps : Nat) :
    Nat × Nat :=
  let r1 := order2_func less data a b swaps
  let r2 := order2_func less data r1.2.1 c r1.2.2
  let r3 := order2_func less data r1.1 r2.1 r2.2.2
  (r3.2.1, r3.2.2)

/-- Function `medianAdjacent_func`. -/
def medianAdjacent_func {α : Type} (less : α → α → Bool) (data : List α) (a swaps : Nat) :
    Nat × Nat :=
  median_func less data (a - 1) a (a + 1) swaps

/-- Function `choosePivot_func`: the pivot position in `data[a:b]` and the hint. -/
def choosePivot_func {α : Type} (less : α → α → Bool) (data : List α) (a b : Nat) :
    Nat × sortedHint :=
  let l := b - a
  let i := a + l / 4 * 1
  let j := a + l / 4 * 2
  let k := a + l / 4 * 3
  let r :=
    if l ≥ 8 then
      if l ≥ 50 then
        let ri := medianAdjacent_func less data i 0
        let rj := medianAdjacent_func less data j ri.2
        let rk := medianAdjacent_func less data k rj.2
        median_func less data ri.1 rj.1 rk.1 rk.2
      else median_func less data i j k 0
    else (j, 0)
  if r.2 = 0 then (r.1, sortedHint.increasingHint)
  else if r.2 = 12 then (r.1, sortedHint.decreasingHint)
  else (r.1, sortedHint.unknownHint)

/-- Function `reverseRange_func`: `for i < j { data.Swap(i, j); i++; j-- }`. -/
def reverseLoop {α : Type} : Nat → List α → Nat → Nat → List α
  | 0, data, _, _ => data
  | n + 1, data, i, j => if i < j then reverseLoop n (swapAt data i j) (i + 1) (j - 1) else data

/-- Function `reverseRange_func`. -/
def reverseRange_func {α : Type} (data : List α) (a b : Nat) : List α :=
  reverseLoop (b - a) data a (b - 1)

/-- The scan `for i < b && !data.Less(i, i-1) { i++ }` of `partialInsertionSort_func`. -/
def skipOrdered {α : Type} (less : α → α → Bool) (data : List α) (b : Nat) : Nat → Nat → Nat
  | 0, i => i
  | n + 1, i => if i < b && !lessAt less data i (i - 1) then skipOrdered less data b n (i + 1) else i

/-- The loop `for j := i - 1; j >= 1; j--` of `partialInsertionSort_func`, started at `j`. -/
def shiftSmaller {α : Type} (less : α → α → Bool) : Nat → List α → List α
  | 0, data => data
  | j + 1, data =>
    if !lessAt less data (j + 1) j then data else shiftSmaller less j (swapAt data (j + 1) j)

/-- The loop `for j := i + 1; j < b; j++` of `partialInsertionSort_func`, started at `j`. -/
def shiftGreater {α : Type} (less : α → α → Bool) (b : Nat) : Nat → Nat → List α → List α
  | 0, _, data => data
  | n + 1, j, data =>
    if j < b then
      if !lessAt less data j (j - 1) then data
      else shiftGreater less b n (j + 1) (swapAt data j (j - 1))
    else data

/-- The loop `for j := 0; j < maxSteps; j++` of `partialInsertionSort_func`, with the number of
steps left and the running position `i`. -/
def partialInsertionLoop {α : Type} (less : α → α → Bool) (a b : Nat) :
    Nat → Nat → List α → List α × Bool
  | 0, _, data => (data, false)
  | s + 1, i, data =>
    let i := skipOrdered less data b (b - a) i
    if i = b then (data, true)
    else if b - a < 50 then (data, false)
    else
      let data := swapAt data i (i - 1)
      let data := if i - a ≥ 2 then shiftSmaller less (i - 1) data else data
      let data := if b - i ≥ 2 then shiftGreater less b (b - a) (i + 1) data else data
      partialInsertionLoop less a b s i data

/-- Function `partialInsertionSort_func`: the slice and whether it is sorted at the end. -/
def partialInsertionSort_func {α : Type} (less : α → α → Bool) (data : List α) (a b : Nat) :
    List α × Bool :=
  partialInsertionLoop less a b 5 (a + 1) data

/-- Step `Next` of the `xorshift` generator on `uint64`, with the shift amounts 13, 7 and 17 of
recent Go releases.  The properties proved below use only that the positions drawn with it lie
inside the segment. -/
def xorshiftNext (r : Nat) : Nat :=
  let r := r ^^^ ((r <<< 13) % 18446744073709551616)
  let r := r ^^^ (r >>> 7)
  r ^^^ ((r <<< 17) % 18446744073709551616)

/-- Function `bits.Len`: the number of bits needed to write `n`; the first argument bounds the
recursion. -/
def bitsLenAux : Nat → Nat → Nat
  | 0, _ => 0
  | f + 1, n => if n = 0 then 0 else bitsLenAux f (n / 2) + 1

/-- Function `bits.Len`. -/
def bitsLen (n : Nat) : Nat := bitsLenAux n n

/-- Function `nextPowerOfTwo`. -/
def nextPowerOfTwo (length : Nat) : Nat := 2 ^ bitsLen length

/-- The loop `for i := 0; i < 3; i++` of `breakPatterns_func`, with the iterations left.  The
modulus is a power of two, so `random & (modulus - 1)` is the remainder modulo it. -/
def breakLoop {α : Type} (a length modulus idx : Nat) : Nat → Nat → Nat → List α → List α
  | 0, _, _, data => data
  | n + 1, i, random, data =>
    let random := xorshiftNext random
    let other := random % modulus
    let other := if other ≥ length then other - length else other
    breakLoop a length modulus idx n (i + 1) random (swapAt data (idx - 1 + i) (a + other))

/-- Function `breakPatterns_func`. -/
def breakPatterns_func {α : Type} (data : List α) (a b : Nat) : List α :=
  let length := b - a
  if length ≥ 8 then
    breakLoop a length (nextPowerOfTwo length) (a + (length / 4) * 2 - 1) 3 0 length data
  else data

/-- The scan `for i <= j && data.Less(i, a) { i++ }` of `partition_func`. -/
def scanLess {α : Type} (less : α → α → Bool) (data : List α) (a j : Nat) : Nat → Nat → Nat
  | 0, i => i
  | n + 1, i => if i ≤ j && lessAt less data i a then scanLess less data a j n (i + 1) else i

/-- The scan `for i <= j && !data.Less(j, a) { j-- }` of `partition_func`. -/
def scanNotLess {α : Type} (less : α → α → Bool) (data : List α) (a i : Nat) : Nat → Nat
  | 0 => 0
  | j + 1 => if i ≤ j + 1 && !lessAt less data (j + 1) a then scanNotLess less data a i j else j + 1

/-- The main loop of `partition_func`, with the iterations left: the slice and the final `j`. -/
def partitionLoop {α : Type} (less : α → α → Bool) (a b : Nat) :
    Nat → List α → Nat → Nat → List α × Nat
  | 0, data, _, j => (data, j)
  | n + 1, data, i, j =>
    let i := scanLess less data a j (b - a) i
    let j := scanNotLess less data a i j
    if i > j then (data, j)
    else partitionLoop less a b n (swapAt data i j) (i + 1) (j - 1)

/-- Function `partition_func`: the slice, the new pivot position and whether the slice was
already partitioned. -/
def partition_func {α : Type} (less : α → α → Bool) (data : List α) (a b pivot : Nat) :
    List α × Nat × Bool :=
  let data := swapAt data a pivot
  let i := scanLess less data a (b - 1) (b - a) (a + 1)
  let j := scanNotLess less data a i (b - 1)
  if i > j then (swapAt data j a, j, true)
  else
    let r := partitionLoop less a b (b - a) (swapAt data i j) (i + 1) (j - 1)
    (swapAt r.1 r.2 a, r.2, false)

/-- The scan `for i <= j && !data.Less(a, i) { i++ }` of `partitionEqual_func`. -/
def scanNotGreater {α : Type} (less : α → α → Bool) (data : List α) (a j : Nat) :
    Nat → Nat → Nat
  | 0, i => i
  | n + 1, i =>
    if i ≤ j && !lessAt less data a i then scanNotGreater less data a j n (i + 1) else i

/-- The scan `for i <= j && data.Less(a, j) { j-- }` of `partitionEqual_func`. -/
def scanGreater {α : Type} (less : α → α → Bool) (data : List α) (a i : Nat) : Nat → Nat
  | 0 => 0
  | j + 1 => if i ≤ j + 1 && lessAt less data a (j + 1) then scanGreater less data a i j else j + 1

/-- The loop of `partitionEqual_func`, with the iterations left: the slice and the final `i`. -/
def partitionEqualLoop {α : Type} (less : α → α → Bool) (a b : Nat) :
    Nat → List α → Nat → Nat → List α × Nat
  | 0, data, i, _ => (data, i)
  | n + 1, data, i, j =>
    let i := scanNotGreater less data a j (b - a) i
    let j := scanGreater less data a i j
    if i > j then (data, i)
    else partitionEqualLoop less a b n (swapAt data i j) (i + 1) (j - 1)

/-- Function `partitionEqual_func`: the slice and the new pivot position. -/
def partitionEqual_func {α : Type} (less : α → α → Bool) (data : List α) (a b pivot : Nat) :
    List α × Nat :=
  partitionEqualLoop less a b (b - a) (swapAt data a pivot) (a + 1) (b - 1)

/-- Function `pdqsort_func` on `data[a:b]`.  The first argument bounds the loop iterations and
the depth of the recursive calls together; `wasBalanced` and `wasPartitioned` are the two local
flags, both `true` on entry. -/
def pdqsort_func {α : Type} (less : α → α → Bool) :
    Nat → List α → Nat → Nat → Nat → Bool → Bool → List α
  | 0, data, _, _, _, _, _ => data
  | fuel + 1, data, a, b, limit, wasBalanced, wasPartitioned =>
    if b - a ≤ 12 then insertionSort_func less data a b
    else if limit = 0 then heapSort_func less data a b
    else
      let data1 := if !wasBalanced then breakPatterns_func data a b else data
      let limit1 := if !wasBalanced then limit - 1 else limit
      let choice := choosePivot_func less data1 a b
      let data2 :=
        if choice.2 = sortedHint.decreasingHint then reverseRange_func data1 a b else data1
      let pivot :=
        if choice.2 = sortedHint.decreasingHint then (b - 1) - (choice.1 - a) else choice.1
      let hint :=
        if choice.2 = sortedHint.decreasingHint then sortedHint.increasingHint else choice.2
      let attempt :=
        if wasBalanced && wasPartitioned && hint = sortedHint.increasingHint then
          partialInsertionSort_func less data2 a b
        else (data2, false)
      if attempt.2 then attempt.1
      else if 0 < a && !lessAt less attempt.1 (a - 1) pivot then
        let r := partitionEqual_func less attempt.1 a b pivot
        pdqsort_func less fuel r.1 r.2 b limit1 wasBalanced wasPartitioned
      else
        let r := partition_func less attempt.1 a b pivot
        let mid := r.2.1
        if mid - a < b - mid then
          pdqsort_func less fuel (pdqsort_func less fuel r.1 a mid limit1 true true) (mid + 1) b
            limit1 (decide (mid - a ≥ (b - a) / 8)) r.2.2
        else
          pdqsort_func less fuel (pdqsort_func less fuel r.1 (mid + 1) b limit1 true true) a mid
            limit1 (decide (b - mid ≥ (b - a) / 8)) r.2.2

/-- Function `sort.Slice` with the element comparison `less`. -/
def Slice {α : Type} (less : α → α → Bool) (data : List α) : List α :=
  pdqsort_func less (data.length + 1) data 0 data.length (bitsLen data.length) true true

/-- Insertion of `x` into a sorted run given back to front: `x` moves past every element it is
`less` than and stops at the first one it is not. -/
def insertBack {α : Type} (less : α → α → Bool) (x : α) : List α → List α
  | [] => [x]
  | y :: ys => if less x y then y :: insertBack less x ys else x :: y :: ys

/-- Insertion sort as a fold: the elements are inserted one after the other, each from the
back of the run sorted so far. -/
def insertionFold {α : Type} (less : α → α → Bool) (l : List α) : List α :=
  (l.foldl (fun acc x => insertBack less x acc) []).reverse

/-! ## Notions used to verify `sort.Slice` -/

/-- The segment `data[a:b]`. -/
def seg {α : Type} (a b : Nat) (data : List α) : List α := (data.drop a).take (b - a)

/-- The slice `data2` rearranges `data1` and agrees with it outside the positions `[a, b)`. -/
def Frame {α : Type} (a b : Nat) (data1 data2 : List α) : Prop :=
  data2.Perm data1 ∧ ∀ k, (k < a ∨ b ≤ k) → data2[k]? = data1[k]?

/-- Every element at a position of `[a, b)` satisfies `P`. -/
def AllSeg {α : Type} (P : α → Prop) (a b : Nat) (data : List α) : Prop :=
  ∀ k x, a ≤ k → k < b → data[k]? = some x → P x

/-- The positions `[a, b)` hold their elements in order: none is `less` than an earlier one. -/
def SortedSeg {α : Type} (less : α → α → Bool) (a b : Nat) (data : List α) : Prop :=
  ∀ i j x y, a ≤ i → i < j → j < b → data[i]? = some x → data[j]? = some y → less y x = false

/-- No element of `data[a:b]` is `less` than the element just before the segment, when there is
one. -/
def LowerBound {α : Type} (less : α → α → Bool) (a b : Nat) (data : List α) : Prop :=
  0 < a → ∃ q, data[a - 1]? = some q ∧ AllSeg (fun x => less x q = false) a b data

/-- Heap order on the positions `first + r` for `lo ≤ r`: no node is `less` than a child of
it below `hi`. -/
def HeapFrom {α : Type} (less : α → α → Bool) (first lo hi : Nat) (data : List α) : Prop :=
  ∀ r c, lo ≤ r → (c = 2 * r + 1 ∨ c = 2 * r + 2) → c < hi →
    lessAt less data (first + r) (first + c) = false

/-! ## `RecommendationService.GetRecommendations` -/

/-- The loop of lines 65-68: `userAvailabilities[avail.UserID] = append(..., avail)`. -/
def groupAvailabilities (availabilities : List Availability) : List (UUID × List Availability) :=
  availabilities.foldl
    (fun m avail => mapSet m avail.UserID ((mapGet m avail.UserID).getD [] ++ [avail])) []

/-- The loop of lines 65-68: `userIDs[avail.UserID] = true`. -/
def collectUserIDs (availabilities : List Availability) : List (UUID × Bool) :=
  availabilities.foldl (fun m avail => mapSet m avail.UserID true) []

/-- The loop of lines 83-85: `userMap[user.ID] = user`. -/
def buildUserMap (users : List User) : List (UUID × User) :=
  users.foldl (fun m user => mapSet m user.ID user) []

/-- Line 92: `slot.StartTime.Add(time.Duration(event.Duration) * time.Minute)`. -/
def meetingEndTime (event : Event) (slot : TimeSlot) : Time :=
  slot.StartTime.Add (mulDuration event.Duration Minute)

/-- The condition of lines 120-121 for one availability record. -/
def covers (slot : TimeSlot) (meetingEnd : Time) (avail : Availability) : Bool :=
  (slot.StartTime.Equal avail.StartTime || slot.StartTime.After avail.StartTime) &&
    (meetingEnd.Equal avail.EndTime || meetingEnd.Before avail.EndTime)

/-- The loop of lines 116-125: is some record of the user a window that holds the meeting. -/
def isAvailable (slot : TimeSlot) (meetingEnd : Time) : List Availability → Bool
  | [] => false
  | avail :: rest => if covers slot meetingEnd avail then true else isAvailable slot meetingEnd rest

/-- The loop of lines 103-132 over the keys of `userAvailabilities` in the given order: the
attendees and the non-attendees of one slot. -/
def classifyUsers (userAvailabilities : List (UUID × List Availability))
    (userMap : List (UUID × User)) (slot : TimeSlot) (meetingEnd : Time) :
    List UUID → List UserResponse × List UserResponse
  | [] => ([], [])
  | userID :: rest =>
    let tail := classifyUsers userAvailabilities userMap slot meetingEnd rest
    match mapGet userMap userID with
    | none => tail
    | some user =>
      let userResponse : UserResponse := ⟨user.ID, user.Name, user.Email⟩
      if isAvailable slot meetingEnd ((mapGet userAvailabilities userID).getD []) then
        (userResponse :: tail.1, tail.2)
      else
        (tail.1, userResponse :: tail.2)

/-- Lines 91-146 for one slot: `none` when the meeting does not fit the slot, else its record.
`n` numbers the map traversal. -/
def recommendSlot (order : MapOrder) (event : Event)
    (userAvailabilities : List (UUID × List Availability)) (userMap : List (UUID × User))
    (n : Nat) (slot : TimeSlot) : Option Recommendation :=
  let meetingEnd := meetingEndTime event slot
  if meetingEnd.After slot.EndTime then none
  else
    let lists := classifyUsers userAvailabilities userMap slot meetingEnd
      (order.keys n (mapKeys userAvailabilities))
    some ⟨⟨slot.ID, slot.StartTime, meetingEnd⟩, lists.1, lists.2, (lists.1.length : Int)⟩

/-- The loop of lines 90-147: the records in slot order, before sorting.  The slot at position
`i` of `timeSlots` uses map traversal number `n + i`. -/
def slotLoop (order : MapOrder) (event : Event)
    (userAvailabilities : List (UUID × List Availability)) (userMap : List (UUID × User)) :
    Nat → List TimeSlot → List Recommendation
  | _, [] => []
  | n, slot :: rest =>
    match recommendSlot order event userAvailabilities userMap n slot with
    | none => slotLoop order event userAvailabilities userMap (n + 1) rest
    | some r => r :: slotLoop order event userAvailabilities userMap (n + 1) rest

/-- The comparison handed to `sort.Slice` at lines 150-152. -/
def scoreLess (a b : Recommendation) : Bool := decide (a.Score > b.Score)

/-- The type of a sorting routine applied to the recommendation slice with an element
comparison. -/
abbrev Sorter := (Recommendation → Recommendation → Bool) → List Recommendation →
  List Recommendation

/-- Lines 71-74: the distinct user IDs in the order of traversal number 0. -/
def uniqueUserIDs (order : MapOrder) (availabilities : List Availability) : List UUID :=
  order.keys 0 (mapKeys (collectUserIDs availabilities))

/-- Lines 61-152 once the fetches have succeeded: the ranked recommendations. -/
def computeRecommendations (sortSlice : Sorter) (order : MapOrder) (event : Event)
    (timeSlots : List TimeSlot) (availabilities : List Availability) (users : List User) :
    List Recommendation :=
  sortSlice scoreLess
    (slotLoop order event (groupAvailabilities availabilities) (buildUserMap users) 1 timeSlots)

/-- Method `GetRecommendations`: the response and the error it returns for an event id. -/
def GetRecommendations (sortSlice : Sorter) (order : MapOrder) (s : RecommendationService)
    (eventID : UUID) : Option RecommendationResponse × Option Error :=
  match s.eventRepo.GetByID eventID with
  | .error err => (none, some err)
  | .ok event =>
    match s.timeslotRepo.GetByEventID eventID with
    | .error err => (none, some err)
    | .ok timeSlots =>
      if timeSlots.length = 0 then (some ⟨[]⟩, none)
      else
        match s.availabilityRepo.GetByEventID eventID with
        | .error err => (none, some err)
        | .ok availabilities =>
          match s.userRepo.GetByIDs (uniqueUserIDs order availabilities) with
          | .error err => (none, some err)
          | .ok users =>
            (some ⟨computeRecommendations sortSlice order event timeSlots availabilities users⟩,
              none)

/-! ## Definitions used to state and prove the properties -/

/-- The attendee entry a key contributes at a slot, if any. -/
def attendeeEntry (userAvailabilities : List (UUID × List Availability))
    (userMap : List (UUID × User)) (slot : TimeSlot) (meetingEnd : Time) (userID : UUID) :
    Option UserResponse :=
  match mapGet userMap userID with
  | none => none
  | some user =>
    if isAvailable slot meetingEnd ((mapGet userAvailabilities userID).getD []) then
      some ⟨user.ID, user.Name, user.Email⟩
    else none

/-- The non-attendee entry a key contributes at a slot, if any. -/
def nonAttendeeEntry (userAvailabilities : List (UUID × List Availability))
    (userMap : List (UUID × User)) (slot : TimeSlot) (meetingEnd : Time) (userID : UUID) :
    Option UserResponse :=
  match mapGet userMap userID with
  | none => none
  | some user =>
    if isAvailable slot meetingEnd ((mapGet userAvailabilities userID).getD []) then none
    else some ⟨user.ID, user.Name, user.Email⟩

/-- The requirement Go places on a `less` function: a transitive ordering whose
incomparability is transitive too (a strict weak order). -/
def StrictWeakOrder {α : Type} (less : α → α → Bool) : Prop :=
  (∀ a, less a a = false) ∧
  (∀ a b c, less a b = true → less b c = true → less a c = true) ∧
  (∀ a b c, less a b = false → less b c = false → less a c = false)

/-- The documented contract of `sort.Slice`: for a strict weak order `less` the result is a
rearrangement of the slice in which no element is `less` than an earlier one. -/
def SortSliceSpec (sortSlice : Sorter) : Prop :=
  ∀ less, StrictWeakOrder less → ∀ l,
    (sortSlice less l).Perm l ∧ (sortSlice less l).Pairwise (fun a b => less b a = false)

/-- The four fetches of `GetRecommendations` succeed with the given values. -/
def Fetches (order : MapOrder) (s : RecommendationService) (eventID : UUID) (event : Event)
    (timeSlots : List TimeSlot) (availabilities : List Availability) (users : List User) :
    Prop :=
  s.eventRepo.GetByID eventID = .ok event ∧
  s.timeslotRepo.GetByEventID eventID = .ok timeSlots ∧
  s.availabilityRepo.GetByEventID eventID = .ok availabilities ∧
  s.userRepo.GetByIDs (uniqueUserIDs order availabilities) = .ok users

/-- The meeting fits the slot: the meeting end computed from the slot start and the event
duration is not after the slot end. -/
def Fits (event : Event) (slot : TimeSlot) : Prop :=
  (meetingEndTime event slot).unixNano ≤ slot.EndTime.unixNano

/-- One availability record on its own holds the whole meeting placed at the slot start. -/
def Covers (event : Event) (slot : TimeSlot) (avail : Availability) : Prop :=
  avail.StartTime.unixNano ≤ slot.StartTime.unixNano ∧
    (meetingEndTime event slot).unixNano ≤ avail.EndTime.unixNano

/-- The user has at least one availability record. -/
def HasAvailability (availabilities : List Availability) (userID : UUID) : Prop :=
  ∃ a ∈ availabilities, a.UserID = userID

/-- The user directory resolves the user ID. -/
def Resolves (users : List User) (userID : UUID) : Prop :=
  ∃ u ∈ users, u.ID = userID

/-- The IDs of the users listed in a slice of user responses. -/
def listedIDs (l : List UserResponse) : List UUID := l.map (fun x => x.ID)

/-- The time-slot triple the engine reports for a slot. -/
def slotTriple (event : Event) (slot : TimeSlot) : TimeSlotResponse :=
  ⟨slot.ID, slot.StartTime, meetingEndTime event slot⟩

instance (event : Event) (slot : TimeSlot) : Decidable (Fits event slot) := by
  unfold Fits
  infer_instance

/-! ## The scenario of `TestGetRecommendations` -/

/-- The instant `n` hours into the day of the test scenario. -/
def hour (n : Int) : Time := ⟨n * 3600000000000⟩

/-- The one-hour event of the test. -/
def testEvent : Event := ⟨1, "Test Meeting", "Test Description", 5, 60, "active", ⟨0⟩, ⟨0⟩⟩

/-- The two slots of the test: 10:00-12:00 and 14:00-16:00. -/
def testTimeSlots : List TimeSlot :=
  [⟨10, 1, hour 10, hour 12, ⟨0⟩, ⟨0⟩⟩, ⟨11, 1, hour 14, hour 16, ⟨0⟩, ⟨0⟩⟩]

/-- The availability of the test: user 5 is free for both slots, user 6 for the second. -/
def testAvailability : List Availability :=
  [⟨20, 5, 1, hour 10, hour 12, ⟨0⟩, ⟨0⟩⟩, ⟨21, 5, 1, hour 14, hour 16, ⟨0⟩, ⟨0⟩⟩,
    ⟨22, 6, 1, hour 14, hour 16, ⟨0⟩, ⟨0⟩⟩]

/-- The two users of the test. -/
def testUsers : List User :=
  [⟨5, "User 1", "user1@example.com", ⟨0⟩, ⟨0⟩⟩, ⟨6, "User 2", "user2@example.com", ⟨0⟩, ⟨0⟩⟩]

/-- A service whose four repositories return fixed values. -/
def fixedService (event : Event) (timeSlots : List TimeSlot)
    (availabilities : List Availability) (users : List User) : RecommendationService :=
  ⟨⟨fun _ => .ok event⟩, ⟨fun _ => .ok timeSlots⟩, ⟨fun _ => .ok availabilities⟩,
    ⟨fun _ => .ok users⟩⟩

/-- The mocked service of the test. -/
def testService : RecommendationService :=
  fixedService testEvent testTimeSlots testAvailability testUsers

/-- The 60-minute slot 10:00-11:00 of the skip-on-overflow example. -/
def overflowSlot : TimeSlot := ⟨10, 1, hour 10, hour 11, ⟨0⟩, ⟨0⟩⟩

/-- The 90-minute event of the skip-on-overflow example. -/
def overflowEvent : Event := ⟨1, "Test Meeting", "", 5, 90, "active", ⟨0⟩, ⟨0⟩⟩

/-- A service with an event and no slots whose availability and user fetches fail. -/
def emptySlotsService : RecommendationService :=
  ⟨⟨fun _ => .ok testEvent⟩, ⟨fun _ => .ok []⟩,
    ⟨fun _ => .error (Error.other "storage unavailable")⟩,
    ⟨fun _ => .error (Error.other "storage unavailable")⟩⟩

instance (availabilities : List Availability) (userID : UUID) :
    Decidable (HasAvailability availabilities userID) := by
  unfold HasAvailability
  infer_instance

instance (users : List User) (userID : UUID) : Decidable (Resolves users userID) := by
  unfold Resolves
  infer_instance

/-- The availability list without the records of users the directory does not resolve. -/
def withoutOrphans (users : List User) (availabilities : List Availability) :
    List Availability :=
  availabilities.filter (fun a => decide (Resolves users a.UserID))

/-- Two recommendations that agree up to the order inside the two user lists. -/
def SameLists (r r' : Recommendation) : Prop :=
  r'.TimeSlot = r.TimeSlot ∧ r'.Score = r.Score ∧ r'.Attendees.Perm r.Attendees ∧
    r'.NonAttendees.Perm r.NonAttendees

/-- The availability of the test with one more record, of a user the directory does not
know. -/
def orphanAvailability : List Availability :=
  testAvailability ++ [⟨23, 7, 1, hour 10, hour 16, ⟨0⟩, ⟨0⟩⟩]

/-- The 60-minute slot 10:00-11:00 with the availability 10:00-11:00 of user 5. -/
def boundaryService : RecommendationService :=
  fixedService testEvent [overflowSlot] [⟨20, 5, 1, hour 10, hour 11, ⟨0⟩, ⟨0⟩⟩] testUsers

/-- The records of lines 90-147 in slot order, as they stand before `sort.Slice` is called. -/
def slotOrderRecommendations (order : MapOrder) (event : Event) (timeSlots : List TimeSlot)
    (availabilities : List Availability) (users : List User) : List Recommendation :=
  slotLoop order event (groupAvailabilities availabilities) (buildUserMap users) 1 timeSlots

/-- The ranking `recs` keeps recommendations of equal score in the order they have in
`unsorted`: for every score, both lists hold the same recommendations of that score in the
same order. -/
def StableRanking (recs unsorted : List Recommendation) : Prop :=
  ∀ k : Int, recs.filter (fun r => decide (r.Score = k)) =
    unsorted.filter (fun r => decide (r.Score = k))

/-- Thirteen one-hour slots, slot `i` running from hour `i` to hour `i + 1`. -/
def thirteenSlots : List TimeSlot :=
  (List.range 13).map (fun i => ⟨i, 1, hour i, hour (i + 1), ⟨0⟩, ⟨0⟩⟩)

/-- User 5 is free from hour 12 to hour 13 only. -/
def thirteenAvailability : List Availability := [⟨20, 5, 1, hour 12, hour 13, ⟨0⟩, ⟨0⟩⟩]

/-- The one-hour event with thirteen slots, of which user 5 can attend the last only. -/
def thirteenService : RecommendationService :=
  fixedService testEvent thirteenSlots thirteenAvailability testUsers


/-! ## `pkg/timeutil`

The interval functions of `pkg/timeutil/timeutil.go`.  `Time.Sub` belongs to the standard
library; it is modelled after its source: the difference is computed on `int64` and replaced
by the largest or smallest duration when it does not fit. -/

/-- The zero `time.Time`: January 1 of year 1, 00:00:00 UTC. -/
def Time.zero : Time := ⟨-62135596800000000000⟩

/-- The largest `time.Duration`. -/
def maxDuration : Duration := 9223372036854775807

/-- The smallest `time.Duration`. -/
def minDuration : Duration := -9223372036854775808

/-- Method `Time.Sub`: the duration `t - u`, or the largest (smallest) duration when `t - u`
exceeds it. -/
def Time.Sub (t u : Time) : Duration :=
  let d := wrapInt64 (t.unixNano - u.unixNano)
  if (u.Add d).Equal t then d
  else if t.Before u then minDuration
  else maxDuration

/-- Type `timeutil.TimeRange`. -/
structure TimeRange where
  Start : Time
  End : Time
deriving DecidableEq, Repr

/-- The zero value `TimeRange{}`. -/
def TimeRange.zero : TimeRange := ⟨Time.zero, Time.zero⟩

/-- Method `TimeRange.Overlaps` (lines 14-17). -/
def TimeRange.Overlaps (tr other : TimeRange) : Bool :=
  (tr.Start.Before other.End || tr.Start.Equal other.End) &&
    (tr.End.After other.Start || tr.End.Equal other.Start)

/-- Method `TimeRange.Contains` (lines 20-23). -/
def TimeRange.Contains (tr other : TimeRange) : Bool :=
  (tr.Start.Before other.Start || tr.Start.Equal other.Start) &&
    (tr.End.After other.End || tr.End.Equal other.End)

/-- Method `TimeRange.Duration` (lines 26-28). -/
def TimeRange.Duration (tr : TimeRange) : Duration := tr.End.Sub tr.Start

/-- Function `FindOverlap` (lines 31-50): the overlap and whether there is one. -/
def FindOverlap (a b : TimeRange) : TimeRange × Bool :=
  if !a.Overlaps b then (TimeRange.zero, false)
  else
    let start := if b.Start.After a.Start then b.Start else a.Start
    let end_ := if b.End.Before a.End then b.End else a.End
    (⟨start, end_⟩, true)

/-- The inner loop of lines 69-73: the overlaps of the common ranges with one availability,
in the order of the common ranges. -/
def overlapsWith (availability : TimeRange) : List TimeRange → List TimeRange
  | [] => []
  | common :: rest =>
    let found := FindOverlap common availability
    if found.2 then found.1 :: overlapsWith availability rest
    else overlapsWith availability rest

/-- The loop of lines 66-76 from index `i` on; `fuel` bounds the number of rounds. -/
def commonLoop (availabilities : List TimeRange) :
    Nat → Nat → List TimeRange → List TimeRange
  | 0, _, commonRanges => commonRanges
  | fuel + 1, i, commonRanges =>
    if h : i < availabilities.length then
      commonLoop availabilities fuel (i + 1)
        (overlapsWith (availabilities.get ⟨i, h⟩) commonRanges)
    else commonRanges

/-- Function `FindCommonAvailability` (lines 53-79). -/
def FindCommonAvailability (availabilities : List TimeRange) : List TimeRange :=
  if h : availabilities.length = 0 then []
  else if availabilities.length = 1 then availabilities
  else
    commonLoop availabilities availabilities.length 1
      [availabilities.get ⟨0, Nat.pos_of_ne_zero h⟩]

/-- The loop of lines 143-148: the ranges no shorter than the required duration. -/
def validRanges (duration : Duration) : List TimeRange → List TimeRange
  | [] => []
  | r :: rest =>
    if r.Duration ≥ duration then r :: validRanges duration rest
    else validRanges duration rest

/-- Function `GetCommonTimeSlots` (lines 134-151). -/
def GetCommonTimeSlots (slots : List TimeRange) (duration : Duration) : List TimeRange :=
  if slots.length = 0 then []
  else validRanges duration (FindCommonAvailability slots)

/-! ## Examples for the interval functions -/

/-- The instant `n` minutes into the day of the examples. -/
def minute (n : Int) : Time := ⟨n * 60000000000⟩

/-- The range 09:00-09:30, thirty minutes long. -/
def halfHourRange : TimeRange := ⟨minute 540, minute 570⟩

/-- The range 09:00-10:30, ninety minutes long. -/
def ninetyMinuteRange : TimeRange := ⟨minute 540, minute 630⟩

/-- The range 09:00-10:00. -/
def morningRange : TimeRange := ⟨hour 9, hour 10⟩

/-- The range 10:00-11:00, which starts at the instant `morningRange` ends. -/
def lateMorningRange : TimeRange := ⟨hour 10, hour 11⟩

/-- The range 13:00-14:00. -/
def afternoonRange : TimeRange := ⟨hour 13, hour 14⟩

/-! ## The no-union example -/

/-- The slot 09:00-10:00 of the no-union example. -/
def noUnionSlot : TimeSlot := ⟨10, 1, minute 540, minute 600, ⟨0⟩, ⟨0⟩⟩

/-- The records 09:00-09:30 and 09:45-10:15 of user 5. -/
def noUnionAvailability : List Availability :=
  [⟨20, 5, 1, minute 540, minute 570, ⟨0⟩, ⟨0⟩⟩, ⟨21, 5, 1, minute 585, minute 615, ⟨0⟩, ⟨0⟩⟩]

/-- The records 09:00-09:30 and 09:30-10:15 of user 5, which leave no gap between them. -/
def adjoiningAvailability : List Availability :=
  [⟨20, 5, 1, minute 540, minute 570, ⟨0⟩, ⟨0⟩⟩, ⟨21, 5, 1, minute 570, minute 615, ⟨0⟩, ⟨0⟩⟩]

/-- The one-hour event with the slot 09:00-10:00 and the given availability records. -/
def noUnionService (availabilities : List Availability) : RecommendationService :=
  fixedService testEvent [noUnionSlot] availabilities testUsers

/-- The records of the user taken together cover the meeting placed at the slot start: every
instant from the slot start to the computed meeting end lies in some record of the user. -/
def UnionCovers (event : Event) (slot : TimeSlot) (availabilities : List Availability)
    (userID : UUID) : Prop :=
  ∀ t : Int, slot.StartTime.unixNano ≤ t → t ≤ (meetingEndTime event slot).unixNano →
    ∃ a ∈ availabilities, a.UserID = userID ∧ a.StartTime.unixNano ≤ t ∧
      t ≤ a.EndTime.unixNano

/-! ## Definitions used to state the properties of the common ranges -/

/-- The range from the latest start to the earliest end of a range and the ranges after it. -/
def commonBox (c : TimeRange) (rest : List TimeRange) : TimeRange :=
  rest.foldl (fun b r =>
    ⟨⟨max b.Start.unixNano r.Start.unixNano⟩, ⟨min b.End.unixNano r.End.unixNano⟩⟩) c

/-- Every two ranges at different positions of the list overlap. -/
def PairwiseOverlap (l : List TimeRange) : Prop :=
  l.Pairwise (fun a b => a.Overlaps b = true)

/-- The instant 2025-01-15T10:00:00Z. -/
def date2025 : Time := ⟨1736935200000000000⟩

/-- The range from the zero time to 2025-01-15T10:00:00Z. -/
def twoMillenniaRange : TimeRange := ⟨Time.zero, date2025⟩

/-- The number of distinct user IDs that occur in the availability list and that the user
directory resolves. -/
def resolvedUserCount (availabilities : List Availability) (users : List User) : Nat :=
  ((availabilities.map (fun a => a.UserID)).dedup.filter
    (fun uid => decide (Resolves users uid))).length

/-- The availability range of a record. -/
def availabilityRange (avail : Availability) : TimeRange := ⟨avail.StartTime, avail.EndTime⟩

/-- The range a meeting placed at the start of the slot takes. -/
def meetingRange (event : Event) (slot : TimeSlot) : TimeRange :=
  ⟨slot.StartTime, meetingEndTime event slot⟩

/-! ## `internal/service`: the time-slot service and the availability service

`time.Parse(time.RFC3339, ·)` and `time.Now()` belong to the standard library: the parser is a
parameter `parse` of each operation and the reading of the clock a parameter `now`.  The
repository methods `Create` and `Update` take a pointer to the entity: they are functions that
return the entity as the call leaves it together with the error.  An operation returns its
Go result pair and the list of the `Create` and `Update` calls it made. -/

/-- Model `models.TimeSlotRequest`. -/
structure TimeSlotRequest where
  StartTime : String
  EndTime : String
deriving DecidableEq, Repr

/-- Model `models.AvailabilityRequest`. -/
structure AvailabilityRequest where
  UserID : UUID
  StartTime : String
  EndTime : String
deriving DecidableEq, Repr

/-- The zero identifier `uuid.Nil`, which a new entity carries until the repository assigns
one. -/
def uuidNil : UUID := 0

/-- A call to a repository method that writes, with the entity handed to it. -/
inductive WriteCall where
  | createTimeSlot (slot : TimeSlot)
  | updateTimeSlot (slot : TimeSlot)
  | createAvailability (availability : Availability)
  | updateAvailability (availability : Availability)
deriving DecidableEq, Repr

/-- The methods of `repository.TimeSlotRepository` that `TimeSlotService` calls. -/
structure TimeSlotStore where
  Create : TimeSlot → TimeSlot × Option Error
  GetByID : UUID → Except Error TimeSlot
  Update : TimeSlot → TimeSlot × Option Error

/-- The methods of `repository.AvailabilityRepository` that `AvailabilityService` calls. -/
structure AvailabilityStore where
  Create : Availability → Availability × Option Error
  Update : Availability → Availability × Option Error
  GetByUserAndEvent : UUID → UUID → Except Error (List Availability)

/-- The method of `repository.UserRepository` that `AvailabilityService` calls. -/
structure UserLookup where
  GetByID : UUID → Except Error User

/-- Struct `TimeSlotService`. -/
structure TimeSlotService where
  timeslotRepo : TimeSlotStore
  eventRepo : EventRepository

/-- Struct `AvailabilityService`. -/
structure AvailabilityService where
  availabilityRepo : AvailabilityStore
  eventRepo : EventRepository
  userRepo : UserLookup

/-- The result pair `(*T, error)` of an operation and the writes it made, in order. -/
structure Outcome (α : Type) where
  value : Option α
  err : Option Error
  writes : List WriteCall
deriving DecidableEq, Repr

/-- Method `TimeSlotService.CreateTimeSlot` (lines 32-69). -/
def CreateTimeSlot (parse : String → Except Error Time) (now : Time) (s : TimeSlotService)
    (eventID : UUID) (req : TimeSlotRequest) : Outcome TimeSlot :=
  match s.eventRepo.GetByID eventID with
  | .error err => ⟨none, some err, []⟩
  | .ok _ =>
    match parse req.StartTime with
    | .error err => ⟨none, some err, []⟩
    | .ok startTime =>
      match parse req.EndTime with
      | .error err => ⟨none, some err, []⟩
      | .ok endTime =>
        if endTime.Before startTime || endTime.Equal startTime then
          ⟨none, some Error.ErrInvalidTimeRange, []⟩
        else
          let slot : TimeSlot := ⟨uuidNil, eventID, startTime, endTime, now, now⟩
          match s.timeslotRepo.Create slot with
          | (_, some err) => ⟨none, some err, [WriteCall.createTimeSlot slot]⟩
          | (stored, none) => ⟨some stored, none, [WriteCall.createTimeSlot slot]⟩

/-- Method `TimeSlotService.UpdateTimeSlot` (lines 77-108). -/
def UpdateTimeSlot (parse : String → Except Error Time) (now : Time) (s : TimeSlotService)
    (id : UUID) (req : TimeSlotRequest) : Outcome TimeSlot :=
  match s.timeslotRepo.GetByID id with
  | .error err => ⟨none, some err, []⟩
  | .ok slot =>
    match parse req.StartTime with
    | .error err => ⟨none, some err, []⟩
    | .ok startTime =>
      match parse req.EndTime with
      | .error err => ⟨none, some err, []⟩
      | .ok endTime =>
        if endTime.Before startTime || endTime.Equal startTime then
          ⟨none, some Error.ErrInvalidTimeRange, []⟩
        else
          let slot : TimeSlot :=
            { slot with StartTime := startTime, EndTime := endTime, UpdatedAt := now }
          match s.timeslotRepo.Update slot with
          | (_, some err) => ⟨none, some err, [WriteCall.updateTimeSlot slot]⟩
          | (stored, none) => ⟨some stored, none, [WriteCall.updateTimeSlot slot]⟩

/-- Method `AvailabilityService.CreateAvailability` (lines 35-79). -/
def CreateAvailability (parse : String → Except Error Time) (now : Time)
    (s : AvailabilityService) (eventID : UUID) (req : AvailabilityRequest) :
    Outcome Availability :=
  match s.eventRepo.GetByID eventID with
  | .error err => ⟨none, some err, []⟩
  | .ok _ =>
    match s.userRepo.GetByID req.UserID with
    | .error err => ⟨none, some err, []⟩
    | .ok _ =>
      match parse req.StartTime with
      | .error err => ⟨none, some err, []⟩
      | .ok startTime =>
        match parse req.EndTime with
        | .error err => ⟨none, some err, []⟩
        | .ok endTime =>
          if endTime.Before startTime || endTime.Equal startTime then
            ⟨none, some Error.ErrInvalidTimeRange, []⟩
          else
            let availability : Availability :=
              ⟨uuidNil, req.UserID, eventID, startTime, endTime, now, now⟩
            match s.availabilityRepo.Create availability with
            | (_, some err) => ⟨none, some err, [WriteCall.createAvailability availability]⟩
            | (stored, none) =>
              ⟨some stored, none, [WriteCall.createAvailability availability]⟩

/-- Method `AvailabilityService.UpdateAvailability` (lines 82-118); `id` is the event the
records are looked up for. -/
def UpdateAvailability (parse : String → Except Error Time) (now : Time)
    (s : AvailabilityService) (id : UUID) (req : AvailabilityRequest) :
    Outcome Availability :=
  match s.availabilityRepo.GetByUserAndEvent req.UserID id with
  | .error _ => ⟨none, some Error.ErrAvailabilityNotFound, []⟩
  | .ok availabilities =>
    if h : availabilities.length = 0 then ⟨none, some Error.ErrAvailabilityNotFound, []⟩
    else
      let availability := availabilities.get ⟨0, Nat.pos_of_ne_zero h⟩
      match parse req.StartTime with
      | .error err => ⟨none, some err, []⟩
      | .ok startTime =>
        match parse req.EndTime with
        | .error err => ⟨none, some err, []⟩
        | .ok endTime =>
          if endTime.Before startTime || endTime.Equal startTime then
            ⟨none, some Error.ErrInvalidTimeRange, []⟩
          else
            let availability : Availability :=
              { availability with
                StartTime := startTime, EndTime := endTime, UpdatedAt := now }
            match s.availabilityRepo.Update availability with
            | (_, some err) => ⟨none, some err, [WriteCall.updateAvailability availability]⟩
            | (stored, none) =>
              ⟨some stored, none, [WriteCall.updateAvailability availability]⟩

/-! ## Definitions used to state the properties of the services -/

/-- The outcome of a rejected time range: no entity, the error `ErrInvalidTimeRange`, and no
`Create` or `Update` call. -/
def RejectedRange {α : Type} (out : Outcome α) : Prop :=
  out.value = none ∧ out.err = some Error.ErrInvalidTimeRange ∧ out.writes = []

/-- The repository write reports errors of its own, never the validation error
`ErrInvalidTimeRange`; the GORM repositories return the errors of the database. -/
def ReportsOwnErrors {α : Type} (write : α → α × Option Error) : Prop :=
  ∀ x, (write x).2 ≠ some Error.ErrInvalidTimeRange

/-- The repository write leaves the start and the end of the time slot it is handed as they
are; the GORM repository assigns the ID of a new slot and stores the slot. -/
def KeepsSlotTimes (write : TimeSlot → TimeSlot × Option Error) : Prop :=
  ∀ x, (write x).1.StartTime = x.StartTime ∧ (write x).1.EndTime = x.EndTime

/-- The repository write leaves the start and the end of the availability record it is handed
as they are. -/
def KeepsAvailabilityTimes (write : Availability → Availability × Option Error) : Prop :=
  ∀ x, (write x).1.StartTime = x.StartTime ∧ (write x).1.EndTime = x.EndTime

/-- The parser of the examples: it knows 10:00, 12:00, 14:00 and 16:00 of 2025-01-15. -/
def parseExample (s : String) : Except Error Time :=
  if s = "2025-01-15T10:00:00Z" then .ok (hour 10)
  else if s = "2025-01-15T12:00:00Z" then .ok (hour 12)
  else if s = "2025-01-15T14:00:00Z" then .ok (hour 14)
  else if s = "2025-01-15T16:00:00Z" then .ok (hour 16)
  else .error (Error.other "parsing time: cannot parse")

/-- A time-slot repository that assigns ID 77 to a new slot, holds the slot 10:00-12:00 under
every ID, and stores what it is handed. -/
def exampleTimeSlotStore : TimeSlotStore :=
  ⟨fun slot => ({ slot with ID := 77 }, none),
    fun id => .ok ⟨id, 1, hour 10, hour 12, ⟨0⟩, ⟨0⟩⟩,
    fun slot => (slot, none)⟩

/-- The time-slot service of the examples. -/
def exampleTimeSlotService : TimeSlotService := ⟨exampleTimeSlotStore, ⟨fun _ => .ok testEvent⟩⟩

/-- The two records of user 5 for the event of the examples: 10:00-12:00 and 14:00-16:00. -/
def exampleRecords : List Availability :=
  [⟨20, 5, 1, hour 10, hour 12, ⟨0⟩, ⟨0⟩⟩, ⟨21, 5, 1, hour 14, hour 16, ⟨0⟩, ⟨0⟩⟩]

/-- An availability repository that assigns ID 88 to a new record, returns the given records
for every user and event, and stores what it is handed. -/
def exampleAvailabilityStore (records : Except Error (List Availability)) :
    AvailabilityStore :=
  ⟨fun a => ({ a with ID := 88 }, none), fun a => (a, none), fun _ _ => records⟩

/-- The availability service of the examples over the given records. -/
def exampleAvailabilityService (records : Except Error (List Availability)) :
    AvailabilityService :=
  ⟨exampleAvailabilityStore records, ⟨fun _ => .ok testEvent⟩,
    ⟨fun id => .ok ⟨id, "User 1", "user1@example.com", ⟨0⟩, ⟨0⟩⟩⟩⟩

/-- What the validation of the time range promises of the outcome of an operation that parsed
`startTime` and `endTime`: the range is rejected, without a write, exactly when the end is not
after the start; when the repository reports errors of its own only, the error
`ErrInvalidTimeRange` with no entity is returned exactly then; and a returned entity comes
with no error, from a range whose end is after its start, after one write, and has its start
before its end when the repository leaves the times as they are. -/
def ValidatesRange {α : Type} (startTime endTime : Time) (ownErrors keepsTimes : Prop)
    (startOf endOf : α → Time) (out : Outcome α) : Prop :=
  (RejectedRange out ↔ endTime.unixNano ≤ startTime.unixNano) ∧
  (ownErrors →
    (out.value = none ∧ out.err = some Error.ErrInvalidTimeRange ↔
      endTime.unixNano ≤ startTime.unixNano)) ∧
  (∀ x, out.value = some x →
    out.err = none ∧ startTime.unixNano < endTime.unixNano ∧ out.writes.length = 1 ∧
      (keepsTimes → (startOf x).unixNano < (endOf x).unixNano))

/-! ## `sort.Slice` before Go 1.19

From Go 1.8, which introduced `sort.Slice`, to Go 1.18 the routine is the quicksort
`quickSort_func`; Go 1.19 replaced it by the pattern-defeating quicksort modelled by `Slice`.
The repository pins no Go release.  On a range of at most 12 elements `quickSort_func` skips
its partitioning loop and ends with a pass over the elements six positions apart followed by
`insertionSort_func`; that end of the routine is what is modelled here. -/

/-- The pass `for i := a + 6; i < b; i++ { if data.Less(i, i-6) { data.Swap(i, i-6) } }` of
`quickSort_func`, from index `i` on, with `n` bounding the iterations left. -/
def shellPass {α : Type} (less : α → α → Bool) (b : Nat) : Nat → Nat → List α → List α
  | 0, _, data => data
  | n + 1, i, data =>
    if i < b then
      shellPass less b n (i + 1)
        (if lessAt less data i (i - 6) then swapAt data i (i - 6) else data)
    else data

/-- The end of `quickSort_func`, which a range `data[a:b]` of at most 12 elements reaches at
once: `if b-a > 1 { the pass with gap 6; insertionSort_func(data, a, b) }`. -/
def quickSortTail_func {α : Type} (less : α → α → Bool) (data : List α) (a b : Nat) : List α :=
  if b - a > 1 then insertionSort_func less (shellPass less b (b - a) (a + 6) data) a b
  else data

/-- Function `sort.Slice` of Go 1.8 to Go 1.18 on a slice of at most 12 elements.  A longer
slice goes through the partitioning loop of `quickSort_func` first, which is not modelled:
the definition stands for `sort.Slice` on at most 12 elements only. -/
def SliceLegacy {α : Type} (less : α → α → Bool) (data : List α) : List α :=
  quickSortTail_func less data 0 data.length

/-- The sorting routine sorts a slice of at most `k` elements by `insertionSort_func` alone. -/
def InsertionSortUpTo (sortSlice : Sorter) (k : Nat) : Prop :=
  ∀ less l, l.length ≤ k → sortSlice less l = insertionSort_func less l 0 l.length

/-- One-hour slots `0, ..., n - 1`, slot `i` running from hour `i` to hour `i + 1`. -/
def hourlySlots (n : Nat) : List TimeSlot :=
  (List.range n).map (fun i => ⟨i, 1, hour i, hour (i + 1), ⟨0⟩, ⟨0⟩⟩)

/-- User 5 is free from hour 2 to hour 3 and from hour 5 to hour 6. -/
def tiedAvailability : List Availability :=
  [⟨20, 5, 1, hour 2, hour 3, ⟨0⟩, ⟨0⟩⟩, ⟨21, 5, 1, hour 5, hour 6, ⟨0⟩, ⟨0⟩⟩]

/-- The one-hour event with six slots, of which user 5 can attend slots 2 and 5: two
recommendations tie at score 1 and four at score 0. -/
def tiedService : RecommendationService :=
  fixedService testEvent (hourlySlots 6) tiedAvailability testUsers

/-- User 5 is free from hour 6 to hour 7 only. -/
def seventhAvailability : List Availability := [⟨20, 5, 1, hour 6, hour 7, ⟨0⟩, ⟨0⟩⟩]

/-! ## An event too long for `time.Duration`

`time.Duration(event.Duration) * time.Minute` is a signed 64-bit product: from 153,722,867
minutes on (about 292 years) it exceeds the largest `time.Duration` and wraps around.  The
request binding accepts every duration of at least one minute. -/

/-- An event of 153,722,868 minutes. -/
def longEvent : Event := ⟨1, "Test Meeting", "", 5, 153722868, "active", ⟨0⟩, ⟨0⟩⟩

/-- The slot that starts at 10:00 and lasts 153,722,868 minutes: the event fits it exactly. -/
def longSlot : TimeSlot :=
  ⟨10, 1, hour 10, ⟨36000000000000 + 153722868 * 60000000000⟩, ⟨0⟩, ⟨0⟩⟩

/-- The availability 10:00-11:00 of user 5. -/
def oneHourAvailability : List Availability := [⟨20, 5, 1, hour 10, hour 11, ⟨0⟩, ⟨0⟩⟩]

/-- The availability records 10:00-10:30 and 10:45-11:15 of user 5. -/
def splitAvailability : List Availability :=
  [⟨20, 5, 1, minute 600, minute 630, ⟨0⟩, ⟨0⟩⟩, ⟨21, 5, 1, minute 645, minute 675, ⟨0⟩, ⟨0⟩⟩]

/-- The availability of user 5 from 10:00 to the end of the long slot. -/
def longAvailability : List Availability :=
  [⟨20, 5, 1, hour 10, ⟨36000000000000 + 153722868 * 60000000000⟩, ⟨0⟩, ⟨0⟩⟩]
/-! ## Lemmas on Go maps -/

theorem mapGet_mapSet_self {ν : Type} (m : List (UUID × ν)) (k : UUID) (v : ν) :
    mapGet (mapSet m k v) k = some v := by
  induction m with
  | nil => simp [mapSet, mapGet]
  | cons p rest ih =>
    obtain ⟨k', v'⟩ := p
    by_cases h : k' = k
    · simp [mapSet, mapGet, h]
    · simp [mapSet, mapGet, h, ih]

theorem mapGet_mapSet_ne {ν : Type} (m : List (UUID × ν)) (k j : UUID) (v : ν) (hne : j ≠ k) :
    mapGet (mapSet m k v) j = mapGet m j := by
  induction m with
  | nil => simp [mapSet, mapGet, Ne.symm hne]
  | cons p rest ih =>
    obtain ⟨k', v'⟩ := p
    by_cases h : k' = k
    · subst h
      simp [mapSet, mapGet, Ne.symm hne]
    · by_cases h2 : k' = j
      · subst h2
        simp [mapSet, mapGet, h]
      · simp [mapSet, mapGet, h, h2, ih]

theorem mapGet_eq_none_iff {ν : Type} (m : List (UUID × ν)) (k : UUID) :
    mapGet m k = none ↔ k ∉ mapKeys m := by
  induction m with
  | nil => simp [mapGet, mapKeys]
  | cons p rest ih =>
    obtain ⟨k', v'⟩ := p
    by_cases h : k' = k
    · simp [mapGet, mapKeys, h]
    · have h' : ¬ k = k' := fun e => h e.symm
      simp only [mapKeys] at ih
      simp [mapGet, mapKeys, h, h', ih]

theorem mapGet_isSome_iff {ν : Type} (m : List (UUID × ν)) (k : UUID) :
    (∃ v, mapGet m k = some v) ↔ k ∈ mapKeys m := by
  rw [← not_iff_not, ← mapGet_eq_none_iff]
  cases mapGet m k <;> simp

theorem mapKeys_mapSet {ν : Type} (m : List (UUID × ν)) (k : UUID) (v : ν) :
    mapKeys (mapSet m k v) = if k ∈ mapKeys m then mapKeys m else mapKeys m ++ [k] := by
  induction m with
  | nil => simp [mapSet, mapKeys]
  | cons p rest ih =>
    obtain ⟨k', v'⟩ := p
    simp only [mapKeys] at ih
    by_cases h : k' = k
    · simp [mapSet, mapKeys, h]
    · have h' : ¬ k = k' := fun e => h e.symm
      by_cases hm : k ∈ List.map Prod.fst rest
      · simp [mapSet, mapKeys, h, h', hm, ih]
      · simp [mapSet, mapKeys, h, h', hm, ih]

theorem mem_mapKeys_mapSet {ν : Type} (m : List (UUID × ν)) (k j : UUID) (v : ν) :
    j ∈ mapKeys (mapSet m k v) ↔ j ∈ mapKeys m ∨ j = k := by
  rw [mapKeys_mapSet]
  by_cases hm : k ∈ mapKeys m
  · simp only [hm, if_true]
    constructor
    · exact Or.inl
    · rintro (h | h)
      · exact h
      · exact h ▸ hm
  · simp [hm]

theorem nodup_mapKeys_mapSet {ν : Type} (m : List (UUID × ν)) (k : UUID) (v : ν)
    (h : (mapKeys m).Nodup) : (mapKeys (mapSet m k v)).Nodup := by
  rw [mapKeys_mapSet]
  by_cases hm : k ∈ mapKeys m
  · simpa [hm] using h
  · simp only [hm, if_false]
    rw [List.nodup_append]
    refine ⟨h, List.nodup_singleton k, ?_⟩
    intro a ha hb
    simp at hb
    exact hm (hb ▸ ha)

/-! ## Lemmas on the grouping loops -/

theorem groupAvailabilities_fold (availabilities : List Availability)
    (m : List (UUID × List Availability)) (k : UUID) :
    (mapGet (availabilities.foldl
      (fun m avail => mapSet m avail.UserID ((mapGet m avail.UserID).getD [] ++ [avail])) m)
        k).getD [] = (mapGet m k).getD [] ++ availabilities.filter (fun a => a.UserID = k) := by
  induction availabilities generalizing m with
  | nil => simp
  | cons a rest ih =>
    rw [List.foldl_cons, ih]
    by_cases h : a.UserID = k
    · subst h
      simp [mapGet_mapSet_self]
    · have h' : k ≠ a.UserID := fun e => h e.symm
      simp [mapGet_mapSet_ne _ _ _ _ h', h]

theorem groupAvailabilities_keys_fold (availabilities : List Availability)
    (m : List (UUID × List Availability)) (k : UUID) :
    k ∈ mapKeys (availabilities.foldl
      (fun m avail => mapSet m avail.UserID ((mapGet m avail.UserID).getD [] ++ [avail])) m) ↔
      k ∈ mapKeys m ∨ ∃ a ∈ availabilities, a.UserID = k := by
  induction availabilities generalizing m with
  | nil => simp
  | cons a rest ih =>
    rw [List.foldl_cons, ih, mem_mapKeys_mapSet]
    simp only [List.mem_cons, exists_eq_or_imp]
    constructor
    · rintro ((h | h) | h)
      · exact Or.inl h
      · exact Or.inr (Or.inl h.symm)
      · exact Or.inr (Or.inr h)
    · rintro (h | h | h)
      · exact Or.inl (Or.inl h)
      · exact Or.inl (Or.inr h.symm)
      · exact Or.inr h

theorem groupAvailabilities_nodup_fold (availabilities : List Availability)
    (m : List (UUID × List Availability)) (h : (mapKeys m).Nodup) :
    (mapKeys (availabilities.foldl
      (fun m avail => mapSet m avail.UserID ((mapGet m avail.UserID).getD [] ++ [avail]))
        m)).Nodup := by
  induction availabilities generalizing m with
  | nil => simpa using h
  | cons a rest ih =>
    rw [List.foldl_cons]
    exact ih _ (nodup_mapKeys_mapSet _ _ _ h)

/-- The records grouped under a user are that user's records, in input order. -/
theorem groupAvailabilities_get (availabilities : List Availability) (k : UUID) :
    (mapGet (groupAvailabilities availabilities) k).getD [] =
      availabilities.filter (fun a => a.UserID = k) := by
  unfold groupAvailabilities
  rw [groupAvailabilities_fold]
  simp [mapGet]

/-- The keys of the grouping are the user IDs that occur in the availability list. -/
theorem mem_groupAvailabilities_keys (availabilities : List Availability) (k : UUID) :
    k ∈ mapKeys (groupAvailabilities availabilities) ↔ ∃ a ∈ availabilities, a.UserID = k := by
  unfold groupAvailabilities
  rw [groupAvailabilities_keys_fold]
  simp [mapKeys]

theorem groupAvailabilities_nodup (availabilities : List Availability) :
    (mapKeys (groupAvailabilities availabilities)).Nodup := by
  unfold groupAvailabilities
  exact groupAvailabilities_nodup_fold _ _ (by simp [mapKeys])

theorem buildUserMap_fold (users : List User) (m : List (UUID × User))
    (hm : ∀ k u, mapGet m k = some u → u.ID = k) :
    ∀ k u, mapGet (users.foldl (fun m user => mapSet m user.ID user) m) k = some u → u.ID = k := by
  induction users generalizing m with
  | nil => simpa using hm
  | cons a rest ih =>
    rw [List.foldl_cons]
    apply ih
    intro k u hk
    by_cases h : k = a.ID
    · subst h
      rw [mapGet_mapSet_self] at hk
      injection hk with hk
      rw [← hk]
    · rw [mapGet_mapSet_ne _ _ _ _ h] at hk
      exact hm k u hk

theorem buildUserMap_keys_fold (users : List User) (m : List (UUID × User)) (k : UUID) :
    k ∈ mapKeys (users.foldl (fun m user => mapSet m user.ID user) m) ↔
      k ∈ mapKeys m ∨ ∃ u ∈ users, u.ID = k := by
  induction users generalizing m with
  | nil => simp
  | cons a rest ih =>
    rw [List.foldl_cons, ih, mem_mapKeys_mapSet]
    simp only [List.mem_cons, exists_eq_or_imp]
    constructor
    · rintro ((h | h) | h)
      · exact Or.inl h
      · exact Or.inr (Or.inl h.symm)
      · exact Or.inr (Or.inr h)
    · rintro (h | h | h)
      · exact Or.inl (Or.inl h)
      · exact Or.inl (Or.inr h.symm)
      · exact Or.inr h

/-- An entry of the user map is stored under the ID of its user. -/
theorem buildUserMap_get_ID (users : List User) (k : UUID) (u : User)
    (h : mapGet (buildUserMap users) k = some u) : u.ID = k := by
  unfold buildUserMap at h
  exact buildUserMap_fold users [] (by simp [mapGet]) k u h

/-- The user map resolves exactly the IDs of the fetched users. -/
theorem buildUserMap_resolves (users : List User) (k : UUID) :
    (∃ u, mapGet (buildUserMap users) k = some u) ↔ ∃ u ∈ users, u.ID = k := by
  rw [mapGet_isSome_iff]
  unfold buildUserMap
  rw [buildUserMap_keys_fold]
  simp [mapKeys]

theorem isAvailable_iff (slot : TimeSlot) (meetingEnd : Time) (l : List Availability) :
    isAvailable slot meetingEnd l = true ↔ ∃ a ∈ l, covers slot meetingEnd a = true := by
  induction l with
  | nil => simp [isAvailable]
  | cons a rest ih =>
    by_cases h : covers slot meetingEnd a = true
    · simp [isAvailable, h]
    · simp [isAvailable, h, ih]

theorem covers_iff (slot : TimeSlot) (meetingEnd : Time) (a : Availability) :
    covers slot meetingEnd a = true ↔
      a.StartTime.unixNano ≤ slot.StartTime.unixNano ∧ meetingEnd.unixNano ≤ a.EndTime.unixNano := by
  simp only [covers, Time.Equal, Time.After, Time.Before, Bool.and_eq_true, Bool.or_eq_true,
    decide_eq_true_eq]
  constructor
  · rintro ⟨h1, h2⟩
    constructor <;> omega
  · rintro ⟨h1, h2⟩
    constructor <;> omega

/-! ## The per-slot classification -/

theorem classifyUsers_fst (ua : List (UUID × List Availability)) (um : List (UUID × User))
    (slot : TimeSlot) (e : Time) (ks : List UUID) :
    (classifyUsers ua um slot e ks).1 = ks.filterMap (attendeeEntry ua um slot e) := by
  induction ks with
  | nil => simp [classifyUsers]
  | cons k rest ih =>
    simp only [classifyUsers, List.filterMap_cons, attendeeEntry]
    cases hk : mapGet um k with
    | none => simpa using ih
    | some u =>
      by_cases hav : isAvailable slot e ((mapGet ua k).getD []) = true
      · simp [hav, ih]
      · simp [hav, ih]

theorem classifyUsers_snd (ua : List (UUID × List Availability)) (um : List (UUID × User))
    (slot : TimeSlot) (e : Time) (ks : List UUID) :
    (classifyUsers ua um slot e ks).2 = ks.filterMap (nonAttendeeEntry ua um slot e) := by
  induction ks with
  | nil => simp [classifyUsers]
  | cons k rest ih =>
    simp only [classifyUsers, List.filterMap_cons, nonAttendeeEntry]
    cases hk : mapGet um k with
    | none => simpa using ih
    | some u =>
      by_cases hav : isAvailable slot e ((mapGet ua k).getD []) = true
      · simp [hav, ih]
      · simp [hav, ih]


theorem attendeeEntry_ID (ua : List (UUID × List Availability)) (um : List (UUID × User))
    (hum : ∀ k u, mapGet um k = some u → u.ID = k) (slot : TimeSlot) (e : Time) (k : UUID)
    (x : UserResponse) (h : attendeeEntry ua um slot e k = some x) : x.ID = k := by
  unfold attendeeEntry at h
  cases hk : mapGet um k with
  | none => simp [hk] at h
  | some u =>
    simp only [hk] at h
    split at h
    · injection h with h
      rw [← h]
      exact hum k u hk
    · exact absurd h (by simp)

theorem nonAttendeeEntry_ID (ua : List (UUID × List Availability)) (um : List (UUID × User))
    (hum : ∀ k u, mapGet um k = some u → u.ID = k) (slot : TimeSlot) (e : Time) (k : UUID)
    (x : UserResponse) (h : nonAttendeeEntry ua um slot e k = some x) : x.ID = k := by
  unfold nonAttendeeEntry at h
  cases hk : mapGet um k with
  | none => simp [hk] at h
  | some u =>
    simp only [hk] at h
    split at h
    · exact absurd h (by simp)
    · injection h with h
      rw [← h]
      exact hum k u hk

theorem attendeeEntry_isSome (ua : List (UUID × List Availability)) (um : List (UUID × User))
    (slot : TimeSlot) (e : Time) (k : UUID) :
    (attendeeEntry ua um slot e k).isSome =
      ((mapGet um k).isSome && isAvailable slot e ((mapGet ua k).getD [])) := by
  unfold attendeeEntry
  cases mapGet um k with
  | none => simp
  | some u =>
    by_cases hav : isAvailable slot e ((mapGet ua k).getD []) = true
    · simp [hav]
    · simp [hav]

theorem nonAttendeeEntry_isSome (ua : List (UUID × List Availability))
    (um : List (UUID × User)) (slot : TimeSlot) (e : Time) (k : UUID) :
    (nonAttendeeEntry ua um slot e k).isSome =
      ((mapGet um k).isSome && !isAvailable slot e ((mapGet ua k).getD [])) := by
  unfold nonAttendeeEntry
  cases mapGet um k with
  | none => simp
  | some u =>
    by_cases hav : isAvailable slot e ((mapGet ua k).getD []) = true
    · simp [hav]
    · simp [hav]

/-- The IDs listed by a `filterMap` whose entries carry the key as ID are the keys kept. -/
theorem map_ID_filterMap (f : UUID → Option UserResponse)
    (hf : ∀ k x, f k = some x → x.ID = k) (ks : List UUID) :
    (ks.filterMap f).map (fun x => x.ID) = ks.filter (fun k => (f k).isSome) := by
  induction ks with
  | nil => simp
  | cons k rest ih =>
    cases hk : f k with
    | none => simp [List.filterMap_cons, hk, ih]
    | some x => simp [List.filterMap_cons, hk, ih, hf k x hk]

theorem count_filter_self (p : UUID → Bool) (ks : List UUID) (k : UUID) :
    (ks.filter p).count k = if p k = true then ks.count k else 0 := by
  by_cases h : p k = true
  · simp only [h, if_true]
    exact List.count_filter h
  · simp only [h]
    apply List.count_eq_zero_of_not_mem
    intro hm
    exact h (List.mem_filter.mp hm).2

/-! ## The slot loop -/

theorem recommendSlot_eq_some (order : MapOrder) (event : Event)
    (ua : List (UUID × List Availability)) (um : List (UUID × User)) (n : Nat)
    (slot : TimeSlot) (r : Recommendation)
    (h : recommendSlot order event ua um n slot = some r) :
    (meetingEndTime event slot).After slot.EndTime = false ∧
    r.TimeSlot = ⟨slot.ID, slot.StartTime, meetingEndTime event slot⟩ ∧
    r.Attendees = (order.keys n (mapKeys ua)).filterMap
      (attendeeEntry ua um slot (meetingEndTime event slot)) ∧
    r.NonAttendees = (order.keys n (mapKeys ua)).filterMap
      (nonAttendeeEntry ua um slot (meetingEndTime event slot)) ∧
    r.Score = (r.Attendees.length : Int) := by
  unfold recommendSlot at h
  by_cases hfit : (meetingEndTime event slot).After slot.EndTime = true
  · simp [hfit] at h
  · simp only [hfit] at h
    simp only [Bool.false_eq_true, if_false, Option.some.injEq] at h
    subst h
    simp [classifyUsers_fst, classifyUsers_snd, hfit]

theorem recommendSlot_isSome (order : MapOrder) (event : Event)
    (ua : List (UUID × List Availability)) (um : List (UUID × User)) (n : Nat)
    (slot : TimeSlot) (h : (meetingEndTime event slot).After slot.EndTime = false) :
    ∃ r, recommendSlot order event ua um n slot = some r := by
  unfold recommendSlot
  simp [h]

theorem recommendSlot_eq_none (order : MapOrder) (event : Event)
    (ua : List (UUID × List Availability)) (um : List (UUID × User)) (n : Nat)
    (slot : TimeSlot) (h : (meetingEndTime event slot).After slot.EndTime = true) :
    recommendSlot order event ua um n slot = none := by
  unfold recommendSlot
  simp [h]

theorem slotLoop_cons (order : MapOrder) (event : Event)
    (ua : List (UUID × List Availability)) (um : List (UUID × User)) (n : Nat)
    (s : TimeSlot) (rest : List TimeSlot) :
    slotLoop order event ua um n (s :: rest) =
      match recommendSlot order event ua um n s with
      | none => slotLoop order event ua um (n + 1) rest
      | some r => r :: slotLoop order event ua um (n + 1) rest := rfl

theorem mem_slotLoop (order : MapOrder) (event : Event)
    (ua : List (UUID × List Availability)) (um : List (UUID × User)) (n : Nat)
    (slots : List TimeSlot) (r : Recommendation) :
    r ∈ slotLoop order event ua um n slots ↔
      ∃ i slot, slots[i]? = some slot ∧ recommendSlot order event ua um (n + i) slot = some r := by
  induction slots generalizing n with
  | nil => simp [slotLoop]
  | cons s rest ih =>
    have hshift : (∃ i slot, rest[i]? = some slot ∧
        recommendSlot order event ua um (n + 1 + i) slot = some r) ↔
        ∃ i slot, (s :: rest)[i + 1]? = some slot ∧
          recommendSlot order event ua um (n + (i + 1)) slot = some r := by
      constructor
      · rintro ⟨i, slot, h1, h2⟩
        exact ⟨i, slot, by simpa using h1, by rw [← h2]; congr 1; omega⟩
      · rintro ⟨i, slot, h1, h2⟩
        exact ⟨i, slot, by simpa using h1, by rw [← h2]; congr 1; omega⟩
    have hsplit : (∃ i slot, (s :: rest)[i]? = some slot ∧
        recommendSlot order event ua um (n + i) slot = some r) ↔
        recommendSlot order event ua um n s = some r ∨
        ∃ i slot, (s :: rest)[i + 1]? = some slot ∧
          recommendSlot order event ua um (n + (i + 1)) slot = some r := by
      constructor
      · rintro ⟨i, slot, h1, h2⟩
        cases i with
        | zero =>
          simp at h1
          subst h1
          exact Or.inl (by simpa using h2)
        | succ j => exact Or.inr ⟨j, slot, h1, h2⟩
      · rintro (h | ⟨i, slot, h1, h2⟩)
        · exact ⟨0, s, by simp, by simpa using h⟩
        · exact ⟨i + 1, slot, h1, h2⟩
    rw [hsplit, ← hshift, ← ih, slotLoop_cons]
    cases hrs : recommendSlot order event ua um n s with
    | none => simp
    | some r' =>
      simp only [List.mem_cons, Option.some.injEq]
      constructor
      · rintro (h | h)
        · exact Or.inl h.symm
        · exact Or.inr h
      · rintro (h | h)
        · exact Or.inl h.symm
        · exact Or.inr h

/-- The time-slot triples of the loop's records are those of the fitting slots, in order. -/
theorem slotLoop_map_TimeSlot (order : MapOrder) (event : Event)
    (ua : List (UUID × List Availability)) (um : List (UUID × User)) (n : Nat)
    (slots : List TimeSlot) :
    (slotLoop order event ua um n slots).map (fun r => r.TimeSlot) =
      (slots.filter (fun s => !(meetingEndTime event s).After s.EndTime)).map
        (fun s => (⟨s.ID, s.StartTime, meetingEndTime event s⟩ : TimeSlotResponse)) := by
  induction slots generalizing n with
  | nil => simp [slotLoop]
  | cons s rest ih =>
    rw [slotLoop_cons]
    by_cases hfit : (meetingEndTime event s).After s.EndTime = true
    · rw [recommendSlot_eq_none _ _ _ _ _ _ hfit]
      simp [hfit, ih]
    · have hfit' : (meetingEndTime event s).After s.EndTime = false := by simpa using hfit
      obtain ⟨r, hr⟩ := recommendSlot_isSome order event ua um n s hfit'
      rw [hr]
      simp [hfit', ih, (recommendSlot_eq_some _ _ _ _ _ _ _ hr).2.1]

/-! ## The sorting contract and the fetches -/

theorem scoreLess_strictWeakOrder : StrictWeakOrder scoreLess := by
  refine ⟨?_, ?_, ?_⟩
  · intro a
    simp [scoreLess]
  · intro a b c h1 h2
    simp only [scoreLess, decide_eq_true_eq] at *
    omega
  · intro a b c h1 h2
    simp only [scoreLess, decide_eq_false_iff_not] at *
    omega

/-- As long as the length in minutes, counted in nanoseconds, fits `int64` (an event shorter
than about 292 years), the computed meeting end is the slot start plus that many minutes. -/
theorem meetingEndTime_eq (event : Event) (slot : TimeSlot)
    (hlo : -9223372036854775808 ≤ event.Duration * 60000000000)
    (hhi : event.Duration * 60000000000 < 9223372036854775808) :
    (meetingEndTime event slot).unixNano =
      slot.StartTime.unixNano + event.Duration * 60000000000 := by
  unfold meetingEndTime Time.Add mulDuration wrapInt64 Minute
  simp only
  rw [Int.emod_eq_of_lt (by omega) (by omega)]
  omega

theorem fits_iff (event : Event) (slot : TimeSlot) :
    (meetingEndTime event slot).After slot.EndTime = false ↔ Fits event slot := by
  simp [Time.After, Fits]

/-- With the fetches successful the method returns the ranked list and no error. -/
theorem GetRecommendations_of_fetches (sortSlice : Sorter) (hs : SortSliceSpec sortSlice)
    (order : MapOrder) (s : RecommendationService) (eventID : UUID) (event : Event)
    (timeSlots : List TimeSlot) (availabilities : List Availability) (users : List User)
    (hf : Fetches order s eventID event timeSlots availabilities users) :
    GetRecommendations sortSlice order s eventID =
      (some ⟨computeRecommendations sortSlice order event timeSlots availabilities users⟩,
        none) := by
  obtain ⟨h1, h2, h3, h4⟩ := hf
  unfold GetRecommendations
  rw [h1, h2]
  simp only
  by_cases hlen : timeSlots.length = 0
  · have hnil : timeSlots = [] := List.length_eq_zero.mp hlen
    subst hnil
    have hp := (hs scoreLess scoreLess_strictWeakOrder []).1
    simp [computeRecommendations, slotLoop, List.Perm.eq_nil hp]
  · simp only [hlen, if_false]
    rw [h3]
    simp only
    rw [h4]

theorem mem_computeRecommendations (sortSlice : Sorter) (hs : SortSliceSpec sortSlice)
    (order : MapOrder) (event : Event) (timeSlots : List TimeSlot)
    (availabilities : List Availability) (users : List User) (r : Recommendation) :
    r ∈ computeRecommendations sortSlice order event timeSlots availabilities users ↔
      r ∈ slotLoop order event (groupAvailabilities availabilities) (buildUserMap users) 1
        timeSlots :=
  (hs scoreLess scoreLess_strictWeakOrder _).1.mem_iff

/-! ## What a record of the loop lists -/

theorem isAvailable_group_iff (event : Event) (slot : TimeSlot)
    (availabilities : List Availability) (uid : UUID) :
    isAvailable slot (meetingEndTime event slot)
      ((mapGet (groupAvailabilities availabilities) uid).getD []) = true ↔
      ∃ a ∈ availabilities, a.UserID = uid ∧ Covers event slot a := by
  rw [groupAvailabilities_get, isAvailable_iff]
  constructor
  · rintro ⟨a, ha, hc⟩
    rw [List.mem_filter] at ha
    exact ⟨a, ha.1, by simpa using ha.2, (covers_iff _ _ _).mp hc⟩
  · rintro ⟨a, ha, hu, hc⟩
    exact ⟨a, List.mem_filter.mpr ⟨ha, by simpa using hu⟩, (covers_iff _ _ _).mpr hc⟩

theorem mapGet_isSome_eq_true_iff (users : List User) (uid : UUID) :
    (mapGet (buildUserMap users) uid).isSome = true ↔ Resolves users uid := by
  rw [Option.isSome_iff_exists]
  exact buildUserMap_resolves users uid

theorem mem_attendees_iff (event : Event) (slot : TimeSlot)
    (availabilities : List Availability) (users : List User) (ks : List UUID)
    (hks : ks.Perm (mapKeys (groupAvailabilities availabilities))) (uid : UUID) :
    uid ∈ listedIDs (ks.filterMap (attendeeEntry (groupAvailabilities availabilities)
      (buildUserMap users) slot (meetingEndTime event slot))) ↔
      Resolves users uid ∧ ∃ a ∈ availabilities, a.UserID = uid ∧ Covers event slot a := by
  unfold listedIDs
  rw [map_ID_filterMap _ (attendeeEntry_ID _ _ (buildUserMap_get_ID users) _ _), List.mem_filter,
    attendeeEntry_isSome, Bool.and_eq_true, mapGet_isSome_eq_true_iff, isAvailable_group_iff,
    hks.mem_iff, mem_groupAvailabilities_keys]
  constructor
  · rintro ⟨_, h⟩
    exact h
  · rintro ⟨h1, a, ha, hu, hc⟩
    exact ⟨⟨a, ha, hu⟩, h1, a, ha, hu, hc⟩

theorem mem_nonAttendees_iff (event : Event) (slot : TimeSlot)
    (availabilities : List Availability) (users : List User) (ks : List UUID)
    (hks : ks.Perm (mapKeys (groupAvailabilities availabilities))) (uid : UUID) :
    uid ∈ listedIDs (ks.filterMap (nonAttendeeEntry (groupAvailabilities availabilities)
      (buildUserMap users) slot (meetingEndTime event slot))) ↔
      HasAvailability availabilities uid ∧ Resolves users uid ∧
        ¬ ∃ a ∈ availabilities, a.UserID = uid ∧ Covers event slot a := by
  unfold listedIDs
  rw [map_ID_filterMap _ (nonAttendeeEntry_ID _ _ (buildUserMap_get_ID users) _ _),
    List.mem_filter, nonAttendeeEntry_isSome, Bool.and_eq_true, mapGet_isSome_eq_true_iff,
    Bool.not_eq_true', ← Bool.not_eq_true, isAvailable_group_iff,
    hks.mem_iff, mem_groupAvailabilities_keys]
  rfl

/-- Every key of the grouping that resolves is listed exactly once over both lists, and no
other ID is listed at all. -/
theorem count_listed (event : Event) (slot : TimeSlot)
    (availabilities : List Availability) (users : List User) (ks : List UUID) (uid : UUID) :
    (listedIDs (ks.filterMap (attendeeEntry (groupAvailabilities availabilities)
        (buildUserMap users) slot (meetingEndTime event slot)) ++
      ks.filterMap (nonAttendeeEntry (groupAvailabilities availabilities)
        (buildUserMap users) slot (meetingEndTime event slot)))).count uid =
      if (mapGet (buildUserMap users) uid).isSome = true then ks.count uid else 0 := by
  unfold listedIDs
  rw [List.map_append, List.count_append,
    map_ID_filterMap _ (attendeeEntry_ID _ _ (buildUserMap_get_ID users) _ _),
    map_ID_filterMap _ (nonAttendeeEntry_ID _ _ (buildUserMap_get_ID users) _ _),
    count_filter_self, count_filter_self, attendeeEntry_isSome, nonAttendeeEntry_isSome]
  cases (mapGet (buildUserMap users) uid).isSome <;>
    cases isAvailable slot (meetingEndTime event slot)
      ((mapGet (groupAvailabilities availabilities) uid).getD []) <;> simp

theorem count_keys (availabilities : List Availability) (ks : List UUID)
    (hks : ks.Perm (mapKeys (groupAvailabilities availabilities))) (uid : UUID)
    (h : HasAvailability availabilities uid) : ks.count uid = 1 := by
  rw [hks.count_eq]
  exact List.count_eq_one_of_mem (groupAvailabilities_nodup availabilities)
    ((mem_groupAvailabilities_keys availabilities uid).mpr h)

/-- The facts about one record produced by the slot loop. -/
theorem slotLoop_record (order : MapOrder) (event : Event)
    (availabilities : List Availability) (users : List User) (n : Nat)
    (timeSlots : List TimeSlot) (r : Recommendation)
    (hr : r ∈ slotLoop order event (groupAvailabilities availabilities) (buildUserMap users) n
      timeSlots) :
    ∃ slot ∈ timeSlots, ∃ ks : List UUID, Fits event slot ∧
      r.TimeSlot = slotTriple event slot ∧
      ks.Perm (mapKeys (groupAvailabilities availabilities)) ∧
      r.Attendees = ks.filterMap (attendeeEntry (groupAvailabilities availabilities)
        (buildUserMap users) slot (meetingEndTime event slot)) ∧
      r.NonAttendees = ks.filterMap (nonAttendeeEntry (groupAvailabilities availabilities)
        (buildUserMap users) slot (meetingEndTime event slot)) ∧
      r.Score = (r.Attendees.length : Int) := by
  rw [mem_slotLoop] at hr
  obtain ⟨i, slot, hi, hrec⟩ := hr
  obtain ⟨h1, h2, h3, h4, h5⟩ := recommendSlot_eq_some _ _ _ _ _ _ _ hrec
  exact ⟨slot, List.mem_iff_getElem?.mpr ⟨i, hi⟩, _, (fits_iff _ _).mp h1, h2, order.perm _ _, h3, h4, h5⟩

/-- Every fitting slot has a record in the loop's output. -/
theorem slotLoop_has_record (order : MapOrder) (event : Event)
    (ua : List (UUID × List Availability)) (um : List (UUID × User)) (n : Nat)
    (timeSlots : List TimeSlot) (slot : TimeSlot) (hslot : slot ∈ timeSlots)
    (hfit : Fits event slot) :
    ∃ r ∈ slotLoop order event ua um n timeSlots, r.TimeSlot = slotTriple event slot := by
  obtain ⟨i, hi⟩ := List.mem_iff_getElem?.mp hslot
  obtain ⟨r, hr⟩ := recommendSlot_isSome order event ua um (n + i) slot ((fits_iff _ _).mpr hfit)
  exact ⟨r, (mem_slotLoop _ _ _ _ _ _ _).mpr ⟨i, slot, hi, hr⟩,
    (recommendSlot_eq_some _ _ _ _ _ _ _ hr).2.1⟩

theorem fetches_fixedService (order : MapOrder) (eventID : UUID) (event : Event)
    (timeSlots : List TimeSlot) (availabilities : List Availability) (users : List User) :
    Fetches order (fixedService event timeSlots availabilities users) eventID event timeSlots
      availabilities users := ⟨rfl, rfl, rfl, rfl⟩

theorem covers_congr (event : Event) (slot slot' : TimeSlot)
    (h : slotTriple event slot' = slotTriple event slot) (a : Availability) :
    Covers event slot' a ↔ Covers event slot a := by
  unfold slotTriple at h
  injection h with _ h2 h3
  unfold Covers
  rw [h2, h3]

/-! ## Orphaned availability records -/

theorem filterMap_perm_of_subset (f : UUID → Option UserResponse) (l1 l2 : List UUID)
    (h1 : l1.Nodup) (h2 : l2.Nodup) (hsub : ∀ k ∈ l2, k ∈ l1)
    (hnone : ∀ k ∈ l1, k ∉ l2 → f k = none) :
    (l1.filterMap f).Perm (l2.filterMap f) := by
  have hfilter : l1.filterMap f = (l1.filter (fun k => decide (k ∈ l2))).filterMap f := by
    clear h1 hsub
    induction l1 with
    | nil => simp
    | cons k rest ih =>
      have ih' := ih (fun x hx hx2 => hnone x (List.mem_cons_of_mem _ hx) hx2)
      by_cases hk : k ∈ l2
      · simp only [List.filter_cons, hk, decide_True, if_true, List.filterMap_cons]
        rw [ih']
      · have hf := hnone k (List.mem_cons_self _ _) hk
        simp only [List.filter_cons, hk, decide_False, List.filterMap_cons, hf]
        simpa using ih'
  rw [hfilter]
  apply List.Perm.filterMap
  apply (List.perm_ext_iff_of_nodup (h1.filter _) h2).mpr
  intro a
  rw [List.mem_filter]
  constructor
  · rintro ⟨_, h⟩
    simpa using h
  · intro h
    exact ⟨hsub a h, by simpa using h⟩

theorem filter_withoutOrphans (users : List User) (availabilities : List Availability)
    (k : UUID) (hk : Resolves users k) :
    (withoutOrphans users availabilities).filter (fun a => a.UserID = k) =
      availabilities.filter (fun a => a.UserID = k) := by
  unfold withoutOrphans
  rw [List.filter_filter]
  apply List.filter_congr
  intro a _
  by_cases h : a.UserID = k
  · simp [h, hk]
  · simp [h]

theorem attendeeEntry_withoutOrphans (users : List User) (availabilities : List Availability)
    (slot : TimeSlot) (e : Time) (k : UUID) :
    attendeeEntry (groupAvailabilities (withoutOrphans users availabilities))
      (buildUserMap users) slot e k =
    attendeeEntry (groupAvailabilities availabilities) (buildUserMap users) slot e k := by
  unfold attendeeEntry
  cases hk : mapGet (buildUserMap users) k with
  | none => rfl
  | some u =>
    have hres : Resolves users k := (buildUserMap_resolves users k).mp ⟨u, hk⟩
    simp only [groupAvailabilities_get, filter_withoutOrphans users availabilities k hres]

theorem nonAttendeeEntry_withoutOrphans (users : List User)
    (availabilities : List Availability) (slot : TimeSlot) (e : Time) (k : UUID) :
    nonAttendeeEntry (groupAvailabilities (withoutOrphans users availabilities))
      (buildUserMap users) slot e k =
    nonAttendeeEntry (groupAvailabilities availabilities) (buildUserMap users) slot e k := by
  unfold nonAttendeeEntry
  cases hk : mapGet (buildUserMap users) k with
  | none => rfl
  | some u =>
    have hres : Resolves users k := (buildUserMap_resolves users k).mp ⟨u, hk⟩
    simp only [groupAvailabilities_get, filter_withoutOrphans users availabilities k hres]

theorem mem_keys_withoutOrphans (users : List User) (availabilities : List Availability)
    (k : UUID) :
    k ∈ mapKeys (groupAvailabilities (withoutOrphans users availabilities)) ↔
      k ∈ mapKeys (groupAvailabilities availabilities) ∧ Resolves users k := by
  rw [mem_groupAvailabilities_keys, mem_groupAvailabilities_keys]
  unfold withoutOrphans
  constructor
  · rintro ⟨a, ha, hu⟩
    rw [List.mem_filter] at ha
    exact ⟨⟨a, ha.1, hu⟩, by simpa [hu] using ha.2⟩
  · rintro ⟨⟨a, ha, hu⟩, hres⟩
    exact ⟨a, List.mem_filter.mpr ⟨ha, by simpa [hu] using hres⟩, hu⟩

/-- The records of one slot computed with and without the orphaned availability records, under
any two traversal orders, agree up to the order inside the user lists. -/
theorem recommendSlot_withoutOrphans (order order' : MapOrder) (event : Event)
    (availabilities : List Availability) (users : List User) (n n' : Nat) (slot : TimeSlot)
    (r : Recommendation)
    (hr : recommendSlot order event (groupAvailabilities availabilities) (buildUserMap users)
      n slot = some r) :
    ∃ r', recommendSlot order' event (groupAvailabilities (withoutOrphans users availabilities))
      (buildUserMap users) n' slot = some r' ∧ SameLists r r' := by
  obtain ⟨hfit, ht, hatt, hnon, hscore⟩ := recommendSlot_eq_some _ _ _ _ _ _ _ hr
  obtain ⟨r', hr'⟩ := recommendSlot_isSome order' event
    (groupAvailabilities (withoutOrphans users availabilities)) (buildUserMap users) n' slot hfit
  obtain ⟨_, ht', hatt', hnon', hscore'⟩ := recommendSlot_eq_some _ _ _ _ _ _ _ hr'
  have hnd : (order.keys n (mapKeys (groupAvailabilities availabilities))).Nodup :=
    (order.perm _ _).nodup_iff.mpr (groupAvailabilities_nodup _)
  have hnd' : (order'.keys n'
      (mapKeys (groupAvailabilities (withoutOrphans users availabilities)))).Nodup :=
    (order'.perm _ _).nodup_iff.mpr (groupAvailabilities_nodup _)
  have hsub : ∀ k ∈ order'.keys n'
      (mapKeys (groupAvailabilities (withoutOrphans users availabilities))),
      k ∈ order.keys n (mapKeys (groupAvailabilities availabilities)) := by
    intro k hk
    rw [(order'.perm _ _).mem_iff, mem_keys_withoutOrphans] at hk
    exact (order.perm _ _).mem_iff.mpr hk.1
  have hunres : ∀ k ∈ order.keys n (mapKeys (groupAvailabilities availabilities)),
      k ∉ order'.keys n' (mapKeys (groupAvailabilities (withoutOrphans users availabilities))) →
      mapGet (buildUserMap users) k = none := by
    intro k hk hk'
    rw [(order.perm _ _).mem_iff] at hk
    rw [(order'.perm _ _).mem_iff, mem_keys_withoutOrphans] at hk'
    cases hget : mapGet (buildUserMap users) k with
    | none => rfl
    | some u => exact absurd ⟨hk, (buildUserMap_resolves users k).mp ⟨u, hget⟩⟩ hk'
  have hattP : r'.Attendees.Perm r.Attendees := by
    rw [hatt, hatt', funext (attendeeEntry_withoutOrphans users availabilities slot
      (meetingEndTime event slot))]
    refine (filterMap_perm_of_subset _ _ _ hnd hnd' hsub ?_).symm
    intro k hk hk'
    simp [attendeeEntry, hunres k hk hk']
  have hnonP : r'.NonAttendees.Perm r.NonAttendees := by
    rw [hnon, hnon', funext (nonAttendeeEntry_withoutOrphans users availabilities slot
      (meetingEndTime event slot))]
    refine (filterMap_perm_of_subset _ _ _ hnd hnd' hsub ?_).symm
    intro k hk hk'
    simp [nonAttendeeEntry, hunres k hk hk']
  refine ⟨r', hr', ?_, ?_, hattP, hnonP⟩
  · rw [ht, ht']
  · rw [hscore, hscore', hattP.length_eq]

theorem mem_slotLoop_withoutOrphans (order order' : MapOrder) (event : Event)
    (availabilities : List Availability) (users : List User) (n : Nat)
    (timeSlots : List TimeSlot) (r : Recommendation)
    (hr : r ∈ slotLoop order event (groupAvailabilities availabilities) (buildUserMap users) n
      timeSlots) :
    ∃ r' ∈ slotLoop order' event (groupAvailabilities (withoutOrphans users availabilities))
      (buildUserMap users) n timeSlots, SameLists r r' := by
  rw [mem_slotLoop] at hr
  obtain ⟨i, slot, hi, hrec⟩ := hr
  obtain ⟨r', hr', hsame⟩ := recommendSlot_withoutOrphans order order' event availabilities
    users (n + i) (n + i) slot r hrec
  exact ⟨r', (mem_slotLoop _ _ _ _ _ _ _).mpr ⟨i, slot, hi, hr'⟩, hsame⟩

theorem mem_slotLoop_withOrphans (order order' : MapOrder) (event : Event)
    (availabilities : List Availability) (users : List User) (n : Nat)
    (timeSlots : List TimeSlot) (r' : Recommendation)
    (hr' : r' ∈ slotLoop order' event (groupAvailabilities (withoutOrphans users availabilities))
      (buildUserMap users) n timeSlots) :
    ∃ r ∈ slotLoop order event (groupAvailabilities availabilities) (buildUserMap users) n
      timeSlots, SameLists r r' := by
  rw [mem_slotLoop] at hr'
  obtain ⟨i, slot, hi, hrec'⟩ := hr'
  obtain ⟨hfit, _⟩ := recommendSlot_eq_some _ _ _ _ _ _ _ hrec'
  obtain ⟨r, hrec⟩ := recommendSlot_isSome order event (groupAvailabilities availabilities)
    (buildUserMap users) (n + i) slot hfit
  obtain ⟨r'', hr'', hsame⟩ := recommendSlot_withoutOrphans order order' event availabilities
    users (n + i) (n + i) slot r hrec
  rw [hrec'] at hr''
  injection hr'' with hr''
  subst hr''
  exact ⟨r, (mem_slotLoop _ _ _ _ _ _ _).mpr ⟨i, slot, hi, hrec⟩, hsame⟩

/-! ## Insertion sort inside `sort.Slice` -/

theorem getElem?_append_length {α : Type} (front : List α) (x : α) (post : List α) :
    (front ++ x :: post)[front.length]? = some x := by
  rw [List.getElem?_append_right (le_refl _)]
  simp

theorem getElem?_append_length_succ {α : Type} (front : List α) (y x : α) (post : List α) :
    (front ++ y :: x :: post)[front.length + 1]? = some x := by
  rw [List.getElem?_append_right (by omega)]
  simp

theorem lessAt_adjacent {α : Type} (less : α → α → Bool) (front : List α) (y x : α)
    (post : List α) :
    lessAt less (front ++ y :: x :: post) (front.length + 1) front.length = less x y := by
  unfold lessAt
  rw [getElem?_append_length_succ, getElem?_append_length]

theorem swapAt_adjacent {α : Type} (front : List α) (y x : α) (post : List α) :
    swapAt (front ++ y :: x :: post) (front.length + 1) front.length =
      front ++ x :: y :: post := by
  unfold swapAt
  rw [getElem?_append_length_succ, getElem?_append_length]
  simp only
  rw [List.set_append_right _ _ (by omega), List.set_append_right _ _ (by simp)]
  simp

theorem length_insertBack {α : Type} (less : α → α → Bool) (x : α) (l : List α) :
    (insertBack less x l).length = l.length + 1 := by
  induction l with
  | nil => simp [insertBack]
  | cons y ys ih =>
    unfold insertBack
    split <;> simp [ih]

theorem insertionInner_eq {α : Type} (less : α → α → Bool) (front : List α) (x : α)
    (rp post : List α) :
    insertionInner less front.length (front.length + rp.length)
      (front ++ (rp.reverse ++ x :: post)) =
      front ++ ((insertBack less x rp).reverse ++ post) := by
  induction rp generalizing post with
  | nil =>
    simp only [List.length_nil, Nat.add_zero, List.reverse_nil, List.nil_append, insertBack,
      List.reverse_cons, List.singleton_append]
    cases h : front.length with
    | zero => simp [insertionInner]
    | succ n => simp [insertionInner]
  | cons y ys ih =>
    have hlen : front.length + (y :: ys).length = (front ++ ys.reverse).length + 1 := by
      simp
      omega
    have hdata : front ++ ((y :: ys).reverse ++ x :: post) =
        (front ++ ys.reverse) ++ y :: x :: post := by simp
    rw [hlen, hdata, insertionInner, lessAt_adjacent, swapAt_adjacent]
    have hlt : front.length < (front ++ ys.reverse).length + 1 := by
      simp
      omega
    by_cases hxy : less x y = true
    · simp only [hlt, decide_True, hxy, Bool.and_self, if_true]
      have hlen2 : (front ++ ys.reverse).length = front.length + ys.length := by simp
      rw [hlen2, List.append_assoc, ih (y :: post)]
      simp [insertBack, hxy]
    · simp [hxy, insertBack]

theorem insertionOuter_eq {α : Type} (less : α → α → Bool) (front : List α)
    (rest rp back : List α) (n : Nat) (hn : rest.length ≤ n) :
    insertionOuter less front.length (front.length + rp.length + rest.length) n
      (front.length + rp.length) (front ++ (rp.reverse ++ (rest ++ back))) =
      front ++ ((rest.foldl (fun acc x => insertBack less x acc) rp).reverse ++ back) := by
  induction rest generalizing rp n with
  | nil =>
    cases n with
    | zero => simp [insertionOuter]
    | succ m => simp [insertionOuter]
  | cons x rest' ih =>
    cases n with
    | zero => simp at hn
    | succ m =>
      have hlt : front.length + rp.length < front.length + rp.length + (x :: rest').length := by
        simp
      rw [insertionOuter]
      simp only [hlt, if_true, List.cons_append, List.foldl_cons]
      rw [insertionInner_eq]
      have h1 : front.length + rp.length + 1 =
          front.length + (insertBack less x rp).length := by
        rw [length_insertBack]
        omega
      have h2 : front.length + rp.length + (x :: rest').length =
          front.length + (insertBack less x rp).length + rest'.length := by
        rw [length_insertBack]
        simp
        omega
      rw [h1, h2]
      exact ih (insertBack less x rp) m (by simpa using hn)

/-- The in-place insertion sort of `data[a:b]` is the insertion fold of that segment. -/
theorem insertionSort_func_eq {α : Type} (less : α → α → Bool) (front mid back : List α) :
    insertionSort_func less (front ++ (mid ++ back)) front.length
      (front.length + mid.length) = front ++ (insertionFold less mid ++ back) := by
  unfold insertionSort_func insertionFold
  cases mid with
  | nil => simp [insertionOuter]
  | cons m ms =>
    have h := insertionOuter_eq less front ms [m] back
      (front.length + 1 + ms.length - front.length) (by omega)
    simp only [List.length_singleton, List.reverse_singleton, List.singleton_append] at h
    have e1 : front.length + (m :: ms).length = front.length + 1 + ms.length := by
      simp
      omega
    rw [e1, List.cons_append, h]
    simp [insertBack]

theorem Slice_eq_insertionFold {α : Type} (less : α → α → Bool) (l : List α)
    (h : l.length ≤ 12) : Slice less l = insertionFold less l := by
  unfold Slice
  rw [pdqsort_func]
  simp only [Nat.sub_zero, h, if_true]
  have := insertionSort_func_eq less [] l []
  simpa using this

theorem perm_insertBack {α : Type} (less : α → α → Bool) (x : α) (l : List α) :
    (insertBack less x l).Perm (x :: l) := by
  induction l with
  | nil => simp [insertBack]
  | cons y ys ih =>
    unfold insertBack
    split
    · exact (ih.cons y).trans (List.Perm.swap x y ys)
    · exact List.Perm.refl _

theorem perm_foldl_insertBack {α : Type} (less : α → α → Bool) (l acc : List α) :
    (l.foldl (fun acc x => insertBack less x acc) acc).Perm (l.reverse ++ acc) := by
  induction l generalizing acc with
  | nil => simp
  | cons x rest ih =>
    rw [List.foldl_cons]
    refine (ih _).trans ?_
    rw [List.reverse_cons, List.append_assoc]
    exact List.Perm.append_left _ (by simpa using perm_insertBack less x acc)

theorem perm_insertionFold {α : Type} (less : α → α → Bool) (l : List α) :
    (insertionFold less l).Perm l := by
  unfold insertionFold
  refine (List.reverse_perm _).trans ?_
  have h := perm_foldl_insertBack less l []
  rw [List.append_nil] at h
  exact h.trans (List.reverse_perm l)

theorem pairwise_insertBack {α : Type} (less : α → α → Bool) (hless : StrictWeakOrder less)
    (x : α) (l : List α) (hl : l.Pairwise (fun a b => less a b = false)) :
    (insertBack less x l).Pairwise (fun a b => less a b = false) := by
  obtain ⟨hirr, htr, hntr⟩ := hless
  induction l with
  | nil => simp [insertBack]
  | cons y ys ih =>
    rw [List.pairwise_cons] at hl
    unfold insertBack
    by_cases hxy : less x y = true
    · simp only [hxy, if_true]
      rw [List.pairwise_cons]
      refine ⟨?_, ih hl.2⟩
      intro z hz
      rw [(perm_insertBack less x ys).mem_iff, List.mem_cons] at hz
      rcases hz with hz | hz
      · subst hz
        cases hyz : less y z with
        | false => rfl
        | true =>
          have := htr z y z hxy hyz
          rw [hirr z] at this
          exact absurd this (by simp)
      · exact hl.1 z hz
    · have hxy' : less x y = false := by simpa using hxy
      simp only [hxy', Bool.false_eq_true, if_false]
      rw [List.pairwise_cons]
      refine ⟨?_, List.pairwise_cons.mpr hl⟩
      intro z hz
      rw [List.mem_cons] at hz
      rcases hz with hz | hz
      · rw [hz]
        exact hxy'
      · exact hntr x y z hxy' (hl.1 z hz)

theorem pairwise_foldl_insertBack {α : Type} (less : α → α → Bool)
    (hless : StrictWeakOrder less) (l acc : List α)
    (hacc : acc.Pairwise (fun a b => less a b = false)) :
    (l.foldl (fun acc x => insertBack less x acc) acc).Pairwise
      (fun a b => less a b = false) := by
  induction l generalizing acc with
  | nil => simpa using hacc
  | cons x rest ih =>
    rw [List.foldl_cons]
    exact ih _ (pairwise_insertBack less hless x acc hacc)

theorem pairwise_insertionFold {α : Type} (less : α → α → Bool) (hless : StrictWeakOrder less)
    (l : List α) : (insertionFold less l).Pairwise (fun a b => less b a = false) := by
  unfold insertionFold
  rw [List.pairwise_reverse]
  exact pairwise_foldl_insertBack less hless l [] List.Pairwise.nil

theorem filter_insertBack {α : Type} (less : α → α → Bool) (p : α → Bool)
    (hp : ∀ x y, p x = true → p y = true → less x y = false) (x : α) (l : List α) :
    (insertBack less x l).filter p = (x :: l).filter p := by
  induction l with
  | nil => simp [insertBack]
  | cons y ys ih =>
    unfold insertBack
    by_cases hxy : less x y = true
    · simp only [hxy, if_true]
      rw [List.filter_cons, ih]
      by_cases hpx : p x = true
      · have hpy : p y = false := by
          cases hpy : p y with
          | false => rfl
          | true =>
            rw [hp x y hpx hpy] at hxy
            exact absurd hxy (by simp)
        simp [List.filter_cons, hpx, hpy]
      · simp [List.filter_cons, hpx]
    · simp [hxy]

theorem filter_foldl_insertBack {α : Type} (less : α → α → Bool) (p : α → Bool)
    (hp : ∀ x y, p x = true → p y = true → less x y = false) (l acc : List α) :
    (l.foldl (fun acc x => insertBack less x acc) acc).filter p =
      (l.reverse ++ acc).filter p := by
  induction l generalizing acc with
  | nil => simp
  | cons x rest ih =>
    rw [List.foldl_cons, ih, List.filter_append, filter_insertBack less p hp,
      List.reverse_cons, List.append_assoc, List.filter_append]
    rfl

/-- Insertion sort keeps the elements of one class, none of which is `less` than another, in
their original order. -/
theorem filter_insertionFold {α : Type} (less : α → α → Bool) (p : α → Bool)
    (hp : ∀ x y, p x = true → p y = true → less x y = false) (l : List α) :
    (insertionFold less l).filter p = l.filter p := by
  unfold insertionFold
  rw [List.filter_reverse, filter_foldl_insertBack less p hp, List.append_nil,
    List.filter_reverse, List.reverse_reverse]

theorem Slice_nil {α : Type} (less : α → α → Bool) : Slice less [] = [] := by
  simp [Slice, pdqsort_func, insertionSort_func, insertionOuter]

theorem computeRecommendations_eq (sortSlice : Sorter) (order : MapOrder) (event : Event)
    (timeSlots : List TimeSlot) (availabilities : List Availability) (users : List User) :
    computeRecommendations sortSlice order event timeSlots availabilities users =
      sortSlice scoreLess
        (slotOrderRecommendations order event timeSlots availabilities users) := rfl

/-- With the fetches successful and `sort.Slice` as the sorting routine, the method returns
the sorted records of the slot loop. -/
theorem GetRecommendations_Slice_of_fetches (order : MapOrder) (s : RecommendationService)
    (eventID : UUID) (event : Event) (timeSlots : List TimeSlot)
    (availabilities : List Availability) (users : List User)
    (hf : Fetches order s eventID event timeSlots availabilities users) :
    GetRecommendations Slice order s eventID =
      (some ⟨Slice scoreLess
        (slotOrderRecommendations order event timeSlots availabilities users)⟩, none) := by
  obtain ⟨h1, h2, h3, h4⟩ := hf
  unfold GetRecommendations
  rw [h1, h2]
  simp only
  by_cases hlen : timeSlots.length = 0
  · have hnil : timeSlots = [] := List.length_eq_zero.mp hlen
    subst hnil
    simp [slotOrderRecommendations, slotLoop, Slice_nil]
  · simp only [hlen, if_false]
    rw [h3]
    simp only
    rw [h4]
    rfl

theorem length_slotOrderRecommendations (order : MapOrder) (event : Event)
    (timeSlots : List TimeSlot) (availabilities : List Availability) (users : List User) :
    (slotOrderRecommendations order event timeSlots availabilities users).length =
      (timeSlots.filter (fun slot => decide (Fits event slot))).length := by
  have h := congrArg List.length (slotLoop_map_TimeSlot order event
    (groupAvailabilities availabilities) (buildUserMap users) 1 timeSlots)
  rw [List.length_map, List.length_map] at h
  unfold slotOrderRecommendations
  rw [h]
  congr 1
  apply List.filter_congr
  intro x _
  by_cases hx : Fits event x
  · simp [hx, (fits_iff event x).mpr hx]
  · have : (meetingEndTime event x).After x.EndTime = true := by
      by_contra hc
      exact hx ((fits_iff event x).mp (by simpa using hc))
    simp [hx, this]

/-! ## Positions, swaps and frames -/

theorem length_swapAt {α : Type} (data : List α) (i j : Nat) :
    (swapAt data i j).length = data.length := by
  unfold swapAt
  split <;> simp

theorem set_getElem_same {α : Type} (l : List α) (i : Nat) (h : i < l.length) :
    l.set i l[i] = l := by
  apply List.ext_getElem?
  intro k
  by_cases hk : i = k
  · subst hk
    rw [List.getElem?_set_self h, List.getElem?_eq_getElem h]
  · rw [List.getElem?_set_ne hk]

theorem perm_swapAt {α : Type} (data : List α) (i j : Nat) : (swapAt data i j).Perm data := by
  classical
  unfold swapAt
  split
  · rename_i x y hx hy
    rw [List.getElem?_eq_some] at hx hy
    obtain ⟨hi, hx⟩ := hx
    obtain ⟨hj, hy⟩ := hy
    by_cases hij : i = j
    · subst hij
      rw [hx] at hy
      subst hy
      rw [List.set_set, ← hx, set_getElem_same data i hi]
    · rw [List.perm_iff_count]
      intro a
      rw [List.count_set x a _ j (by simpa using hj), List.count_set y a _ i hi,
        List.getElem_set_ne hij]
      simp only [hx, hy, beq_iff_eq]
      have h1 : x = a → 0 < data.count a := fun e =>
        List.count_pos_iff.mpr (e ▸ hx ▸ List.getElem_mem hi)
      have h2 : y = a → 0 < data.count a := fun e =>
        List.count_pos_iff.mpr (e ▸ hy ▸ List.getElem_mem hj)
      by_cases hax : x = a <;> by_cases hay : y = a <;> simp only [hax, hay, if_true, if_false]
      · have := h1 hax
        omega
      · have := h1 hax
        omega
      · have := h2 hay
        omega
      · omega
  · exact List.Perm.refl _

theorem getElem?_swapAt_ne {α : Type} (data : List α) (i j k : Nat) (hi : k ≠ i) (hj : k ≠ j) :
    (swapAt data i j)[k]? = data[k]? := by
  unfold swapAt
  split
  · rw [List.getElem?_set_ne (Ne.symm hj), List.getElem?_set_ne (Ne.symm hi)]
  · rfl

theorem getElem?_swapAt_left {α : Type} (data : List α) (i j : Nat) (x y : α)
    (hx : data[i]? = some x) (hy : data[j]? = some y) : (swapAt data i j)[i]? = some y := by
  unfold swapAt
  rw [hx, hy]
  simp only
  have hi : i < data.length := (List.getElem?_eq_some.mp hx).1
  by_cases hij : i = j
  · subst hij
    rw [List.getElem?_set_self (by simpa using hi)]
    rw [hx] at hy
    exact hy
  · rw [List.getElem?_set_ne (Ne.symm hij), List.getElem?_set_self hi]

theorem getElem?_swapAt_right {α : Type} (data : List α) (i j : Nat) (x y : α)
    (hx : data[i]? = some x) (hy : data[j]? = some y) : (swapAt data i j)[j]? = some x := by
  unfold swapAt
  rw [hx, hy]
  simp only
  have hj : j < data.length := (List.getElem?_eq_some.mp hy).1
  rw [List.getElem?_set_self (by simpa using hj)]

theorem Frame.refl {α : Type} (a b : Nat) (data : List α) : Frame a b data data :=
  ⟨List.Perm.refl _, fun _ _ => rfl⟩

theorem Frame.trans {α : Type} {a b : Nat} {d1 d2 d3 : List α} (h1 : Frame a b d1 d2)
    (h2 : Frame a b d2 d3) : Frame a b d1 d3 :=
  ⟨h2.1.trans h1.1, fun k hk => (h2.2 k hk).trans (h1.2 k hk)⟩

theorem Frame.mono {α : Type} {a b a' b' : Nat} {d1 d2 : List α} (h : Frame a' b' d1 d2)
    (ha : a ≤ a') (hb : b' ≤ b) : Frame a b d1 d2 :=
  ⟨h.1, fun k hk => h.2 k (by omega)⟩

theorem Frame.length_eq {α : Type} {a b : Nat} {d1 d2 : List α} (h : Frame a b d1 d2) :
    d2.length = d1.length := h.1.length_eq

theorem frame_swapAt {α : Type} (a b : Nat) (data : List α) (i j : Nat) (hai : a ≤ i)
    (hib : i < b) (haj : a ≤ j) (hjb : j < b) : Frame a b data (swapAt data i j) :=
  ⟨perm_swapAt data i j, fun k hk => getElem?_swapAt_ne data i j k (by omega) (by omega)⟩

theorem getElem?_seg {α : Type} (a b : Nat) (data : List α) (k : Nat) :
    (seg a b data)[k]? = if k < b - a then data[a + k]? else none := by
  unfold seg
  rw [List.getElem?_take]
  split
  · rw [List.getElem?_drop]
  · rfl

theorem mem_seg_iff {α : Type} (a b : Nat) (data : List α) (x : α) :
    x ∈ seg a b data ↔ ∃ k, a ≤ k ∧ k < b ∧ data[k]? = some x := by
  rw [List.mem_iff_getElem?]
  constructor
  · rintro ⟨k, hk⟩
    rw [getElem?_seg] at hk
    split at hk
    · exact ⟨a + k, by omega, by omega, hk⟩
    · exact absurd hk (by simp)
  · rintro ⟨k, h1, h2, h3⟩
    refine ⟨k - a, ?_⟩
    rw [getElem?_seg, if_pos (by omega)]
    rw [← h3]
    congr 1
    omega

theorem eq_take_seg_drop {α : Type} (a b : Nat) (data : List α) (hab : a ≤ b) :
    data = data.take a ++ (seg a b data ++ data.drop b) := by
  unfold seg
  have h : data.drop b = (data.drop a).drop (b - a) := by
    rw [List.drop_drop]
    congr 1
    omega
  rw [h, List.take_append_drop, List.take_append_drop]

theorem Frame.seg_perm {α : Type} {a b : Nat} {d1 d2 : List α} (h : Frame a b d1 d2)
    (hab : a ≤ b) : (seg a b d2).Perm (seg a b d1) := by
  have htake : d2.take a = d1.take a := by
    apply List.ext_getElem?
    intro k
    rw [List.getElem?_take, List.getElem?_take]
    split
    · exact h.2 k (Or.inl (by assumption))
    · rfl
  have hdrop : d2.drop b = d1.drop b := by
    apply List.ext_getElem?
    intro k
    rw [List.getElem?_drop, List.getElem?_drop]
    exact h.2 (b + k) (Or.inr (by omega))
  have hp := h.1
  rw [eq_take_seg_drop a b d1 hab, eq_take_seg_drop a b d2 hab, htake, hdrop] at hp
  exact (List.perm_append_right_iff _).mp ((List.perm_append_left_iff _).mp hp)

theorem Frame.allSeg {α : Type} {a b : Nat} {d1 d2 : List α} (h : Frame a b d1 d2)
    (hab : a ≤ b) (P : α → Prop) (hP : AllSeg P a b d1) : AllSeg P a b d2 := by
  intro k x hak hkb hx
  have hmem : x ∈ seg a b d2 := (mem_seg_iff a b d2 x).mpr ⟨k, hak, hkb, hx⟩
  rw [(h.seg_perm hab).mem_iff, mem_seg_iff] at hmem
  obtain ⟨k', h1, h2, h3⟩ := hmem
  exact hP k' x h1 h2 h3

/-- A frame inside `[a, b)` keeps a property of all elements of `[a, b)`. -/
theorem Frame.allSeg_of_sub {α : Type} {a b a' b' : Nat} {d1 d2 : List α}
    (h : Frame a' b' d1 d2) (ha : a ≤ a') (hb : b' ≤ b) (hab : a ≤ b) (P : α → Prop)
    (hP : AllSeg P a b d1) : AllSeg P a b d2 :=
  (h.mono ha hb).allSeg hab P hP

/-- A frame disjoint from `[a, b)` keeps every position of `[a, b)`. -/
theorem Frame.allSeg_of_disjoint {α : Type} {a b a' b' : Nat} {d1 d2 : List α}
    (h : Frame a' b' d1 d2) (hd : b ≤ a' ∨ b' ≤ a) (P : α → Prop)
    (hP : AllSeg P a b d1) : AllSeg P a b d2 := by
  intro k x hak hkb hx
  rw [h.2 k (by omega)] at hx
  exact hP k x hak hkb hx

theorem Frame.sortedSeg_of_disjoint {α : Type} (less : α → α → Bool) {a b a' b' : Nat}
    {d1 d2 : List α} (h : Frame a' b' d1 d2) (hd : b ≤ a' ∨ b' ≤ a)
    (hs : SortedSeg less a b d1) : SortedSeg less a b d2 := by
  intro i j x y hai hij hjb hx hy
  rw [h.2 i (by omega)] at hx
  rw [h.2 j (by omega)] at hy
  exact hs i j x y hai hij hjb hx hy

theorem getElem?_swapAt {α : Type} (data : List α) (i j k : Nat) (hi : i < data.length)
    (hj : j < data.length) :
    (swapAt data i j)[k]? = if k = i then data[j]? else if k = j then data[i]? else data[k]? := by
  have hx := List.getElem?_eq_getElem hi
  have hy := List.getElem?_eq_getElem hj
  by_cases hki : k = i
  · subst hki
    rw [if_pos rfl, getElem?_swapAt_left data k j _ _ hx hy, hy]
  · by_cases hkj : k = j
    · subst hkj
      rw [if_neg hki, if_pos rfl, getElem?_swapAt_right data i k _ _ hx hy, hx]
    · rw [if_neg hki, if_neg hkj, getElem?_swapAt_ne data i j k hki hkj]

theorem lessAt_eq {α : Type} (less : α → α → Bool) (data : List α) (k m : Nat) (x y : α)
    (hx : data[k]? = some x) (hy : data[m]? = some y) : lessAt less data k m = less x y := by
  unfold lessAt
  rw [hx, hy]

theorem lessAt_congr {α : Type} (less : α → α → Bool) (d1 d2 : List α) (k m k' m' : Nat)
    (hk : d2[k']? = d1[k]?) (hm : d2[m']? = d1[m]?) :
    lessAt less d2 k' m' = lessAt less d1 k m := by
  unfold lessAt
  rw [hk, hm]

theorem scanLess_spec {α : Type} (less : α → α → Bool) (D : List α) (a j n i : Nat)
    (hn : j + 1 - i ≤ n) (hij : i ≤ j + 1) :
    i ≤ scanLess less D a j n i ∧ scanLess less D a j n i ≤ j + 1 ∧
    (∀ k, i ≤ k → k < scanLess less D a j n i → lessAt less D k a = true) ∧
    (scanLess less D a j n i ≤ j → lessAt less D (scanLess less D a j n i) a = false) := by
  induction n generalizing i with
  | zero =>
    have hi : i = j + 1 := by omega
    subst hi
    simp only [scanLess]
    refine ⟨le_refl _, le_refl _, ?_, ?_⟩
    · intro k h1 h2
      omega
    · intro h
      omega
  | succ n ih =>
    rw [scanLess]
    by_cases hc : (decide (i ≤ j) && lessAt less D i a) = true
    · rw [if_pos hc]
      rw [Bool.and_eq_true, decide_eq_true_eq] at hc
      obtain ⟨h1, h2, h3, h4⟩ := ih (i + 1) (by omega) (by omega)
      refine ⟨by omega, h2, ?_, h4⟩
      intro k hk1 hk2
      by_cases hki : k = i
      · rw [hki]
        exact hc.2
      · exact h3 k (by omega) hk2
    · rw [if_neg hc]
      refine ⟨le_refl _, hij, ?_, ?_⟩
      · intro k h1 h2
        omega
      · intro h
        rw [Bool.and_eq_true, decide_eq_true_eq] at hc
        cases hl : lessAt less D i a with
        | false => rfl
        | true => exact absurd ⟨h, hl⟩ hc

theorem scanNotLess_of_lt {α : Type} (less : α → α → Bool) (D : List α) (a i j : Nat)
    (h : j < i) : scanNotLess less D a i j = j := by
  cases j with
  | zero => rfl
  | succ m =>
    rw [scanNotLess]
    have : ¬ i ≤ m + 1 := by omega
    simp [this]

theorem scanNotLess_spec {α : Type} (less : α → α → Bool) (D : List α) (a i j : Nat) :
    scanNotLess less D a i j ≤ j ∧
    (∀ k, scanNotLess less D a i j < k → k ≤ j → lessAt less D k a = false) ∧
    (1 ≤ i → i ≤ scanNotLess less D a i j →
      lessAt less D (scanNotLess less D a i j) a = true) ∧
    (i ≤ j + 1 → i ≤ scanNotLess less D a i j + 1) := by
  induction j with
  | zero =>
    simp only [scanNotLess]
    refine ⟨le_refl _, ?_, ?_, ?_⟩
    · intro k h1 h2
      omega
    · intro h1 h2
      omega
    · intro h
      exact h
  | succ j ih =>
    rw [scanNotLess]
    by_cases hc : (decide (i ≤ j + 1) && !lessAt less D (j + 1) a) = true
    · rw [if_pos hc]
      rw [Bool.and_eq_true, decide_eq_true_eq, Bool.not_eq_true'] at hc
      obtain ⟨h1, h2, h3, h4⟩ := ih
      refine ⟨by omega, ?_, h3, ?_⟩
      · intro k hk1 hk2
        by_cases hkj : k = j + 1
        · rw [hkj]
          exact hc.2
        · exact h2 k hk1 (by omega)
      · intro _
        by_cases hij : i ≤ j
        · exact h4 (by omega)
        · rw [scanNotLess_of_lt less D a i j (by omega)]
          omega
    · rw [if_neg hc]
      refine ⟨le_refl _, ?_, ?_, ?_⟩
      · intro k h1 h2
        omega
      · intro _ h
        rw [Bool.and_eq_true, decide_eq_true_eq, Bool.not_eq_true'] at hc
        cases hl : lessAt less D (j + 1) a with
        | true => rfl
        | false => exact absurd ⟨h, hl⟩ hc
      · intro h
        omega

theorem lessAt_swapAt_ne {α : Type} (less : α → α → Bool) (D : List α) (i j k m : Nat)
    (hki : k ≠ i) (hkj : k ≠ j) (hmi : m ≠ i) (hmj : m ≠ j) :
    lessAt less (swapAt D i j) k m = lessAt less D k m :=
  lessAt_congr less D (swapAt D i j) k m k m (getElem?_swapAt_ne D i j k hki hkj)
    (getElem?_swapAt_ne D i j m hmi hmj)

theorem lessAt_swapAt_left {α : Type} (less : α → α → Bool) (D : List α) (i j m : Nat)
    (hi : i < D.length) (hj : j < D.length) (hmi : m ≠ i) (hmj : m ≠ j) :
    lessAt less (swapAt D i j) i m = lessAt less D j m := by
  apply lessAt_congr
  · rw [getElem?_swapAt D i j i hi hj, if_pos rfl]
  · exact getElem?_swapAt_ne D i j m hmi hmj

theorem lessAt_swapAt_right {α : Type} (less : α → α → Bool) (D : List α) (i j m : Nat)
    (hi : i < D.length) (hj : j < D.length) (hmi : m ≠ i) (hmj : m ≠ j) :
    lessAt less (swapAt D i j) j m = lessAt less D i m := by
  apply lessAt_congr
  · rw [getElem?_swapAt D i j j hi hj]
    by_cases hji : j = i
    · rw [if_pos hji, hji]
    · rw [if_neg hji, if_pos rfl]
  · exact getElem?_swapAt_ne D i j m hmi hmj

theorem partitionLoop_spec {α : Type} (less : α → α → Bool) (a b n : Nat) (D : List α)
    (i j : Nat) (hb : b ≤ D.length) (hn : j + 1 - i ≤ n) (hai : a + 1 ≤ i) (hjb : j < b)
    (hij : i ≤ j + 1)
    (hL : ∀ k, a + 1 ≤ k → k < i → lessAt less D k a = true)
    (hR : ∀ k, j < k → k < b → lessAt less D k a = false) :
    Frame (a + 1) b D (partitionLoop less a b n D i j).1 ∧
    a ≤ (partitionLoop less a b n D i j).2 ∧ (partitionLoop less a b n D i j).2 < b ∧
    (∀ k, a + 1 ≤ k → k ≤ (partitionLoop less a b n D i j).2 →
      lessAt less (partitionLoop less a b n D i j).1 k a = true) ∧
    (∀ k, (partitionLoop less a b n D i j).2 < k → k < b →
      lessAt less (partitionLoop less a b n D i j).1 k a = false) := by
  induction n generalizing D i j with
  | zero =>
    simp only [partitionLoop]
    refine ⟨Frame.refl _ _ _, by omega, hjb, ?_, hR⟩
    intro k h1 h2
    exact hL k h1 (by omega)
  | succ n ih =>
    rw [partitionLoop]
    obtain ⟨s1, s2, s3, s4⟩ := scanLess_spec less D a j (b - a) i (by omega) hij
    generalize scanLess less D a j (b - a) i = i' at s1 s2 s3 s4 ⊢
    obtain ⟨t1, t2, t3, t4⟩ := scanNotLess_spec less D a i' j
    generalize scanNotLess less D a i' j = j' at t1 t2 t3 t4 ⊢
    have t4' := t4 s2
    by_cases hgt : i' > j'
    · rw [if_pos hgt]
      refine ⟨Frame.refl _ _ _, by omega, by omega, ?_, ?_⟩
      · intro k h1 h2
        by_cases hki : k < i
        · exact hL k h1 hki
        · exact s3 k (by omega) (by omega)
      · intro k h1 h2
        by_cases hkj : k ≤ j
        · exact t2 k h1 hkj
        · exact hR k (by omega) h2
    · rw [if_neg hgt]
      have hle : i' ≤ j' := by omega
      have hli := s4 (by omega)
      have hlj := t3 (by omega) hle
      have hne : i' ≠ j' := by
        intro e
        rw [e, hlj] at hli
        exact absurd hli (by simp)
      have hi'len : i' < D.length := by omega
      have hj'len : j' < D.length := by omega
      have hb' : b ≤ (swapAt D i' j').length := by
        rw [length_swapAt]
        exact hb
      obtain ⟨r1, r2, r3, r4, r5⟩ := ih (swapAt D i' j') (i' + 1) (j' - 1) hb' (by omega)
        (by omega) (by omega) (by omega)
        (by
          intro k h1 h2
          by_cases hki : k = i'
          · rw [hki, lessAt_swapAt_left less D i' j' a hi'len hj'len (by omega) (by omega)]
            exact hlj
          · rw [lessAt_swapAt_ne less D i' j' k a hki (by omega) (by omega) (by omega)]
            by_cases hki2 : k < i
            · exact hL k h1 hki2
            · exact s3 k (by omega) (by omega))
        (by
          intro k h1 h2
          by_cases hkj : k = j'
          · rw [hkj, lessAt_swapAt_right less D i' j' a hi'len hj'len (by omega) (by omega)]
            exact hli
          · rw [lessAt_swapAt_ne less D i' j' k a (by omega) hkj (by omega) (by omega)]
            by_cases hkj2 : k ≤ j
            · exact t2 k (by omega) hkj2
            · exact hR k (by omega) h2)
      exact ⟨(frame_swapAt (a + 1) b D i' j' (by omega) (by omega) (by omega) (by omega)).trans
        r1, r2, r3, r4, r5⟩

/-- What `partition_func` establishes: the pivot element `p` stands at the returned position,
the elements before it in `data[a:b]` are `less` than `p`, those after it are not. -/
theorem partition_func_spec {α : Type} (less : α → α → Bool) (data : List α)
    (a b pivot : Nat) (hab : a < b) (hb : b ≤ data.length) (hpa : a ≤ pivot) (hpb : pivot < b)
    (p : α) (hp : data[pivot]? = some p) :
    Frame a b data (partition_func less data a b pivot).1 ∧
    a ≤ (partition_func less data a b pivot).2.1 ∧
    (partition_func less data a b pivot).2.1 < b ∧
    (partition_func less data a b pivot).1[(partition_func less data a b pivot).2.1]? =
      some p ∧
    AllSeg (fun x => less x p = true) a (partition_func less data a b pivot).2.1
      (partition_func less data a b pivot).1 ∧
    AllSeg (fun x => less x p = false) ((partition_func less data a b pivot).2.1 + 1) b
      (partition_func less data a b pivot).1 := by
  have halen : a < data.length := by omega
  have hplen : pivot < data.length := by omega
  have hD0len : (swapAt data a pivot).length = data.length := length_swapAt _ _ _
  have hD0a : (swapAt data a pivot)[a]? = some p := by
    rw [getElem?_swapAt data a pivot a halen hplen, if_pos rfl, hp]
  have hF0 : Frame a b data (swapAt data a pivot) :=
    frame_swapAt a b data a pivot (le_refl _) hab hpa hpb
  -- the peeled first round and the loop together are one more round of the loop
  have hloop := partitionLoop_spec less a b (b - a + 1) (swapAt data a pivot) (a + 1) (b - 1)
    (by omega) (by omega) (le_refl _) (by omega) (by omega)
    (by
      intro k h1 h2
      omega)
    (by
      intro k h1 h2
      omega)
  have hunfold : partition_func less data a b pivot =
      (swapAt (partitionLoop less a b (b - a + 1) (swapAt data a pivot) (a + 1) (b - 1)).1
        (partitionLoop less a b (b - a + 1) (swapAt data a pivot) (a + 1) (b - 1)).2 a,
       (partitionLoop less a b (b - a + 1) (swapAt data a pivot) (a + 1) (b - 1)).2,
       (partition_func less data a b pivot).2.2) := by
    rw [partitionLoop]
    unfold partition_func
    simp only
    split <;> rfl
  obtain ⟨r1, r2, r3, r4, r5⟩ := hloop
  generalize (partitionLoop less a b (b - a + 1) (swapAt data a pivot) (a + 1) (b - 1)).1 = D'
    at r1 r4 r5 hunfold
  generalize (partitionLoop less a b (b - a + 1) (swapAt data a pivot) (a + 1) (b - 1)).2 = j'
    at r2 r3 r4 r5 hunfold
  rw [hunfold]
  simp only
  have hD'len : D'.length = data.length := by rw [r1.length_eq, hD0len]
  have hD'a : D'[a]? = some p := by
    rw [r1.2 a (Or.inl (by omega))]
    exact hD0a
  have hj'len : j' < D'.length := by omega
  have ha'len : a < D'.length := by omega
  refine ⟨(hF0.trans (r1.mono (by omega) (le_refl _))).trans
    (frame_swapAt a b D' j' a r2 r3 (le_refl _) hab), r2, r3, ?_, ?_, ?_⟩
  · rw [getElem?_swapAt D' j' a j' hj'len ha'len, if_pos rfl]
    exact hD'a
  · intro k x hk1 hk2 hx
    rw [getElem?_swapAt D' j' a k hj'len ha'len, if_neg (by omega)] at hx
    by_cases hka : k = a
    · rw [if_pos hka] at hx
      have := r4 j' (by omega) (le_refl _)
      rw [lessAt_eq less D' j' a x p hx hD'a] at this
      exact this
    · rw [if_neg hka] at hx
      have := r4 k (by omega) (by omega)
      rw [lessAt_eq less D' k a x p hx hD'a] at this
      exact this
  · intro k x hk1 hk2 hx
    rw [getElem?_swapAt D' j' a k hj'len ha'len, if_neg (by omega), if_neg (by omega)] at hx
    have := r5 k (by omega) hk2
    rw [lessAt_eq less D' k a x p hx hD'a] at this
    exact this

theorem scanNotGreater_spec {α : Type} (less : α → α → Bool) (D : List α) (a j n i : Nat)
    (hn : j + 1 - i ≤ n) (hij : i ≤ j + 1) :
    i ≤ scanNotGreater less D a j n i ∧ scanNotGreater less D a j n i ≤ j + 1 ∧
    (∀ k, i ≤ k → k < scanNotGreater less D a j n i → lessAt less D a k = false) ∧
    (scanNotGreater less D a j n i ≤ j →
      lessAt less D a (scanNotGreater less D a j n i) = true) := by
  induction n generalizing i with
  | zero =>
    have hi : i = j + 1 := by omega
    subst hi
    simp only [scanNotGreater]
    refine ⟨le_refl _, le_refl _, ?_, ?_⟩
    · intro k h1 h2
      omega
    · intro h
      omega
  | succ n ih =>
    rw [scanNotGreater]
    by_cases hc : (decide (i ≤ j) && !lessAt less D a i) = true
    · rw [if_pos hc]
      rw [Bool.and_eq_true, decide_eq_true_eq, Bool.not_eq_true'] at hc
      obtain ⟨h1, h2, h3, h4⟩ := ih (i + 1) (by omega) (by omega)
      refine ⟨by omega, h2, ?_, h4⟩
      intro k hk1 hk2
      by_cases hki : k = i
      · rw [hki]
        exact hc.2
      · exact h3 k (by omega) hk2
    · rw [if_neg hc]
      refine ⟨le_refl _, hij, ?_, ?_⟩
      · intro k h1 h2
        omega
      · intro h
        rw [Bool.and_eq_true, decide_eq_true_eq, Bool.not_eq_true'] at hc
        cases hl : lessAt less D a i with
        | true => rfl
        | false => exact absurd ⟨h, hl⟩ hc

theorem scanGreater_of_lt {α : Type} (less : α → α → Bool) (D : List α) (a i j : Nat)
    (h : j < i) : scanGreater less D a i j = j := by
  cases j with
  | zero => rfl
  | succ m =>
    rw [scanGreater]
    have : ¬ i ≤ m + 1 := by omega
    simp [this]

theorem scanGreater_spec {α : Type} (less : α → α → Bool) (D : List α) (a i j : Nat) :
    scanGreater less D a i j ≤ j ∧
    (∀ k, scanGreater less D a i j < k → k ≤ j → lessAt less D a k = true) ∧
    (1 ≤ i → i ≤ scanGreater less D a i j →
      lessAt less D a (scanGreater less D a i j) = false) ∧
    (i ≤ j + 1 → i ≤ scanGreater less D a i j + 1) := by
  induction j with
  | zero =>
    simp only [scanGreater]
    refine ⟨le_refl _, ?_, ?_, ?_⟩
    · intro k h1 h2
      omega
    · intro h1 h2
      omega
    · intro h
      exact h
  | succ j ih =>
    rw [scanGreater]
    by_cases hc : (decide (i ≤ j + 1) && lessAt less D a (j + 1)) = true
    · rw [if_pos hc]
      rw [Bool.and_eq_true, decide_eq_true_eq] at hc
      obtain ⟨h1, h2, h3, h4⟩ := ih
      refine ⟨by omega, ?_, h3, ?_⟩
      · intro k hk1 hk2
        by_cases hkj : k = j + 1
        · rw [hkj]
          exact hc.2
        · exact h2 k hk1 (by omega)
      · intro _
        by_cases hij : i ≤ j
        · exact h4 (by omega)
        · rw [scanGreater_of_lt less D a i j (by omega)]
          omega
    · rw [if_neg hc]
      refine ⟨le_refl _, ?_, ?_, ?_⟩
      · intro k h1 h2
        omega
      · intro _ h
        rw [Bool.and_eq_true, decide_eq_true_eq] at hc
        cases hl : lessAt less D a (j + 1) with
        | false => rfl
        | true => exact absurd ⟨h, hl⟩ hc
      · intro h
        omega

theorem lessAt_swapAt_left' {α : Type} (less : α → α → Bool) (D : List α) (i j m : Nat)
    (hi : i < D.length) (hj : j < D.length) (hmi : m ≠ i) (hmj : m ≠ j) :
    lessAt less (swapAt D i j) m i = lessAt less D m j := by
  apply lessAt_congr
  · exact getElem?_swapAt_ne D i j m hmi hmj
  · rw [getElem?_swapAt D i j i hi hj, if_pos rfl]

theorem lessAt_swapAt_right' {α : Type} (less : α → α → Bool) (D : List α) (i j m : Nat)
    (hi : i < D.length) (hj : j < D.length) (hmi : m ≠ i) (hmj : m ≠ j) :
    lessAt less (swapAt D i j) m j = lessAt less D m i := by
  apply lessAt_congr
  · exact getElem?_swapAt_ne D i j m hmi hmj
  · rw [getElem?_swapAt D i j j hi hj]
    by_cases hji : j = i
    · rw [if_pos hji, hji]
    · rw [if_neg hji, if_pos rfl]

theorem partitionEqualLoop_spec {α : Type} (less : α → α → Bool) (a b n : Nat) (D : List α)
    (i j : Nat) (hb : b ≤ D.length) (hn : j + 1 - i ≤ n) (hai : a + 1 ≤ i) (hjb : j < b)
    (hij : i ≤ j + 1)
    (hL : ∀ k, a + 1 ≤ k → k < i → lessAt less D a k = false)
    (hR : ∀ k, j < k → k < b → lessAt less D a k = true) :
    Frame (a + 1) b D (partitionEqualLoop less a b n D i j).1 ∧
    a + 1 ≤ (partitionEqualLoop less a b n D i j).2 ∧
    (partitionEqualLoop less a b n D i j).2 ≤ b ∧
    (∀ k, a + 1 ≤ k → k < (partitionEqualLoop less a b n D i j).2 →
      lessAt less (partitionEqualLoop less a b n D i j).1 a k = false) ∧
    (∀ k, (partitionEqualLoop less a b n D i j).2 ≤ k → k < b →
      lessAt less (partitionEqualLoop less a b n D i j).1 a k = true) := by
  induction n generalizing D i j with
  | zero =>
    simp only [partitionEqualLoop]
    refine ⟨Frame.refl _ _ _, hai, by omega, hL, ?_⟩
    intro k h1 h2
    exact hR k (by omega) h2
  | succ n ih =>
    rw [partitionEqualLoop]
    obtain ⟨s1, s2, s3, s4⟩ := scanNotGreater_spec less D a j (b - a) i (by omega) hij
    generalize scanNotGreater less D a j (b - a) i = i' at s1 s2 s3 s4 ⊢
    obtain ⟨t1, t2, t3, t4⟩ := scanGreater_spec less D a i' j
    generalize scanGreater less D a i' j = j' at t1 t2 t3 t4 ⊢
    have t4' := t4 s2
    by_cases hgt : i' > j'
    · rw [if_pos hgt]
      refine ⟨Frame.refl _ _ _, by omega, by omega, ?_, ?_⟩
      · intro k h1 h2
        by_cases hki : k < i
        · exact hL k h1 hki
        · exact s3 k (by omega) (by omega)
      · intro k h1 h2
        by_cases hkj : k ≤ j
        · exact t2 k (by omega) hkj
        · exact hR k (by omega) h2
    · rw [if_neg hgt]
      have hle : i' ≤ j' := by omega
      have hli := s4 (by omega)
      have hlj := t3 (by omega) hle
      have hne : i' ≠ j' := by
        intro e
        rw [e, hlj] at hli
        exact absurd hli (by simp)
      have hi'len : i' < D.length := by omega
      have hj'len : j' < D.length := by omega
      have hb' : b ≤ (swapAt D i' j').length := by
        rw [length_swapAt]
        exact hb
      obtain ⟨r1, r2, r3, r4, r5⟩ := ih (swapAt D i' j') (i' + 1) (j' - 1) hb' (by omega)
        (by omega) (by omega) (by omega)
        (by
          intro k h1 h2
          by_cases hki : k = i'
          · rw [hki, lessAt_swapAt_left' less D i' j' a hi'len hj'len (by omega) (by omega)]
            exact hlj
          · rw [lessAt_swapAt_ne less D i' j' a k (by omega) (by omega) hki (by omega)]
            by_cases hki2 : k < i
            · exact hL k h1 hki2
            · exact s3 k (by omega) (by omega))
        (by
          intro k h1 h2
          by_cases hkj : k = j'
          · rw [hkj, lessAt_swapAt_right' less D i' j' a hi'len hj'len (by omega) (by omega)]
            exact hli
          · rw [lessAt_swapAt_ne less D i' j' a k (by omega) (by omega) (by omega) hkj]
            by_cases hkj2 : k ≤ j
            · exact t2 k (by omega) hkj2
            · exact hR k (by omega) h2)
      exact ⟨(frame_swapAt (a + 1) b D i' j' (by omega) (by omega) (by omega) (by omega)).trans
        r1, by omega, r3, r4, r5⟩

/-- What `partitionEqual_func` establishes: the elements of `data[a:b]` that `p` is not `less`
than come first, ending before the returned position; `p` is `less` than all the others. -/
theorem partitionEqual_func_spec {α : Type} (less : α → α → Bool)
    (hirr : ∀ x, less x x = false) (data : List α)
    (a b pivot : Nat) (hab : a < b) (hb : b ≤ data.length) (hpa : a ≤ pivot) (hpb : pivot < b)
    (p : α) (hp : data[pivot]? = some p) :
    Frame a b data (partitionEqual_func less data a b pivot).1 ∧
    a + 1 ≤ (partitionEqual_func less data a b pivot).2 ∧
    (partitionEqual_func less data a b pivot).2 ≤ b ∧
    AllSeg (fun x => less p x = false) a (partitionEqual_func less data a b pivot).2
      (partitionEqual_func less data a b pivot).1 ∧
    AllSeg (fun x => less p x = true) (partitionEqual_func less data a b pivot).2 b
      (partitionEqual_func less data a b pivot).1 := by
  have halen : a < data.length := by omega
  have hplen : pivot < data.length := by omega
  have hD0len : (swapAt data a pivot).length = data.length := length_swapAt _ _ _
  have hD0a : (swapAt data a pivot)[a]? = some p := by
    rw [getElem?_swapAt data a pivot a halen hplen, if_pos rfl, hp]
  have hF0 : Frame a b data (swapAt data a pivot) :=
    frame_swapAt a b data a pivot (le_refl _) hab hpa hpb
  obtain ⟨r1, r2, r3, r4, r5⟩ := partitionEqualLoop_spec less a b (b - a)
    (swapAt data a pivot) (a + 1) (b - 1) (by omega) (by omega) (le_refl _) (by omega)
    (by omega)
    (by
      intro k h1 h2
      omega)
    (by
      intro k h1 h2
      omega)
  unfold partitionEqual_func
  generalize (partitionEqualLoop less a b (b - a) (swapAt data a pivot) (a + 1) (b - 1)).1 = D'
    at r1 r4 r5 ⊢
  generalize (partitionEqualLoop less a b (b - a) (swapAt data a pivot) (a + 1) (b - 1)).2 = i'
    at r2 r3 r4 r5 ⊢
  have hD'a : D'[a]? = some p := by
    rw [r1.2 a (Or.inl (by omega))]
    exact hD0a
  refine ⟨hF0.trans (r1.mono (by omega) (le_refl _)), r2, r3, ?_, ?_⟩
  · intro k x hk1 hk2 hx
    by_cases hka : k = a
    · rw [hka, hD'a] at hx
      injection hx with hx
      rw [← hx]
      exact hirr p
    · have := r4 k (by omega) hk2
      rw [lessAt_eq less D' a k p x hD'a hx] at this
      exact this
  · intro k x hk1 hk2 hx
    have := r5 k hk1 hk2
    rw [lessAt_eq less D' a k p x hD'a hx] at this
    exact this

theorem getElem?_append_mid {α : Type} (front mid back : List α) (k : Nat)
    (h1 : front.length ≤ k) (h2 : k < front.length + mid.length) :
    (front ++ (mid ++ back))[k]? = mid[k - front.length]? := by
  rw [List.getElem?_append_right h1, List.getElem?_append_left (by omega)]

theorem frame_append {α : Type} (front mid mid' back : List α) (h : mid'.Perm mid) :
    Frame front.length (front.length + mid.length) (front ++ (mid ++ back))
      (front ++ (mid' ++ back)) := by
  refine ⟨(h.append_right back).append_left front, ?_⟩
  intro k hk
  rcases hk with hk | hk
  · rw [List.getElem?_append_left hk, List.getElem?_append_left hk]
  · have hl := h.length_eq
    rw [List.getElem?_append_right (by omega), List.getElem?_append_right (by omega),
      List.getElem?_append_right (by omega), List.getElem?_append_right (by omega), hl]

theorem sortedSeg_append {α : Type} (less : α → α → Bool) (front mid back : List α)
    (h : mid.Pairwise (fun x y => less y x = false)) :
    SortedSeg less front.length (front.length + mid.length) (front ++ (mid ++ back)) := by
  intro i j x y hi hij hj hx hy
  rw [getElem?_append_mid front mid back i hi (by omega)] at hx
  rw [getElem?_append_mid front mid back j (by omega) hj] at hy
  rw [List.getElem?_eq_some] at hx hy
  obtain ⟨hi', hx⟩ := hx
  obtain ⟨hj', hy⟩ := hy
  rw [← hx, ← hy]
  exact List.pairwise_iff_getElem.mp h (i - front.length) (j - front.length) hi' hj' (by omega)

theorem length_seg {α : Type} (a b : Nat) (data : List α) (hb : b ≤ data.length) :
    (seg a b data).length = b - a := by
  unfold seg
  rw [List.length_take, List.length_drop]
  omega

/-- In-place insertion sort of `data[a:b]` rearranges that segment only and leaves it in
order. -/
theorem insertionSort_func_spec {α : Type} (less : α → α → Bool)
    (hless : StrictWeakOrder less) (data : List α) (a b : Nat) (hab : a ≤ b)
    (hb : b ≤ data.length) :
    Frame a b data (insertionSort_func less data a b) ∧
    SortedSeg less a b (insertionSort_func less data a b) := by
  have hfl : (data.take a).length = a := by
    rw [List.length_take]
    omega
  have hml : (seg a b data).length = b - a := length_seg a b data hb
  have hdata := eq_take_seg_drop a b data hab
  have hres := insertionSort_func_eq less (data.take a) (seg a b data) (data.drop b)
  rw [← hdata, hfl, hml, Nat.add_sub_cancel' hab] at hres
  rw [hres]
  have hperm := perm_insertionFold less (seg a b data)
  have hF := frame_append (data.take a) (seg a b data) (insertionFold less (seg a b data))
    (data.drop b) hperm
  rw [← hdata, hfl, hml, Nat.add_sub_cancel' hab] at hF
  have hS := sortedSeg_append less (data.take a) (insertionFold less (seg a b data))
    (data.drop b) (pairwise_insertionFold less hless _)
  rw [hfl, hperm.length_eq, hml, Nat.add_sub_cancel' hab] at hS
  exact ⟨hF, hS⟩

theorem frame_reverseLoop {α : Type} (a b n : Nat) (data : List α) (i j : Nat) (hai : a ≤ i)
    (hjb : j < b) : Frame a b data (reverseLoop n data i j) := by
  induction n generalizing data i j with
  | zero => exact Frame.refl _ _ _
  | succ n ih =>
    rw [reverseLoop]
    by_cases hij : i < j
    · rw [if_pos hij]
      exact (frame_swapAt a b data i j hai (by omega) (by omega) hjb).trans
        (ih (swapAt data i j) (i + 1) (j - 1) (by omega) (by omega))
    · rw [if_neg hij]
      exact Frame.refl _ _ _

theorem frame_reverseRange_func {α : Type} (data : List α) (a b : Nat) (hab : a < b) :
    Frame a b data (reverseRange_func data a b) :=
  frame_reverseLoop a b (b - a) data a (b - 1) (le_refl _) (by omega)

theorem bitsLenAux_spec (f n : Nat) (h : n ≤ f) (hn : 0 < n) :
    n < 2 ^ bitsLenAux f n ∧ 2 ^ bitsLenAux f n ≤ 2 * n := by
  induction f generalizing n with
  | zero => omega
  | succ f ih =>
    rw [bitsLenAux, if_neg (by omega)]
    by_cases h1 : n = 1
    · subst h1
      cases f with
      | zero => simp [bitsLenAux]
      | succ g => simp [bitsLenAux]
    · obtain ⟨i1, i2⟩ := ih (n / 2) (by omega) (by omega)
      rw [Nat.pow_succ]
      constructor <;> omega

theorem nextPowerOfTwo_spec (n : Nat) (hn : 0 < n) :
    n < nextPowerOfTwo n ∧ nextPowerOfTwo n ≤ 2 * n :=
  bitsLenAux_spec n n (le_refl _) hn

theorem frame_breakLoop {α : Type} (a b length modulus idx : Nat) (hlen : length = b - a)
    (hmod : 0 < modulus) (hm2 : modulus ≤ 2 * length)
    (hidx1 : a + 1 ≤ idx) (n i random : Nat) (data : List α) (hi : idx - 1 + i + n < b + 1) :
    Frame a b data (breakLoop a length modulus idx n i random data) := by
  induction n generalizing i random data with
  | zero => exact Frame.refl _ _ _
  | succ n ih =>
    rw [breakLoop]
    have hother : (if xorshiftNext random % modulus ≥ length then
        xorshiftNext random % modulus - length else xorshiftNext random % modulus) < length := by
      have := Nat.mod_lt (xorshiftNext random) hmod
      split <;> omega
    refine (frame_swapAt a b data _ _ (by omega) (by omega) (by omega) (by omega)).trans
      (ih (i + 1) _ _ (by omega))

theorem frame_breakPatterns_func {α : Type} (data : List α) (a b : Nat) :
    Frame a b data (breakPatterns_func data a b) := by
  unfold breakPatterns_func
  simp only
  split
  · rename_i h
    obtain ⟨n1, n2⟩ := nextPowerOfTwo_spec (b - a) (by omega)
    exact frame_breakLoop a b (b - a) (nextPowerOfTwo (b - a)) (a + (b - a) / 4 * 2 - 1) rfl
      (by omega) n2 (by omega) 3 0 (b - a) data (by omega)
  · exact Frame.refl _ _ _

theorem median_func_mem {α : Type} (less : α → α → Bool) (data : List α) (a b c s : Nat) :
    (median_func less data a b c s).1 = a ∨ (median_func less data a b c s).1 = b ∨
      (median_func less data a b c s).1 = c := by
  simp only [median_func, order2_func]
  split_ifs <;> simp

theorem median_func_bounds {α : Type} (less : α → α → Bool) (data : List α)
    (a b c s lo hi : Nat) (ha : lo ≤ a ∧ a < hi) (hb : lo ≤ b ∧ b < hi) (hc : lo ≤ c ∧ c < hi) :
    lo ≤ (median_func less data a b c s).1 ∧ (median_func less data a b c s).1 < hi := by
  rcases median_func_mem less data a b c s with h | h | h <;> rw [h] <;> assumption

/-- The pivot chosen in a segment of at least eight elements lies inside the segment. -/
theorem choosePivot_func_bounds {α : Type} (less : α → α → Bool) (data : List α) (a b : Nat)
    (h : a + 8 ≤ b) :
    a ≤ (choosePivot_func less data a b).1 ∧ (choosePivot_func less data a b).1 < b := by
  have hq : 2 ≤ (b - a) / 4 := by omega
  have hq4 : (b - a) / 4 * 4 ≤ b - a := Nat.div_mul_le_self _ _
  have key : ∀ r : Nat × Nat, (a ≤ r.1 ∧ r.1 < b) →
      a ≤ (if r.2 = 0 then (r.1, sortedHint.increasingHint)
        else if r.2 = 12 then (r.1, sortedHint.decreasingHint)
        else (r.1, sortedHint.unknownHint)).1 ∧
      (if r.2 = 0 then (r.1, sortedHint.increasingHint)
        else if r.2 = 12 then (r.1, sortedHint.decreasingHint)
        else (r.1, sortedHint.unknownHint)).1 < b := by
    intro r hr
    split
    · exact hr
    · split <;> exact hr
  unfold choosePivot_func
  simp only
  apply key
  rw [if_pos (by omega)]
  split
  · apply median_func_bounds
    · unfold medianAdjacent_func
      apply median_func_bounds <;> constructor <;> omega
    · unfold medianAdjacent_func
      apply median_func_bounds <;> constructor <;> omega
    · unfold medianAdjacent_func
      apply median_func_bounds <;> constructor <;> omega
  · apply median_func_bounds <;> constructor <;> omega

theorem skipOrdered_spec {α : Type} (less : α → α → Bool) (D : List α) (b n i : Nat) :
    i ≤ skipOrdered less D b n i ∧ (i ≤ b → skipOrdered less D b n i ≤ b) ∧
    (∀ k, i ≤ k → k < skipOrdered less D b n i → lessAt less D k (k - 1) = false) ∧
    (b - i ≤ n → skipOrdered less D b n i < b →
      lessAt less D (skipOrdered less D b n i) (skipOrdered less D b n i - 1) = true) := by
  induction n generalizing i with
  | zero =>
    simp only [skipOrdered]
    refine ⟨le_refl _, fun h => h, ?_, ?_⟩
    · intro k h1 h2
      omega
    · intro h1 h2
      omega
  | succ n ih =>
    rw [skipOrdered]
    by_cases hc : (decide (i < b) && !lessAt less D i (i - 1)) = true
    · rw [if_pos hc]
      rw [Bool.and_eq_true, decide_eq_true_eq, Bool.not_eq_true'] at hc
      obtain ⟨h1, h2, h3, h4⟩ := ih (i + 1)
      refine ⟨by omega, fun _ => h2 (by omega), ?_, fun hn hlt => h4 (by omega) hlt⟩
      intro k hk1 hk2
      by_cases hki : k = i
      · rw [hki]
        exact hc.2
      · exact h3 k (by omega) hk2
    · rw [if_neg hc]
      refine ⟨le_refl _, fun h => h, ?_, ?_⟩
      · intro k h1 h2
        omega
      · intro _ hlt
        rw [Bool.and_eq_true, decide_eq_true_eq, Bool.not_eq_true'] at hc
        cases hl : lessAt less D i (i - 1) with
        | true => rfl
        | false => exact absurd ⟨hlt, hl⟩ hc

theorem sortedSeg_succ {α : Type} (less : α → α → Bool) (hless : StrictWeakOrder less)
    (D : List α) (a m : Nat) (hm : m < D.length) (hs : SortedSeg less a m D)
    (hadj : a + 1 ≤ m → lessAt less D m (m - 1) = false) : SortedSeg less a (m + 1) D := by
  obtain ⟨_, _, hntr⟩ := hless
  intro i j x y hai hij hj hx hy
  by_cases hjm : j < m
  · exact hs i j x y hai hij hjm hx hy
  · have hjm' : j = m := by omega
    subst hjm'
    have hadj' := hadj (by omega)
    obtain ⟨z, hz⟩ : ∃ z, D[j - 1]? = some z :=
      ⟨D[j - 1], List.getElem?_eq_getElem (by omega)⟩
    rw [lessAt_eq less D j (j - 1) y z hy hz] at hadj'
    by_cases hi : i = j - 1
    · rw [hi, hz] at hx
      injection hx with hx
      rw [← hx]
      exact hadj'
    · exact hntr y z x hadj' (hs i (j - 1) x z hai (by omega) (by omega) hx hz)

theorem sortedSeg_extend {α : Type} (less : α → α → Bool) (hless : StrictWeakOrder less)
    (D : List α) (a i n : Nat) (hlen : i + n ≤ D.length) (hs : SortedSeg less a i D)
    (hadj : ∀ k, i ≤ k → k < i + n → a + 1 ≤ k → lessAt less D k (k - 1) = false) :
    SortedSeg less a (i + n) D := by
  induction n with
  | zero => exact hs
  | succ n ih =>
    have h1 := ih (by omega) (fun k h1 h2 h3 => hadj k h1 (by omega) h3)
    exact sortedSeg_succ less hless D a (i + n) (by omega) h1
      (fun h => hadj (i + n) (by omega) (by omega) h)

theorem pairwise_seg_of_sortedSeg {α : Type} (less : α → α → Bool) (D : List α) (a b : Nat)
    (hs : SortedSeg less a b D) : (seg a b D).Pairwise (fun x y => less y x = false) := by
  rw [List.pairwise_iff_getElem]
  intro i j hi hj hij
  have hx : (seg a b D)[i]? = some (seg a b D)[i] := List.getElem?_eq_getElem hi
  have hy : (seg a b D)[j]? = some (seg a b D)[j] := List.getElem?_eq_getElem hj
  rw [getElem?_seg] at hx hy
  split at hx
  · split at hy
    · exact hs (a + i) (a + j) _ _ (by omega) (by omega) (by omega) hx hy
    · exact absurd hy (by simp)
  · exact absurd hx (by simp)

theorem eq_take_seg_cons_drop {α : Type} (a j : Nat) (D : List α) (haj : a ≤ j)
    (hj : j < D.length) :
    D = D.take a ++ ((seg a j D).reverse.reverse ++ D[j] :: D.drop (j + 1)) := by
  rw [List.reverse_reverse]
  have h := eq_take_seg_drop a j D haj
  rw [List.drop_eq_getElem_cons hj] at h
  exact h

/-- The inner loop of insertion sort places the element at position `j` into the ordered
positions `[a, j)`. -/
theorem insertionInner_spec {α : Type} (less : α → α → Bool) (hless : StrictWeakOrder less)
    (D : List α) (a j : Nat) (haj : a ≤ j) (hj : j < D.length)
    (hs : SortedSeg less a j D) :
    Frame a (j + 1) D (insertionInner less a j D) ∧
    SortedSeg less a (j + 1) (insertionInner less a j D) := by
  have hfl : (D.take a).length = a := by
    rw [List.length_take]
    omega
  have hml : (seg a j D).length = j - a := length_seg a j D (by omega)
  have hrl : (seg a j D).reverse.length = j - a := by rw [List.length_reverse, hml]
  have hdata := eq_take_seg_cons_drop a j D haj hj
  have hres := insertionInner_eq less (D.take a) D[j] (seg a j D).reverse (D.drop (j + 1))
  rw [← hdata, hfl, hrl, Nat.add_sub_cancel' haj] at hres
  rw [hres]
  have hpw : ((insertBack less D[j] (seg a j D).reverse).reverse).Pairwise
      (fun x y => less y x = false) := by
    rw [List.pairwise_reverse]
    apply pairwise_insertBack less hless
    rw [List.pairwise_reverse]
    exact pairwise_seg_of_sortedSeg less D a j hs
  have hS := sortedSeg_append less (D.take a)
    ((insertBack less D[j] (seg a j D).reverse).reverse) (D.drop (j + 1)) hpw
  rw [hfl, List.length_reverse, length_insertBack, hrl] at hS
  have e1 : a + (j - a + 1) = j + 1 := by omega
  rw [e1] at hS
  refine ⟨?_, hS⟩
  have hperm : ((insertBack less D[j] (seg a j D).reverse).reverse).Perm
      ((seg a j D).reverse.reverse ++ [D[j]]) := by
    refine (List.reverse_perm _).trans ((perm_insertBack less _ _).trans ?_)
    rw [List.reverse_reverse]
    exact (List.perm_append_singleton _ _).symm.trans
      ((List.reverse_perm _).append_right _)
  have hF := frame_append (D.take a) ((seg a j D).reverse.reverse ++ [D[j]])
    ((insertBack less D[j] (seg a j D).reverse).reverse) (D.drop (j + 1)) hperm
  rw [List.append_assoc, List.singleton_append, ← hdata, hfl, List.length_append,
    List.length_reverse, hrl, List.length_singleton, e1] at hF
  exact hF

theorem shiftSmaller_eq {α : Type} (less : α → α → Bool) (D : List α) (a j : Nat)
    (haj : a ≤ j) (hj : j < D.length)
    (hLB : 0 < a → ∃ q, D[a - 1]? = some q ∧ AllSeg (fun x => less x q = false) a (j + 1) D) :
    shiftSmaller less j D = insertionInner less a j D := by
  induction j generalizing D with
  | zero => rfl
  | succ j ih =>
    rw [shiftSmaller, insertionInner]
    by_cases haj' : a < j + 1
    · by_cases hl : lessAt less D (j + 1) j = true
      · simp only [hl, haj', decide_True, Bool.and_self, if_true, Bool.not_true,
          Bool.false_eq_true, if_false]
        apply ih (swapAt D (j + 1) j) (by omega) (by rw [length_swapAt]; omega)
        intro ha
        obtain ⟨q, hq, hall⟩ := hLB ha
        refine ⟨q, ?_, ?_⟩
        · rw [getElem?_swapAt_ne D (j + 1) j (a - 1) (by omega) (by omega)]
          exact hq
        · have hF := frame_swapAt a (j + 1 + 1) D (j + 1) j (by omega) (by omega) (by omega)
            (by omega)
          intro k x h1 h2 hx
          exact hF.allSeg (by omega) _ hall k x h1 (by omega) hx
      · simp [hl]
    · have ha : a = j + 1 := by omega
      subst ha
      obtain ⟨q, hq, hall⟩ := hLB (by omega)
      have hx : D[j + 1]? = some D[j + 1] := List.getElem?_eq_getElem hj
      have hlq := hall (j + 1) D[j + 1] (le_refl _) (by omega) hx
      have hq' : D[j]? = some q := by
        rw [← hq]
        rfl
      have hl : lessAt less D (j + 1) j = false := by
        rw [lessAt_eq less D (j + 1) j _ q hx hq']
        exact hlq
      simp [hl]

theorem frame_shiftGreater {α : Type} (less : α → α → Bool) (lo b n j : Nat) (D : List α)
    (hlo : lo + 1 ≤ j) : Frame lo b D (shiftGreater less b n j D) := by
  induction n generalizing j D with
  | zero => exact Frame.refl _ _ _
  | succ n ih =>
    rw [shiftGreater]
    split
    · split
      · exact Frame.refl _ _ _
      · exact (frame_swapAt lo b D j (j - 1) (by omega) (by omega) (by omega) (by omega)).trans
          (ih (j + 1) _ (by omega))
    · exact Frame.refl _ _ _

theorem LowerBound.frame {α : Type} (less : α → α → Bool) {a b : Nat} {d1 d2 : List α}
    (h : LowerBound less a b d1) (hF : Frame a b d1 d2) (hab : a ≤ b) :
    LowerBound less a b d2 := by
  intro ha
  obtain ⟨q, hq, hall⟩ := h ha
  refine ⟨q, ?_, hF.allSeg hab _ hall⟩
  rw [hF.2 (a - 1) (Or.inl (by omega))]
  exact hq

theorem LowerBound.shrink {α : Type} (less : α → α → Bool) {a b b' : Nat} {d : List α}
    (h : LowerBound less a b d) (hb : b' ≤ b) : LowerBound less a b' d := by
  intro ha
  obtain ⟨q, hq, hall⟩ := h ha
  exact ⟨q, hq, fun k x h1 h2 hx => hall k x h1 (by omega) hx⟩

theorem sortedSeg_swapAt_before {α : Type} (less : α → α → Bool) (D : List α) (a m i j : Nat)
    (hi : m ≤ i) (hj : m ≤ j) (hs : SortedSeg less a m D) :
    SortedSeg less a m (swapAt D i j) := by
  intro k l x y h1 h2 h3 hx hy
  rw [getElem?_swapAt_ne D i j k (by omega) (by omega)] at hx
  rw [getElem?_swapAt_ne D i j l (by omega) (by omega)] at hy
  exact hs k l x y h1 h2 h3 hx hy

theorem SortedSeg.initial {α : Type} (less : α → α → Bool) {a b b' : Nat} {D : List α}
    (h : SortedSeg less a b D) (hb : b' ≤ b) : SortedSeg less a b' D :=
  fun i j x y h1 h2 h3 hx hy => h i j x y h1 h2 (by omega) hx hy

theorem partialInsertionLoop_spec {α : Type} (less : α → α → Bool)
    (hless : StrictWeakOrder less) (a b s i : Nat) (D : List α) (hab : a < b)
    (hb : b ≤ D.length) (hai : a + 1 ≤ i) (hib : i ≤ b) (hs : SortedSeg less a i D)
    (hLB : LowerBound less a b D) :
    Frame a b D (partialInsertionLoop less a b s i D).1 ∧
    ((partialInsertionLoop less a b s i D).2 = true →
      SortedSeg less a b (partialInsertionLoop less a b s i D).1) := by
  induction s generalizing i D with
  | zero =>
    simp only [partialInsertionLoop]
    exact ⟨Frame.refl _ _ _, fun h => absurd h (by simp)⟩
  | succ s ih =>
    rw [partialInsertionLoop]
    obtain ⟨k1, k2, k3, k4⟩ := skipOrdered_spec less D b (b - a) i
    have k2' := k2 hib
    have k4' := k4 (by omega)
    have hs' : SortedSeg less a (skipOrdered less D b (b - a) i) D := by
      have h := sortedSeg_extend less hless D a i (skipOrdered less D b (b - a) i - i) (by omega)
        hs (fun k h1 h2 _ => k3 k h1 (by omega))
      rw [Nat.add_sub_cancel' k1] at h
      exact h
    generalize skipOrdered less D b (b - a) i = i' at k1 k2' k3 k4' hs' ⊢
    simp only
    by_cases hend : i' = b
    · rw [if_pos hend]
      exact ⟨Frame.refl _ _ _, fun _ => hend ▸ hs'⟩
    · rw [if_neg hend]
      by_cases hshort : b - a < 50
      · rw [if_pos hshort]
        exact ⟨Frame.refl _ _ _, fun h => absurd h (by simp)⟩
      · rw [if_neg hshort]
        have hF1 : Frame a b D (swapAt D i' (i' - 1)) :=
          frame_swapAt a b D i' (i' - 1) (by omega) (by omega) (by omega) (by omega)
        have hlen1 : (swapAt D i' (i' - 1)).length = D.length := length_swapAt _ _ _
        have hs1 : SortedSeg less a (i' - 1) (swapAt D i' (i' - 1)) :=
          sortedSeg_swapAt_before less D a (i' - 1) i' (i' - 1) (by omega) (le_refl _)
            (SortedSeg.initial less hs' (by omega))
        have hLB1 : LowerBound less a b (swapAt D i' (i' - 1)) :=
          LowerBound.frame less hLB hF1 (by omega)
        -- the smaller element is placed inside the ordered run before it
        have hstep2 : ∀ D2, D2 = (if i' - a ≥ 2 then
            shiftSmaller less (i' - 1) (swapAt D i' (i' - 1)) else swapAt D i' (i' - 1)) →
            Frame a i' (swapAt D i' (i' - 1)) D2 ∧ SortedSeg less a i' D2 := by
          intro D2 hD2
          by_cases h2 : i' - a ≥ 2
          · rw [if_pos h2] at hD2
            rw [hD2, shiftSmaller_eq less (swapAt D i' (i' - 1)) a (i' - 1) (by omega)
              (by omega) (LowerBound.shrink less hLB1 (by omega))]
            have h := insertionInner_spec less hless (swapAt D i' (i' - 1)) a (i' - 1)
              (by omega) (by omega) hs1
            rw [Nat.sub_add_cancel (by omega)] at h
            exact h
          · rw [if_neg h2] at hD2
            rw [hD2]
            refine ⟨Frame.refl _ _ _, ?_⟩
            intro k l x y h1 h3 h4 _ _
            omega
        obtain ⟨hF2, hs2⟩ := hstep2 _ rfl
        generalize (if i' - a ≥ 2 then
            shiftSmaller less (i' - 1) (swapAt D i' (i' - 1)) else swapAt D i' (i' - 1)) = D2
          at hF2 hs2 ⊢
        have hF3 : Frame i' b D2
            (if b - i' ≥ 2 then shiftGreater less b (b - a) (i' + 1) D2 else D2) := by
          split
          · exact frame_shiftGreater less i' b (b - a) (i' + 1) D2 (le_refl _)
          · exact Frame.refl _ _ _
        generalize (if b - i' ≥ 2 then shiftGreater less b (b - a) (i' + 1) D2 else D2) = D3
          at hF3 ⊢
        have hF13 : Frame a b D D3 :=
          (hF1.trans (hF2.mono (le_refl _) (by omega))).trans (hF3.mono (by omega) (le_refl _))
        obtain ⟨r1, r2⟩ := ih i' D3 (by rw [hF13.length_eq]; exact hb) (by omega) k2'
          (Frame.sortedSeg_of_disjoint less hF3 (Or.inl (le_refl _)) hs2)
          (LowerBound.frame less hLB hF13 (by omega))
        exact ⟨hF13.trans r1, r2⟩

/-- What `partialInsertionSort_func` establishes: it rearranges `data[a:b]` only, and when it
reports success the segment is in order. -/
theorem partialInsertionSort_func_spec {α : Type} (less : α → α → Bool)
    (hless : StrictWeakOrder less) (D : List α) (a b : Nat) (hab : a < b)
    (hb : b ≤ D.length) (hLB : LowerBound less a b D) :
    Frame a b D (partialInsertionSort_func less D a b).1 ∧
    ((partialInsertionSort_func less D a b).2 = true →
      SortedSeg less a b (partialInsertionSort_func less D a b).1) := by
  unfold partialInsertionSort_func
  apply partialInsertionLoop_spec less hless a b 5 (a + 1) D hab hb (le_refl _) (by omega)
  · intro k l x y h1 h2 h3 _ _
    omega
  · exact hLB

theorem lessAt_swapAt_pair {α : Type} (less : α → α → Bool) (D : List α) (i j : Nat)
    (hi : i < D.length) (hj : j < D.length) :
    lessAt less (swapAt D i j) i j = lessAt less D j i := by
  apply lessAt_congr
  · rw [getElem?_swapAt D i j i hi hj, if_pos rfl]
  · rw [getElem?_swapAt D i j j hi hj]
    by_cases hji : j = i
    · rw [if_pos hji, hji]
    · rw [if_neg hji, if_pos rfl]

theorem lessAt_asymm {α : Type} (less : α → α → Bool) (hless : StrictWeakOrder less)
    (D : List α) (i j : Nat) (h : lessAt less D i j = true) : lessAt less D j i = false := by
  obtain ⟨hirr, htr, _⟩ := hless
  unfold lessAt at h ⊢
  cases hx : D[i]? with
  | none => simp [hx] at h
  | some x =>
    cases hy : D[j]? with
    | none => simp [hx, hy] at h
    | some y =>
      simp only [hx, hy] at h ⊢
      cases hyx : less y x with
      | false => rfl
      | true =>
        have := htr x y x h hyx
        rw [hirr x] at this
        exact absurd this (by simp)

theorem lessAt_negtrans {α : Type} (less : α → α → Bool) (hless : StrictWeakOrder less)
    (D : List α) (i j k : Nat) (hj : j < D.length) (h1 : lessAt less D i j = false)
    (h2 : lessAt less D j k = false) : lessAt less D i k = false := by
  obtain ⟨_, _, hntr⟩ := hless
  unfold lessAt at h1 h2 ⊢
  have hy : D[j]? = some D[j] := List.getElem?_eq_getElem hj
  cases hx : D[i]? with
  | none => rfl
  | some x =>
    cases hz : D[k]? with
    | none => rfl
    | some z =>
      simp only [hx, hy, hz] at h1 h2 ⊢
      exact hntr x _ z h1 h2

theorem lessAt_trans {α : Type} (less : α → α → Bool) (hless : StrictWeakOrder less)
    (D : List α) (i j k : Nat) (h1 : lessAt less D i j = true)
    (h2 : lessAt less D j k = true) : lessAt less D i k = true := by
  obtain ⟨_, htr, _⟩ := hless
  unfold lessAt at h1 h2 ⊢
  cases hx : D[i]? with
  | none => simp [hx] at h1
  | some x =>
    cases hy : D[j]? with
    | none => simp [hx, hy] at h1
    | some y =>
      cases hz : D[k]? with
      | none => simp [hy, hz] at h2
      | some z =>
        simp only [hx, hy, hz] at h1 h2 ⊢
        exact htr x y z h1 h2

/-- What `siftDown_func` establishes: started at `root` in a heap that is in order everywhere
except possibly at `root`, it leaves the heap in order. -/
theorem siftDown_func_spec {α : Type} (less : α → α → Bool) (hless : StrictWeakOrder less)
    (hi first lo n : Nat) (D : List α) (root : Nat) (hlen : first + hi ≤ D.length)
    (hfuel : hi ≤ root + n) (hlo : lo ≤ root)
    (hex : ∀ r c, lo ≤ r → r ≠ root → (c = 2 * r + 1 ∨ c = 2 * r + 2) → c < hi →
      lessAt less D (first + r) (first + c) = false)
    (hbr : ∀ pr c, lo ≤ pr → (root = 2 * pr + 1 ∨ root = 2 * pr + 2) →
      (c = 2 * root + 1 ∨ c = 2 * root + 2) → c < hi →
      lessAt less D (first + pr) (first + c) = false) :
    Frame (first + root) (first + hi) D (siftDown_func less hi first n D root) ∧
    HeapFrom less first lo hi (siftDown_func less hi first n D root) := by
  induction n generalizing D root with
  | zero =>
    simp only [siftDown_func]
    refine ⟨Frame.refl _ _ _, ?_⟩
    intro r c h1 h2 h3
    by_cases hr : r = root
    · omega
    · exact hex r c h1 hr h2 h3
  | succ n ih =>
    rw [siftDown_func]
    by_cases hleaf : 2 * root + 1 ≥ hi
    · rw [if_pos hleaf]
      refine ⟨Frame.refl _ _ _, ?_⟩
      intro r c h1 h2 h3
      by_cases hr : r = root
      · omega
      · exact hex r c h1 hr h2 h3
    · rw [if_neg hleaf]
      simp only
      -- the larger child and what is known about the other one
      have hchild : ∀ child, child = (if (decide (2 * root + 2 < hi) &&
            lessAt less D (first + (2 * root + 1)) (first + (2 * root + 2))) = true
            then 2 * root + 2 else 2 * root + 1) →
          (child = 2 * root + 1 ∨ child = 2 * root + 2) ∧ child < hi ∧
          ∀ c, (c = 2 * root + 1 ∨ c = 2 * root + 2) → c < hi → c ≠ child →
            lessAt less D (first + child) (first + c) = false := by
        intro child hc
        by_cases hcond : (decide (2 * root + 2 < hi) &&
            lessAt less D (first + (2 * root + 1)) (first + (2 * root + 2))) = true
        · rw [if_pos hcond] at hc
          rw [Bool.and_eq_true, decide_eq_true_eq] at hcond
          refine ⟨Or.inr hc, by omega, ?_⟩
          intro c h1 h2 h3
          have hc1 : c = 2 * root + 1 := by omega
          rw [hc, hc1]
          exact lessAt_asymm less hless D _ _ hcond.2
        · rw [if_neg hcond] at hc
          refine ⟨Or.inl hc, by omega, ?_⟩
          intro c h1 h2 h3
          have hc2 : c = 2 * root + 2 := by omega
          rw [Bool.and_eq_true, decide_eq_true_eq] at hcond
          rw [hc, hc2]
          cases hl : lessAt less D (first + (2 * root + 1)) (first + (2 * root + 2)) with
          | false => rfl
          | true => exact absurd ⟨by omega, hl⟩ hcond
      obtain ⟨hc1, hc2, hc3⟩ := hchild _ rfl
      generalize (if (decide (2 * root + 2 < hi) &&
            lessAt less D (first + (2 * root + 1)) (first + (2 * root + 2))) = true
            then 2 * root + 2 else 2 * root + 1) = child at hc1 hc2 hc3 ⊢
      by_cases hstop : (!lessAt less D (first + root) (first + child)) = true
      · rw [if_pos hstop]
        rw [Bool.not_eq_true'] at hstop
        refine ⟨Frame.refl _ _ _, ?_⟩
        intro r c h1 h2 h3
        by_cases hr : r = root
        · subst hr
          by_cases hcc : c = child
          · rw [hcc]
            exact hstop
          · exact lessAt_negtrans less hless D _ (first + child) _ (by omega) hstop
              (hc3 c h2 h3 hcc)
        · exact hex r c h1 hr h2 h3
      · rw [if_neg hstop]
        have hlt : lessAt less D (first + root) (first + child) = true := by
          simpa using hstop
        have hrlen : first + root < D.length := by omega
        have hclen : first + child < D.length := by omega
        obtain ⟨r1, r2⟩ := ih (swapAt D (first + root) (first + child)) child
          (by rw [length_swapAt]; exact hlen) (by omega) (by omega)
          (by
            intro r c h1 h2 h3 h4
            by_cases hr : r = root
            · subst hr
              by_cases hcc : c = child
              · rw [hcc, lessAt_swapAt_pair less D _ _ hrlen hclen]
                exact lessAt_asymm less hless D _ _ hlt
              · rw [lessAt_swapAt_left less D _ _ _ hrlen hclen (by omega) (by omega)]
                exact hc3 c h3 h4 hcc
            · by_cases hcr : c = root
              · rw [hcr, lessAt_swapAt_left' less D _ _ _ hrlen hclen (by omega) (by omega)]
                exact hbr r child h1 (by omega) hc1 hc2
              · rw [lessAt_swapAt_ne less D _ _ _ _ (by omega) (by omega) (by omega)
                  (by omega)]
                exact hex r c h1 hr h3 h4)
          (by
            intro pr c h1 h2 h3 h4
            have hpr : pr = root := by omega
            rw [hpr, lessAt_swapAt_left less D _ _ _ hrlen hclen (by omega) (by omega)]
            exact hex child c (by omega) (by omega) h3 h4)
        exact ⟨(frame_swapAt (first + root) (first + hi) D _ _ (le_refl _) (by omega)
          (by omega) (by omega)).trans (r1.mono (by omega) (le_refl _)), r2⟩

theorem heapBuild_spec {α : Type} (less : α → α → Bool) (hless : StrictWeakOrder less)
    (hi first m : Nat) (D : List α) (hlen : first + hi ≤ D.length)
    (h : HeapFrom less first m hi D) :
    Frame first (first + hi) D (heapBuild less hi first m D) ∧
    HeapFrom less first 0 hi (heapBuild less hi first m D) := by
  induction m generalizing D with
  | zero => exact ⟨Frame.refl _ _ _, h⟩
  | succ i ih =>
    rw [heapBuild]
    obtain ⟨s1, s2⟩ := siftDown_func_spec less hless hi first i hi D i hlen (by omega)
      (le_refl _)
      (by
        intro r c h1 h2 h3 h4
        exact h r c (by omega) h3 h4)
      (by
        intro pr c h1 h2 h3 h4
        omega)
    obtain ⟨r1, r2⟩ := ih (siftDown_func less hi first hi D i)
      (by rw [s1.length_eq]; exact hlen) s2
    exact ⟨(s1.mono (by omega) (le_refl _)).trans r1, r2⟩

theorem lessAt_self {α : Type} (less : α → α → Bool) (hless : StrictWeakOrder less)
    (D : List α) (i : Nat) : lessAt less D i i = false := by
  unfold lessAt
  cases hx : D[i]? with
  | none => rfl
  | some x => exact hless.1 x

/-- The root of a heap is not `less` than any element of the heap. -/
theorem heap_root_max {α : Type} (less : α → α → Bool) (hless : StrictWeakOrder less)
    (first m : Nat) (D : List α) (hlen : first + m ≤ D.length)
    (h : HeapFrom less first 0 m D) (r : Nat) (hr : r < m) :
    lessAt less D first (first + r) = false := by
  induction r using Nat.strong_induction_on with
  | _ r ih =>
    by_cases h0 : r = 0
    · subst h0
      exact lessAt_self less hless D first
    · have hp := ih ((r - 1) / 2) (by omega) (by omega)
      have hc := h ((r - 1) / 2) r (Nat.zero_le _) (by omega) hr
      exact lessAt_negtrans less hless D first (first + (r - 1) / 2) (first + r) (by omega)
        hp hc

theorem heapPop_spec {α : Type} (less : α → α → Bool) (hless : StrictWeakOrder less)
    (first hi m : Nat) (D : List α) (hm : m ≤ hi) (hlen : first + hi ≤ D.length)
    (hA : HeapFrom less first 0 m D)
    (hB : SortedSeg less (first + m) (first + hi) D)
    (hC : ∀ r c x y, r < m → m ≤ c → c < hi → D[first + r]? = some x →
      D[first + c]? = some y → less y x = false) :
    Frame first (first + hi) D (heapPop less first m D) ∧
    SortedSeg less first (first + hi) (heapPop less first m D) := by
  induction m generalizing D with
  | zero => exact ⟨Frame.refl _ _ _, hB⟩
  | succ i ih =>
    rw [heapPop]
    have hflen : first < D.length := by omega
    have hilen : first + i < D.length := by omega
    have hF1 : Frame first (first + hi) D (swapAt D first (first + i)) :=
      frame_swapAt first (first + hi) D first (first + i) (le_refl _) (by omega) (by omega)
        (by omega)
    have hlen1 : (swapAt D first (first + i)).length = D.length := length_swapAt _ _ _
    obtain ⟨s1, s2⟩ := siftDown_func_spec less hless i first 0 i (swapAt D first (first + i)) 0
      (by omega) (by omega) (le_refl _)
      (by
        intro r c h1 h2 h3 h4
        rw [lessAt_swapAt_ne less D _ _ _ _ (by omega) (by omega) (by omega) (by omega)]
        exact hA r c h1 h3 (by omega))
      (by
        intro pr c h1 h2 h3 h4
        omega)
    rw [Nat.add_zero] at s1
    -- the root of the heap, now at position `first + i`
    have hroot : ∀ r, r < i + 1 → ∀ x mx, D[first + r]? = some x → D[first]? = some mx →
        less mx x = false := by
      intro r hr x mx hx hmx
      have := heap_root_max less hless first (i + 1) D (by omega) hA r hr
      rw [lessAt_eq less D first (first + r) mx x hmx hx] at this
      exact this
    have hB1 : SortedSeg less (first + i) (first + hi) (swapAt D first (first + i)) := by
      intro k l x y h1 h2 h3 hx hy
      rw [getElem?_swapAt D first (first + i) l hflen hilen, if_neg (by omega),
        if_neg (by omega)] at hy
      by_cases hk : k = first + i
      · rw [hk, getElem?_swapAt D first (first + i) (first + i) hflen hilen] at hx
        have hx' : D[first]? = some x := by
          by_cases h0 : first + i = first
          · rw [if_pos h0] at hx
            rw [← h0]
            exact hx
          · rw [if_neg h0, if_pos rfl] at hx
            exact hx
        have hy' : D[first + (l - first)]? = some y := by
          rw [← hy]
          congr 1
          omega
        exact hC 0 (l - first) x y (by omega) (by omega) (by omega) hx' hy'
      · rw [getElem?_swapAt D first (first + i) k hflen hilen, if_neg (by omega),
          if_neg hk] at hx
        exact hB k l x y (by omega) h2 h3 hx hy
    have hC1 : ∀ c y, i ≤ c → c < hi → (swapAt D first (first + i))[first + c]? = some y →
        AllSeg (fun x => less y x = false) first (first + i) (swapAt D first (first + i)) := by
      intro c y hc1 hc2 hy k x hk1 hk2 hx
      -- `x` is an element of the old heap
      have hxold : ∃ r, r < i + 1 ∧ D[first + r]? = some x := by
        rw [getElem?_swapAt D first (first + i) k hflen hilen] at hx
        by_cases hkf : k = first
        · rw [if_pos hkf] at hx
          exact ⟨i, by omega, hx⟩
        · rw [if_neg hkf, if_neg (by omega)] at hx
          refine ⟨k - first, by omega, ?_⟩
          rw [← hx]
          congr 1
          omega
      obtain ⟨r, hr, hxr⟩ := hxold
      rw [getElem?_swapAt D first (first + i) (first + c) hflen hilen] at hy
      by_cases hci : c = i
      · have hy' : D[first]? = some y := by
          by_cases h0 : first + c = first
          · rw [if_pos h0] at hy
            rw [hci] at h0
            rw [← h0]
            exact hy
          · rw [if_neg h0, if_pos (by omega)] at hy
            exact hy
        exact hroot r hr x y hxr hy'
      · rw [if_neg (by omega), if_neg (by omega)] at hy
        exact hC r c x y hr (by omega) hc2 hxr hy
    obtain ⟨r1, r2⟩ := ih (siftDown_func less i first i (swapAt D first (first + i)) 0)
      (by omega) (by rw [s1.length_eq, hlen1]; exact hlen) s2
      (Frame.sortedSeg_of_disjoint less s1 (Or.inr (le_refl _)) hB1)
      (by
        intro r c x y hr hc1 hc2 hx hy
        rw [s1.2 (first + c) (Or.inr (by omega))] at hy
        exact s1.allSeg (by omega) _ (hC1 c y hc1 hc2 hy) (first + r) x (by omega) (by omega) hx)
    exact ⟨(hF1.trans (s1.mono (le_refl _) (by omega))).trans r1, r2⟩

/-- What `heapSort_func` establishes: it rearranges `data[a:b]` only and leaves it in order. -/
theorem heapSort_func_spec {α : Type} (less : α → α → Bool) (hless : StrictWeakOrder less)
    (D : List α) (a b : Nat) (hab : a ≤ b) (hb : b ≤ D.length) :
    Frame a b D (heapSort_func less D a b) ∧ SortedSeg less a b (heapSort_func less D a b) := by
  unfold heapSort_func
  have hsum : a + (b - a) = b := by omega
  obtain ⟨s1, s2⟩ := heapBuild_spec less hless (b - a) a ((b - a - 1) / 2 + 1) D (by omega)
    (by
      intro r c h1 h2 h3
      omega)
  obtain ⟨r1, r2⟩ := heapPop_spec less hless a (b - a) (b - a)
    (heapBuild less (b - a) a ((b - a - 1) / 2 + 1) D) (le_refl _)
    (by rw [s1.length_eq]; omega) s2
    (by
      intro i j x y h1 h2 h3 _ _
      omega)
    (by
      intro r c x y h1 h2 h3 _ _
      omega)
  rw [hsum] at s1 r1 r2
  exact ⟨s1.trans r1, r2⟩

/-- Two ordered runs around a pivot that separates them form one ordered run. -/
theorem sortedSeg_join {α : Type} (less : α → α → Bool) (hless : StrictWeakOrder less)
    (R : List α) (a mid b : Nat) (p : α) (hp : R[mid]? = some p)
    (hL : SortedSeg less a mid R) (hG : SortedSeg less (mid + 1) b R)
    (hlt : AllSeg (fun x => less x p = true) a mid R)
    (hge : AllSeg (fun x => less x p = false) (mid + 1) b R) : SortedSeg less a b R := by
  obtain ⟨hirr, htr, hntr⟩ := hless
  intro i j x y hai hij hjb hx hy
  by_cases hjm : j < mid
  · exact hL i j x y hai hij hjm hx hy
  · by_cases him : mid < i
    · exact hG i j x y (by omega) hij hjb hx hy
    · by_cases hi : i = mid
      · rw [hi, hp] at hx
        injection hx with hx
        rw [← hx]
        exact hge j y (by omega) hjb hy
      · have hxp := hlt i x hai (by omega) hx
        by_cases hj : j = mid
        · rw [hj, hp] at hy
          injection hy with hy
          rw [← hy]
          cases hpx : less p x with
          | false => rfl
          | true =>
            have := htr x p x hxp hpx
            rw [hirr x] at this
            exact absurd this (by simp)
        · have hyp := hge j y (by omega) hjb hy
          cases hyx : less y x with
          | false => rfl
          | true =>
            have := htr y x p hyx hxp
            rw [hyp] at this
            exact absurd this (by simp)

/-- A run of elements equivalent to the pivot followed by an ordered run of greater elements
is ordered. -/
theorem sortedSeg_join_equal {α : Type} (less : α → α → Bool) (hless : StrictWeakOrder less)
    (R : List α) (a mid b : Nat) (p q : α) (hqp : less q p = false)
    (hE1 : AllSeg (fun x => less p x = false) a mid R)
    (hE2 : AllSeg (fun x => less x q = false) a mid R)
    (hG : AllSeg (fun x => less p x = true) mid b R)
    (hS : SortedSeg less mid b R) : SortedSeg less a b R := by
  obtain ⟨hirr, htr, hntr⟩ := hless
  intro i j x y hai hij hjb hx hy
  by_cases him : mid ≤ i
  · exact hS i j x y him hij hjb hx hy
  · have hx1 := hE1 i x hai (by omega) hx
    by_cases hjm : j < mid
    · have hy2 := hE2 j y (by omega) hjm hy
      exact hntr y p x (hntr y q p hy2 hqp) hx1
    · have hy3 := hG j y (by omega) hjb hy
      cases hyx : less y x with
      | false => rfl
      | true =>
        have := htr p y x hy3 hyx
        rw [hx1] at this
        exact absurd this (by simp)

theorem AllSeg.narrow {α : Type} {P : α → Prop} {a b a' b' : Nat} {D : List α}
    (h : AllSeg P a b D) (ha : a ≤ a') (hb : b' ≤ b) : AllSeg P a' b' D :=
  fun k x h1 h2 hx => h k x (by omega) (by omega) hx

/-- The two partition branches of one round of `pdqsort_func`, given that the recursive calls
meet their specification. -/
theorem pdqsort_round {α : Type} (less : α → α → Bool) (hless : StrictWeakOrder less)
    (fuel : Nat)
    (ih : ∀ (D : List α) (a b limit : Nat) (wb wp : Bool), b - a < fuel → a ≤ b →
      b ≤ D.length → LowerBound less a b D →
      Frame a b D (pdqsort_func less fuel D a b limit wb wp) ∧
      SortedSeg less a b (pdqsort_func less fuel D a b limit wb wp))
    (D : List α) (a b limit1 pivot : Nat) (wb wp : Bool) (hfuel : b - a < fuel + 1)
    (hab : a < b) (hb : b ≤ D.length) (hLB : LowerBound less a b D) (hpa : a ≤ pivot)
    (hpb : pivot < b) (R : List α)
    (hR : R =
      if (decide (0 < a) && !lessAt less D (a - 1) pivot) = true then
        pdqsort_func less fuel (partitionEqual_func less D a b pivot).1
          (partitionEqual_func less D a b pivot).2 b limit1 wb wp
      else
        if (partition_func less D a b pivot).2.1 - a < b - (partition_func less D a b pivot).2.1
        then
          pdqsort_func less fuel
            (pdqsort_func less fuel (partition_func less D a b pivot).1 a
              (partition_func less D a b pivot).2.1 limit1 true true)
            ((partition_func less D a b pivot).2.1 + 1) b limit1
            (decide ((partition_func less D a b pivot).2.1 - a ≥ (b - a) / 8))
            (partition_func less D a b pivot).2.2
        else
          pdqsort_func less fuel
            (pdqsort_func less fuel (partition_func less D a b pivot).1
              ((partition_func less D a b pivot).2.1 + 1) b limit1 true true)
            a (partition_func less D a b pivot).2.1 limit1
            (decide (b - (partition_func less D a b pivot).2.1 ≥ (b - a) / 8))
            (partition_func less D a b pivot).2.2) :
    Frame a b D R ∧ SortedSeg less a b R := by
  obtain ⟨hirr, htr, hntr⟩ := hless
  have hless : StrictWeakOrder less := ⟨hirr, htr, hntr⟩
  have hp : D[pivot]? = some D[pivot] := List.getElem?_eq_getElem (by omega)
  generalize D[pivot] = p at hp
  by_cases hE : (decide (0 < a) && !lessAt less D (a - 1) pivot) = true
  · rw [if_pos hE] at hR
    rw [Bool.and_eq_true, decide_eq_true_eq, Bool.not_eq_true'] at hE
    obtain ⟨ha0, hqp⟩ := hE
    obtain ⟨q, hq, hall⟩ := hLB ha0
    rw [lessAt_eq less D (a - 1) pivot q p hq hp] at hqp
    obtain ⟨e1, e2, e3, e4, e5⟩ := partitionEqual_func_spec less hirr D a b pivot hab hb hpa hpb
      p hp
    generalize (partitionEqual_func less D a b pivot).1 = D' at e1 e4 e5 hR
    generalize (partitionEqual_func less D a b pivot).2 = mid at e2 e3 e4 e5 hR
    have hlen' : D'.length = D.length := e1.length_eq
    have hall' : AllSeg (fun x => less x q = false) a b D' := e1.allSeg (by omega) _ hall
    have he : D'[mid - 1]? = some D'[mid - 1] := List.getElem?_eq_getElem (by omega)
    have hLB' : LowerBound less mid b D' := by
      intro _
      refine ⟨D'[mid - 1], he, ?_⟩
      intro k x h1 h2 hx
      have hpe := e4 (mid - 1) _ (by omega) (by omega) he
      have hpx := e5 k x h1 h2 hx
      cases hxe : less x D'[mid - 1] with
      | false => rfl
      | true =>
        have := htr p x _ hpx hxe
        rw [hpe] at this
        exact absurd this (by simp)
    obtain ⟨r1, r2⟩ := ih D' mid b limit1 wb wp (by omega) e3 (by omega) hLB'
    rw [← hR] at r1 r2
    refine ⟨e1.trans (r1.mono (by omega) (le_refl _)), ?_⟩
    exact sortedSeg_join_equal less hless R a mid b p q hqp
      (r1.allSeg_of_disjoint (Or.inl (le_refl _)) _ e4)
      (r1.allSeg_of_disjoint (Or.inl (le_refl _)) _ (hall'.narrow (le_refl _) e3))
      (r1.allSeg e3 _ e5) r2
  · rw [if_neg hE] at hR
    obtain ⟨e1, e2, e3, e4, e5, e6⟩ := partition_func_spec less D a b pivot hab hb hpa hpb p hp
    generalize (partition_func less D a b pivot).1 = D' at e1 e4 e5 e6 hR
    generalize (partition_func less D a b pivot).2.1 = mid at e2 e3 e4 e5 e6 hR
    generalize (partition_func less D a b pivot).2.2 = ap at hR
    have hlen' : D'.length = D.length := e1.length_eq
    have hLB' : LowerBound less a b D' := LowerBound.frame less hLB e1 (by omega)
    by_cases hside : mid - a < b - mid
    · rw [if_pos hside] at hR
      obtain ⟨r1, r2⟩ := ih D' a mid limit1 true true (by omega) e2 (by omega)
        (LowerBound.shrink less hLB' (by omega))
      generalize pdqsort_func less fuel D' a mid limit1 true true = R1 at r1 r2 hR
      have hp1 : R1[mid]? = some p := by
        rw [r1.2 mid (Or.inr (le_refl _))]
        exact e4
      have hge1 : AllSeg (fun x => less x p = false) (mid + 1) b R1 :=
        r1.allSeg_of_disjoint (Or.inr (by omega)) _ e6
      obtain ⟨s1, s2⟩ := ih R1 (mid + 1) b limit1 (decide (mid - a ≥ (b - a) / 8)) ap (by omega)
        (by omega) (by rw [r1.length_eq]; omega) (fun _ => ⟨p, hp1, hge1⟩)
      rw [← hR] at s1 s2
      refine ⟨(e1.trans (r1.mono (le_refl _) (by omega))).trans (s1.mono (by omega) (le_refl _)),
        ?_⟩
      exact sortedSeg_join less hless R a mid b p
        (by rw [s1.2 mid (Or.inl (by omega))]; exact hp1)
        (Frame.sortedSeg_of_disjoint less s1 (Or.inl (by omega)) r2) s2
        (s1.allSeg_of_disjoint (Or.inl (by omega)) _ (r1.allSeg e2 _ e5))
        (s1.allSeg (by omega) _ hge1)
    · rw [if_neg hside] at hR
      obtain ⟨r1, r2⟩ := ih D' (mid + 1) b limit1 true true (by omega) (by omega) (by omega)
        (fun _ => ⟨p, e4, e6⟩)
      generalize pdqsort_func less fuel D' (mid + 1) b limit1 true true = R1 at r1 r2 hR
      have hp1 : R1[mid]? = some p := by
        rw [r1.2 mid (Or.inl (by omega))]
        exact e4
      have hlt1 : AllSeg (fun x => less x p = true) a mid R1 :=
        r1.allSeg_of_disjoint (Or.inl (by omega)) _ e5
      have hLB1 : LowerBound less a mid R1 := by
        intro ha0
        obtain ⟨q, hq, hall⟩ := hLB' ha0
        refine ⟨q, ?_, r1.allSeg_of_disjoint (Or.inl (by omega)) _
          (hall.narrow (le_refl _) (by omega))⟩
        rw [r1.2 (a - 1) (Or.inl (by omega))]
        exact hq
      obtain ⟨s1, s2⟩ := ih R1 a mid limit1 (decide (b - mid ≥ (b - a) / 8)) ap (by omega) e2
        (by rw [r1.length_eq]; omega) hLB1
      rw [← hR] at s1 s2
      refine ⟨(e1.trans (r1.mono (by omega) (le_refl _))).trans (s1.mono (le_refl _) (by omega)),
        ?_⟩
      exact sortedSeg_join less hless R a mid b p
        (by rw [s1.2 mid (Or.inr (le_refl _))]; exact hp1)
        s2 (Frame.sortedSeg_of_disjoint less s1 (Or.inr (by omega)) r2)
        (s1.allSeg e2 _ hlt1)
        (s1.allSeg_of_disjoint (Or.inr (by omega)) _ (r1.allSeg (by omega) _ e6))

/-- The specification of `pdqsort_func`: with enough iterations allowed, it rearranges
`data[a:b]` only and leaves it in order, for every value of the limit and of the two flags. -/
theorem pdqsort_func_spec {α : Type} (less : α → α → Bool) (hless : StrictWeakOrder less)
    (fuel : Nat) (D : List α) (a b limit : Nat) (wb wp : Bool) (hfuel : b - a < fuel)
    (hab : a ≤ b) (hb : b ≤ D.length) (hLB : LowerBound less a b D) :
    Frame a b D (pdqsort_func less fuel D a b limit wb wp) ∧
    SortedSeg less a b (pdqsort_func less fuel D a b limit wb wp) := by
  induction fuel generalizing D a b limit wb wp with
  | zero => omega
  | succ fuel ih =>
    suffices h : ∀ R, R = pdqsort_func less (fuel + 1) D a b limit wb wp →
        Frame a b D R ∧ SortedSeg less a b R from h _ rfl
    intro R hR
    rw [pdqsort_func] at hR
    by_cases h12 : b - a ≤ 12
    · rw [if_pos h12] at hR
      rw [hR]
      exact insertionSort_func_spec less hless D a b hab hb
    · rw [if_neg h12] at hR
      by_cases hlim : limit = 0
      · rw [if_pos hlim] at hR
        rw [hR]
        exact heapSort_func_spec less hless D a b hab hb
      · rw [if_neg hlim] at hR
        lift_lets at hR
        extract_lets data1 limit1 choice data2 pivot hint attempt rE rP mid at hR
        have hF1 : Frame a b D data1 := by
          show Frame a b D (if (!wb) = true then breakPatterns_func D a b else D)
          split
          · exact frame_breakPatterns_func D a b
          · exact Frame.refl _ _ _
        have hcb : a ≤ choice.1 ∧ choice.1 < b :=
          choosePivot_func_bounds less data1 a b (by omega)
        have hF2 : Frame a b data1 data2 := by
          show Frame a b data1 (if choice.2 = sortedHint.decreasingHint then
            reverseRange_func data1 a b else data1)
          split
          · exact frame_reverseRange_func data1 a b (by omega)
          · exact Frame.refl _ _ _
        have hpiv : a ≤ pivot ∧ pivot < b := by
          show a ≤ (if choice.2 = sortedHint.decreasingHint then b - 1 - (choice.1 - a)
            else choice.1) ∧ (if choice.2 = sortedHint.decreasingHint then
            b - 1 - (choice.1 - a) else choice.1) < b
          split
          · constructor <;> omega
          · exact hcb
        have hF12 : Frame a b D data2 := hF1.trans hF2
        have hlen2 : data2.length = D.length := hF12.length_eq
        have hLB2 : LowerBound less a b data2 := LowerBound.frame less hLB hF12 hab
        have hatt : Frame a b data2 attempt.1 ∧
            (attempt.2 = true → SortedSeg less a b attempt.1) := by
          show Frame a b data2 (if (wb && wp && decide (hint = sortedHint.increasingHint)) = true
              then partialInsertionSort_func less data2 a b else (data2, false)).1 ∧
            ((if (wb && wp && decide (hint = sortedHint.increasingHint)) = true
              then partialInsertionSort_func less data2 a b else (data2, false)).2 = true →
            SortedSeg less a b (if (wb && wp && decide (hint = sortedHint.increasingHint)) = true
              then partialInsertionSort_func less data2 a b else (data2, false)).1)
          split
          · exact partialInsertionSort_func_spec less hless data2 a b (by omega) (by omega) hLB2
          · exact ⟨Frame.refl _ _ _, fun h => absurd h (by simp)⟩
        have hF3 : Frame a b D attempt.1 := hF12.trans hatt.1
        by_cases hdone : attempt.2 = true
        · rw [if_pos hdone] at hR
          rw [hR]
          exact ⟨hF3, hatt.2 hdone⟩
        · rw [if_neg hdone] at hR
          obtain ⟨r1, r2⟩ := pdqsort_round less hless fuel ih attempt.1 a b limit1 pivot wb wp
            hfuel (by omega) (by rw [hF3.length_eq]; exact hb)
            (LowerBound.frame less hLB hF3 hab) hpiv.1 hpiv.2 R hR
          exact ⟨hF3.trans r1, r2⟩

/-- The model of `sort.Slice` meets the documented contract of `sort.Slice`. -/
theorem Slice_spec : SortSliceSpec Slice := by
  intro less hless l
  obtain ⟨hF, hS⟩ := pdqsort_func_spec less hless (l.length + 1) l 0 l.length
    (bitsLen l.length) true true (by omega) (Nat.zero_le _) (le_refl _)
    (fun h => absurd h (by omega))
  refine ⟨hF.1, ?_⟩
  show (pdqsort_func less (l.length + 1) l 0 l.length (bitsLen l.length) true true).Pairwise
    (fun a b => less b a = false)
  rw [List.pairwise_iff_getElem]
  intro i j hi hj hij
  rw [hF.length_eq] at hi hj
  exact hS i j _ _ (Nat.zero_le _) hij hj (List.getElem?_eq_getElem _)
    (List.getElem?_eq_getElem _)

theorem mapKeys_groupAvailabilities_fold (availabilities : List Availability)
    (m : List (UUID × List Availability)) :
    mapKeys (availabilities.foldl
      (fun m avail => mapSet m avail.UserID ((mapGet m avail.UserID).getD [] ++ [avail])) m) =
    (availabilities.map (fun a => a.UserID)).foldl
      (fun acc k => if k ∈ acc then acc else acc ++ [k]) (mapKeys m) := by
  induction availabilities generalizing m with
  | nil => rfl
  | cons a rest ih =>
    rw [List.foldl_cons, ih, mapKeys_mapSet]
    rfl

theorem foldl_firstOccurrence_filter (p : UUID → Bool) (l acc : List UUID) :
    (l.filter p).foldl (fun acc k => if k ∈ acc then acc else acc ++ [k]) (acc.filter p) =
    (l.foldl (fun acc k => if k ∈ acc then acc else acc ++ [k]) acc).filter p := by
  induction l generalizing acc with
  | nil => rfl
  | cons k rest ih =>
    by_cases hk : p k = true
    · rw [List.filter_cons, if_pos hk, List.foldl_cons, List.foldl_cons, ← ih]
      congr 1
      by_cases hmem : k ∈ acc
      · have : k ∈ acc.filter p := List.mem_filter.mpr ⟨hmem, hk⟩
        rw [if_pos this, if_pos hmem]
      · have : k ∉ acc.filter p := fun h => hmem (List.mem_filter.mp h).1
        rw [if_neg this, if_neg hmem, List.filter_append]
        simp [hk]
    · rw [List.filter_cons, if_neg hk, List.foldl_cons, ← ih]
      congr 1
      by_cases hmem : k ∈ acc
      · rw [if_pos hmem]
      · rw [if_neg hmem, List.filter_append]
        simp [hk]

/-- Removing the orphaned records removes the orphaned keys from the grouping and keeps the
order of the other keys. -/
theorem mapKeys_withoutOrphans (users : List User) (availabilities : List Availability) :
    mapKeys (groupAvailabilities (withoutOrphans users availabilities)) =
      (mapKeys (groupAvailabilities availabilities)).filter
        (fun k => decide (Resolves users k)) := by
  unfold groupAvailabilities withoutOrphans
  rw [mapKeys_groupAvailabilities_fold, mapKeys_groupAvailabilities_fold,
    ← foldl_firstOccurrence_filter]
  congr 1
  rw [List.filter_map]
  rfl

theorem filterMap_filter_of_none {β : Type} (f : UUID → Option β) (p : UUID → Bool)
    (h : ∀ k, p k = false → f k = none) (l : List UUID) :
    (l.filter p).filterMap f = l.filterMap f := by
  induction l with
  | nil => rfl
  | cons k rest ih =>
    by_cases hk : p k = true
    · rw [List.filter_cons, if_pos hk, List.filterMap_cons, List.filterMap_cons, ih]
    · have hk' : p k = false := by simpa using hk
      rw [List.filter_cons, if_neg hk, List.filterMap_cons, h k hk', ih]

theorem recommendSlot_insertion_withoutOrphans (event : Event)
    (availabilities : List Availability) (users : List User) (n : Nat) (slot : TimeSlot) :
    recommendSlot MapOrder.insertion event
      (groupAvailabilities (withoutOrphans users availabilities)) (buildUserMap users) n slot =
    recommendSlot MapOrder.insertion event (groupAvailabilities availabilities)
      (buildUserMap users) n slot := by
  have hunres : ∀ k, decide (Resolves users k) = false → mapGet (buildUserMap users) k = none := by
    intro k hk
    cases hget : mapGet (buildUserMap users) k with
    | none => rfl
    | some u =>
      have hres : Resolves users k := (buildUserMap_resolves users k).mp ⟨u, hget⟩
      exact absurd hres (by simpa using hk)
  unfold recommendSlot
  simp only [classifyUsers_fst, classifyUsers_snd, MapOrder.insertion, mapKeys_withoutOrphans,
    funext (attendeeEntry_withoutOrphans users availabilities slot (meetingEndTime event slot)),
    funext (nonAttendeeEntry_withoutOrphans users availabilities slot
      (meetingEndTime event slot))]
  rw [filterMap_filter_of_none _ _ (fun k hk => by simp [attendeeEntry, hunres k hk]),
    filterMap_filter_of_none _ _ (fun k hk => by simp [nonAttendeeEntry, hunres k hk])]

theorem slotLoop_insertion_withoutOrphans (event : Event)
    (availabilities : List Availability) (users : List User) (n : Nat)
    (timeSlots : List TimeSlot) :
    slotLoop MapOrder.insertion event
      (groupAvailabilities (withoutOrphans users availabilities)) (buildUserMap users) n
      timeSlots =
    slotLoop MapOrder.insertion event (groupAvailabilities availabilities)
      (buildUserMap users) n timeSlots := by
  induction timeSlots generalizing n with
  | nil => rfl
  | cons s rest ih =>
    rw [slotLoop_cons, slotLoop_cons, recommendSlot_insertion_withoutOrphans, ih]

/-- The engine evaluated on the scenario of `TestGetRecommendations` with `sort.Slice` returns
what the test asserts: the second slot first with score 2 and two attendees, then the first
slot with score 1, one attendee and one non-attendee. -/
theorem test_scenario_response :
    ∃ r0 r1, GetRecommendations Slice MapOrder.insertion testService 1 =
        (some ⟨[r0, r1]⟩, none) ∧
      r0.Score = 2 ∧ r0.TimeSlot.ID = 11 ∧ r0.Attendees.length = 2 ∧
      r0.NonAttendees.length = 0 ∧
      r1.Score = 1 ∧ r1.TimeSlot.ID = 10 ∧ r1.Attendees.length = 1 ∧
      r1.NonAttendees.length = 1 := by
  refine ⟨_, _, rfl, ?_⟩
  decide

/-! ## The claims -/

/-- Attendance by the computed meeting end (for an event shorter than 153,722,867 minutes the
computed meeting end is the slot start plus the duration, see `meetingEndTime_eq`).
With the fetches successful, every fitting slot has a recommendation in the response,
and in each recommendation carrying that slot's triple a user who has an availability record
and resolves in the directory is listed among the attendees if and only if one single record
of that user starts no later than the slot and ends no earlier than the meeting end computed
from the slot start and the event duration; otherwise the user is listed among the
non-attendees. -/
theorem attendee_iff_single_record_covers (sortSlice : Sorter) (hs : SortSliceSpec sortSlice)
    (order : MapOrder) (s : RecommendationService) (eventID : UUID) (event : Event)
    (timeSlots : List TimeSlot) (availabilities : List Availability) (users : List User)
    (hf : Fetches order s eventID event timeSlots availabilities users) :
    ∃ recs, GetRecommendations sortSlice order s eventID = (some ⟨recs⟩, none) ∧
      ∀ slot ∈ timeSlots, Fits event slot →
        (∃ r ∈ recs, r.TimeSlot = slotTriple event slot) ∧
        ∀ r ∈ recs, r.TimeSlot = slotTriple event slot →
          ∀ uid, HasAvailability availabilities uid → Resolves users uid →
            (uid ∈ listedIDs r.Attendees ↔
              ∃ a ∈ availabilities, a.UserID = uid ∧ Covers event slot a) ∧
            (uid ∈ listedIDs r.NonAttendees ↔
              ¬ ∃ a ∈ availabilities, a.UserID = uid ∧ Covers event slot a) := by
  refine ⟨_, GetRecommendations_of_fetches sortSlice hs order s eventID event timeSlots
    availabilities users hf, ?_⟩
  intro slot hslot hfit
  constructor
  · obtain ⟨r, hr, ht⟩ := slotLoop_has_record order event (groupAvailabilities availabilities)
      (buildUserMap users) 1 timeSlots slot hslot hfit
    exact ⟨r, (mem_computeRecommendations sortSlice hs _ _ _ _ _ r).mpr hr, ht⟩
  · intro r hr ht uid hav hres
    rw [mem_computeRecommendations sortSlice hs] at hr
    obtain ⟨slot', _, ks, _, ht', hks, hatt, hnon, _⟩ :=
      slotLoop_record order event availabilities users 1 timeSlots r hr
    have hcong := covers_congr event slot slot' (ht'.symm.trans ht)
    constructor
    · rw [hatt, mem_attendees_iff event slot' availabilities users ks hks uid]
      constructor
      · rintro ⟨_, a, ha, hu, hc⟩
        exact ⟨a, ha, hu, (hcong a).mp hc⟩
      · rintro ⟨a, ha, hu, hc⟩
        exact ⟨hres, a, ha, hu, (hcong a).mpr hc⟩
    · rw [hnon, mem_nonAttendees_iff event slot' availabilities users ks hks uid]
      constructor
      · rintro ⟨_, _, hno⟩ ⟨a, ha, hu, hc⟩
        exact hno ⟨a, ha, hu, (hcong a).mpr hc⟩
      · intro hno
        refine ⟨hav, hres, ?_⟩
        rintro ⟨a, ha, hu, hc⟩
        exact hno ⟨a, ha, hu, (hcong a).mp hc⟩

/-- Attendance by the computed meeting end on the scenario of the repository's test. -/
theorem attendee_iff_single_record_covers_witness :
    SortSliceSpec Slice ∧
    Fetches MapOrder.insertion testService 1 testEvent testTimeSlots testAvailability
      testUsers ∧
    ∃ recs, GetRecommendations Slice MapOrder.insertion testService 1 =
        (some ⟨recs⟩, none) ∧
      ∀ slot ∈ testTimeSlots, Fits testEvent slot →
        (∃ r ∈ recs, r.TimeSlot = slotTriple testEvent slot) ∧
        ∀ r ∈ recs, r.TimeSlot = slotTriple testEvent slot →
          ∀ uid, HasAvailability testAvailability uid → Resolves testUsers uid →
            (uid ∈ listedIDs r.Attendees ↔
              ∃ a ∈ testAvailability, a.UserID = uid ∧ Covers testEvent slot a) ∧
            (uid ∈ listedIDs r.NonAttendees ↔
              ¬ ∃ a ∈ testAvailability, a.UserID = uid ∧ Covers testEvent slot a) :=
  ⟨Slice_spec, fetches_fixedService _ _ _ _ _ _,
    attendee_iff_single_record_covers Slice Slice_spec MapOrder.insertion
      testService 1 testEvent testTimeSlots testAvailability testUsers
      (fetches_fixedService _ _ _ _ _ _)⟩

/-- C2. Partition: in every recommendation of the response, each user ID that has an
availability record and resolves to a known user occurs exactly once in
`attendees ++ nonAttendees`, hence in exactly one of the two lists. -/
theorem resolved_user_listed_exactly_once (sortSlice : Sorter) (hs : SortSliceSpec sortSlice)
    (order : MapOrder) (s : RecommendationService) (eventID : UUID) (event : Event)
    (timeSlots : List TimeSlot) (availabilities : List Availability) (users : List User)
    (hf : Fetches order s eventID event timeSlots availabilities users) :
    ∃ recs, GetRecommendations sortSlice order s eventID = (some ⟨recs⟩, none) ∧
      ∀ r ∈ recs, ∀ uid, HasAvailability availabilities uid → Resolves users uid →
        (listedIDs (r.Attendees ++ r.NonAttendees)).count uid = 1 ∧
        (uid ∈ listedIDs r.Attendees ↔ uid ∉ listedIDs r.NonAttendees) := by
  refine ⟨_, GetRecommendations_of_fetches sortSlice hs order s eventID event timeSlots
    availabilities users hf, ?_⟩
  intro r hr uid hav hres
  rw [mem_computeRecommendations sortSlice hs] at hr
  obtain ⟨slot, _, ks, _, _, hks, hatt, hnon, _⟩ :=
    slotLoop_record order event availabilities users 1 timeSlots r hr
  have hcount : (listedIDs (r.Attendees ++ r.NonAttendees)).count uid = 1 := by
    rw [hatt, hnon, count_listed, if_pos ((mapGet_isSome_eq_true_iff users uid).mpr hres)]
    exact count_keys availabilities ks hks uid hav
  refine ⟨hcount, ?_⟩
  unfold listedIDs at hcount ⊢
  rw [List.map_append, List.count_append] at hcount
  constructor
  · intro h1 h2
    have c1 := List.count_pos_iff.mpr h1
    have c2 := List.count_pos_iff.mpr h2
    omega
  · intro h2
    have c2 := List.count_eq_zero_of_not_mem h2
    apply List.count_pos_iff.mp
    omega

/-- Witness of C2 on the scenario of the repository's test. -/
theorem resolved_user_listed_exactly_once_witness :
    SortSliceSpec Slice ∧
    Fetches MapOrder.insertion testService 1 testEvent testTimeSlots testAvailability
      testUsers ∧
    ∃ recs, GetRecommendations Slice MapOrder.insertion testService 1 =
        (some ⟨recs⟩, none) ∧
      ∀ r ∈ recs, ∀ uid, HasAvailability testAvailability uid → Resolves testUsers uid →
        (listedIDs (r.Attendees ++ r.NonAttendees)).count uid = 1 ∧
        (uid ∈ listedIDs r.Attendees ↔ uid ∉ listedIDs r.NonAttendees) :=
  ⟨Slice_spec, fetches_fixedService _ _ _ _ _ _,
    resolved_user_listed_exactly_once Slice Slice_spec MapOrder.insertion
      testService 1 testEvent testTimeSlots testAvailability testUsers
      (fetches_fixedService _ _ _ _ _ _)⟩

/-- Record shape by the computed meeting end: the time-slot triples of the response are, as a
multiset, the triples (slot ID, slot start, computed meeting end) of exactly the slots whose
computed meeting end is not after the slot end; in particular a response built from slots
none of which fits is empty, and each returned end is the computed meeting end. -/
theorem timeSlots_of_fitting_slots (sortSlice : Sorter) (hs : SortSliceSpec sortSlice)
    (order : MapOrder) (s : RecommendationService) (eventID : UUID) (event : Event)
    (timeSlots : List TimeSlot) (availabilities : List Availability) (users : List User)
    (hf : Fetches order s eventID event timeSlots availabilities users) :
    ∃ recs, GetRecommendations sortSlice order s eventID = (some ⟨recs⟩, none) ∧
      (recs.map (fun r => r.TimeSlot)).Perm
        ((timeSlots.filter (fun slot => decide (Fits event slot))).map
          (fun slot => (⟨slot.ID, slot.StartTime, meetingEndTime event slot⟩ :
            TimeSlotResponse))) ∧
      ((∀ slot ∈ timeSlots, ¬ Fits event slot) → recs = []) ∧
      ∀ r ∈ recs, ∃ slot ∈ timeSlots, Fits event slot ∧ r.TimeSlot.ID = slot.ID ∧
        r.TimeSlot.StartTime = slot.StartTime ∧
        r.TimeSlot.EndTime = meetingEndTime event slot := by
  refine ⟨_, GetRecommendations_of_fetches sortSlice hs order s eventID event timeSlots
    availabilities users hf, ?_⟩
  have hperm : ((computeRecommendations sortSlice order event timeSlots availabilities
      users).map (fun r => r.TimeSlot)).Perm
      ((timeSlots.filter (fun slot => decide (Fits event slot))).map
        (fun slot => (⟨slot.ID, slot.StartTime, meetingEndTime event slot⟩ :
          TimeSlotResponse))) := by
    have h1 := ((hs scoreLess scoreLess_strictWeakOrder (slotLoop order event
      (groupAvailabilities availabilities) (buildUserMap users) 1 timeSlots)).1).map
      (fun r => r.TimeSlot)
    rw [slotLoop_map_TimeSlot] at h1
    have hfilter : (timeSlots.filter (fun s => !(meetingEndTime event s).After s.EndTime)) =
        timeSlots.filter (fun slot => decide (Fits event slot)) := by
      apply List.filter_congr
      intro x _
      by_cases hx : Fits event x
      · simp [hx, (fits_iff event x).mpr hx]
      · have : (meetingEndTime event x).After x.EndTime = true := by
          by_contra hc
          exact hx ((fits_iff event x).mp (by simpa using hc))
        simp [hx, this]
    rw [hfilter] at h1
    exact h1
  refine ⟨hperm, ?_, ?_⟩
  · intro hnone
    have hnil : timeSlots.filter (fun slot => decide (Fits event slot)) = [] := by
      rw [List.filter_eq_nil_iff]
      intro a ha
      simpa using hnone a ha
    rw [hnil] at hperm
    simpa using hperm.eq_nil
  · intro r hr
    have hm : r.TimeSlot ∈ (computeRecommendations sortSlice order event timeSlots
        availabilities users).map (fun r => r.TimeSlot) := List.mem_map_of_mem _ hr
    rw [hperm.mem_iff, List.mem_map] at hm
    obtain ⟨slot, hslot, heq⟩ := hm
    rw [List.mem_filter] at hslot
    refine ⟨slot, hslot.1, by simpa using hslot.2, ?_⟩
    rw [← heq]
    exact ⟨rfl, rfl, rfl⟩

/-- Record shape on a 60-minute slot with a 90-minute event: no record. -/
theorem timeSlots_of_fitting_slots_witness :
    SortSliceSpec Slice ∧
    Fetches MapOrder.insertion (fixedService overflowEvent [overflowSlot] testAvailability
      testUsers) 1 overflowEvent [overflowSlot] testAvailability testUsers ∧
    ∃ recs, GetRecommendations Slice MapOrder.insertion
        (fixedService overflowEvent [overflowSlot] testAvailability testUsers) 1 =
          (some ⟨recs⟩, none) ∧
      (recs.map (fun r => r.TimeSlot)).Perm
        (([overflowSlot].filter (fun slot => decide (Fits overflowEvent slot))).map
          (fun slot => (⟨slot.ID, slot.StartTime, meetingEndTime overflowEvent slot⟩ :
            TimeSlotResponse))) ∧
      ((∀ slot ∈ [overflowSlot], ¬ Fits overflowEvent slot) → recs = []) ∧
      ∀ r ∈ recs, ∃ slot ∈ [overflowSlot], Fits overflowEvent slot ∧
        r.TimeSlot.ID = slot.ID ∧ r.TimeSlot.StartTime = slot.StartTime ∧
        r.TimeSlot.EndTime = meetingEndTime overflowEvent slot :=
  ⟨Slice_spec, fetches_fixedService _ _ _ _ _ _,
    timeSlots_of_fitting_slots Slice Slice_spec MapOrder.insertion
      (fixedService overflowEvent [overflowSlot] testAvailability testUsers) 1 overflowEvent
      [overflowSlot] testAvailability testUsers (fetches_fixedService _ _ _ _ _ _)⟩

/-- C4. In every recommendation of the response the score is the number of entries of its
attendee list. -/
theorem score_eq_attendee_count (sortSlice : Sorter) (hs : SortSliceSpec sortSlice)
    (order : MapOrder) (s : RecommendationService) (eventID : UUID) (event : Event)
    (timeSlots : List TimeSlot) (availabilities : List Availability) (users : List User)
    (hf : Fetches order s eventID event timeSlots availabilities users) :
    ∃ recs, GetRecommendations sortSlice order s eventID = (some ⟨recs⟩, none) ∧
      ∀ r ∈ recs, r.Score = (r.Attendees.length : Int) := by
  refine ⟨_, GetRecommendations_of_fetches sortSlice hs order s eventID event timeSlots
    availabilities users hf, ?_⟩
  intro r hr
  rw [mem_computeRecommendations sortSlice hs] at hr
  obtain ⟨_, _, _, _, _, _, _, _, hscore⟩ :=
    slotLoop_record order event availabilities users 1 timeSlots r hr
  exact hscore

/-- Witness of C4 on the scenario of the repository's test. -/
theorem score_eq_attendee_count_witness :
    SortSliceSpec Slice ∧
    Fetches MapOrder.insertion testService 1 testEvent testTimeSlots testAvailability
      testUsers ∧
    ∃ recs, GetRecommendations Slice MapOrder.insertion testService 1 =
        (some ⟨recs⟩, none) ∧
      ∀ r ∈ recs, r.Score = (r.Attendees.length : Int) :=
  ⟨Slice_spec, fetches_fixedService _ _ _ _ _ _,
    score_eq_attendee_count Slice Slice_spec MapOrder.insertion
      testService 1 testEvent testTimeSlots testAvailability testUsers
      (fetches_fixedService _ _ _ _ _ _)⟩

/-- C5. Ranking: the response is ordered by score descending: for all positions `i < j` the
score at `i` is at least the score at `j`, so a recommendation with a strictly higher score
stands before one with a lower score wherever their slots stood in the input. -/
theorem ranked_by_score_descending (sortSlice : Sorter) (hs : SortSliceSpec sortSlice)
    (order : MapOrder) (s : RecommendationService) (eventID : UUID) (event : Event)
    (timeSlots : List TimeSlot) (availabilities : List Availability) (users : List User)
    (hf : Fetches order s eventID event timeSlots availabilities users) :
    ∃ recs, GetRecommendations sortSlice order s eventID = (some ⟨recs⟩, none) ∧
      (∀ i j (hij : i < j) (hj : j < recs.length),
        (recs.get ⟨i, lt_trans hij hj⟩).Score ≥ (recs.get ⟨j, hj⟩).Score) ∧
      (∀ i j (hi : i < recs.length) (hj : j < recs.length),
        (recs.get ⟨i, hi⟩).Score > (recs.get ⟨j, hj⟩).Score → i < j) := by
  refine ⟨_, GetRecommendations_of_fetches sortSlice hs order s eventID event timeSlots
    availabilities users hf, ?_⟩
  have hsorted := (hs scoreLess scoreLess_strictWeakOrder (slotLoop order event
    (groupAvailabilities availabilities) (buildUserMap users) 1 timeSlots)).2
  have hpair : (computeRecommendations sortSlice order event timeSlots availabilities
      users).Pairwise (fun a b => a.Score ≥ b.Score) := by
    unfold computeRecommendations
    refine hsorted.imp ?_
    intro a b h
    simp only [scoreLess, decide_eq_false_iff_not] at h
    omega
  have hidx : ∀ i j (hij : i < j)
      (hj : j < (computeRecommendations sortSlice order event timeSlots availabilities
        users).length),
      ((computeRecommendations sortSlice order event timeSlots availabilities users).get
        ⟨i, lt_trans hij hj⟩).Score ≥
      ((computeRecommendations sortSlice order event timeSlots availabilities users).get
        ⟨j, hj⟩).Score := by
    intro i j hij hj
    exact List.pairwise_iff_get.mp hpair ⟨i, lt_trans hij hj⟩ ⟨j, hj⟩ hij
  refine ⟨hidx, ?_⟩
  intro i j hi hj hlt
  by_contra hcon
  rcases Nat.lt_or_ge j i with h | h
  · have := hidx j i h hi
    omega
  · have hij : i = j := by omega
    subst hij
    omega

/-- Witness of C5 on the scenario of the repository's test. -/
theorem ranked_by_score_descending_witness :
    SortSliceSpec Slice ∧
    Fetches MapOrder.insertion testService 1 testEvent testTimeSlots testAvailability
      testUsers ∧
    ∃ recs, GetRecommendations Slice MapOrder.insertion testService 1 =
        (some ⟨recs⟩, none) ∧
      (∀ i j (hij : i < j) (hj : j < recs.length),
        (recs.get ⟨i, lt_trans hij hj⟩).Score ≥ (recs.get ⟨j, hj⟩).Score) ∧
      (∀ i j (hi : i < recs.length) (hj : j < recs.length),
        (recs.get ⟨i, hi⟩).Score > (recs.get ⟨j, hj⟩).Score → i < j) :=
  ⟨Slice_spec, fetches_fixedService _ _ _ _ _ _,
    ranked_by_score_descending Slice Slice_spec MapOrder.insertion
      testService 1 testEvent testTimeSlots testAvailability testUsers
      (fetches_fixedService _ _ _ _ _ _)⟩

/-- C6 as stated fails. With thirteen fitting slots of which only the last has an attendee,
`sort.Slice` returns the records of the slots in the order 12, 6, 2, 3, 4, 5, 0, 7, 8, 9, 10,
11, 1: the recommendations of score 0 do not stand in the order of their slots. -/
theorem ranking_not_stable_thirteen_slots :
    ∃ recs, GetRecommendations Slice MapOrder.insertion thirteenService 1 =
        (some ⟨recs⟩, none) ∧
      (slotOrderRecommendations MapOrder.insertion testEvent thirteenSlots thirteenAvailability
        testUsers).map (fun r => (r.TimeSlot.ID, r.Score)) =
        [(0, 0), (1, 0), (2, 0), (3, 0), (4, 0), (5, 0), (6, 0), (7, 0), (8, 0), (9, 0),
          (10, 0), (11, 0), (12, 1)] ∧
      recs.map (fun r => (r.TimeSlot.ID, r.Score)) =
        [(12, 1), (6, 0), (2, 0), (3, 0), (4, 0), (5, 0), (0, 0), (7, 0), (8, 0), (9, 0),
          (10, 0), (11, 0), (1, 0)] ∧
      ¬ StableRanking recs (slotOrderRecommendations MapOrder.insertion testEvent thirteenSlots
        thirteenAvailability testUsers) :=
  ⟨Slice scoreLess (slotOrderRecommendations MapOrder.insertion testEvent thirteenSlots
      thirteenAvailability testUsers),
    GetRecommendations_Slice_of_fetches MapOrder.insertion thirteenService 1 testEvent
      thirteenSlots thirteenAvailability testUsers (fetches_fixedService _ _ _ _ _ _),
    by decide, by decide, fun h => absurd (h 0) (by decide)⟩

/-- C7. `GetRecommendations` returns an error exactly when the event fetch fails, or the
slot fetch fails, or the slot list is non-empty and the availability fetch or the bulk user
fetch fails; the error is the one the failing collaborator returned, the response is nil
whenever an error is returned, and a response is returned whenever no error is. -/
theorem error_iff_fetch_fails (sortSlice : Sorter) (order : MapOrder)
    (s : RecommendationService) (eventID : UUID) :
    (∀ e, (GetRecommendations sortSlice order s eventID).2 = some e ↔
      (s.eventRepo.GetByID eventID = .error e ∨
       (∃ event, s.eventRepo.GetByID eventID = .ok event ∧
          s.timeslotRepo.GetByEventID eventID = .error e) ∨
       (∃ event timeSlots, s.eventRepo.GetByID eventID = .ok event ∧
          s.timeslotRepo.GetByEventID eventID = .ok timeSlots ∧ timeSlots ≠ [] ∧
          s.availabilityRepo.GetByEventID eventID = .error e) ∨
       (∃ event timeSlots availabilities, s.eventRepo.GetByID eventID = .ok event ∧
          s.timeslotRepo.GetByEventID eventID = .ok timeSlots ∧ timeSlots ≠ [] ∧
          s.availabilityRepo.GetByEventID eventID = .ok availabilities ∧
          s.userRepo.GetByIDs (uniqueUserIDs order availabilities) = .error e))) ∧
    ((GetRecommendations sortSlice order s eventID).2 ≠ none →
      (GetRecommendations sortSlice order s eventID).1 = none) ∧
    ((GetRecommendations sortSlice order s eventID).2 = none →
      ∃ resp, (GetRecommendations sortSlice order s eventID).1 = some resp) := by
  unfold GetRecommendations
  cases h1 : s.eventRepo.GetByID eventID with
  | error e1 => simp
  | ok event =>
    cases h2 : s.timeslotRepo.GetByEventID eventID with
    | error e2 => simp
    | ok timeSlots =>
      by_cases hlen : timeSlots.length = 0
      · have hnil : timeSlots = [] := List.length_eq_zero.mp hlen
        simp [hnil]
      · have hne : timeSlots ≠ [] := fun h => hlen (by simp [h])
        cases h3 : s.availabilityRepo.GetByEventID eventID with
        | error e3 => simp [hlen, hne]
        | ok availabilities =>
          cases h4 : s.userRepo.GetByIDs (uniqueUserIDs order availabilities) with
          | error e4 => simp [hlen, hne, h4]
          | ok users => simp [hlen, hne, h4]

/-- C8. Empty-slots short-circuit: when the event fetch succeeds and the slot fetch returns
the empty list, the method returns an empty recommendation list and no error, whatever the
availability and user repositories would return. -/
theorem empty_slots_short_circuit (sortSlice : Sorter) (order : MapOrder)
    (s : RecommendationService) (eventID : UUID) (event : Event)
    (hev : s.eventRepo.GetByID eventID = .ok event)
    (hts : s.timeslotRepo.GetByEventID eventID = .ok []) :
    GetRecommendations sortSlice order s eventID = (some ⟨[]⟩, none) := by
  unfold GetRecommendations
  rw [hev, hts]
  simp

/-- Witness of C8: the availability and user repositories fail, the slot list is empty. -/
theorem empty_slots_short_circuit_witness :
    emptySlotsService.eventRepo.GetByID 1 = .ok testEvent ∧
    emptySlotsService.timeslotRepo.GetByEventID 1 = .ok [] ∧
    (∀ ids, emptySlotsService.userRepo.GetByIDs ids =
      .error (Error.other "storage unavailable")) ∧
    emptySlotsService.availabilityRepo.GetByEventID 1 =
      .error (Error.other "storage unavailable") ∧
    GetRecommendations Slice MapOrder.insertion emptySlotsService 1 =
      (some ⟨[]⟩, none) :=
  ⟨rfl, rfl, fun _ => rfl, rfl,
    empty_slots_short_circuit Slice MapOrder.insertion emptySlotsService 1 testEvent
      rfl rfl⟩

/-- C9. Orphaned reference tolerance: with the fetches successful the method succeeds even
when availability records name user IDs the directory does not resolve; such an ID is listed
in neither list of any recommendation; and the response matches, recommendation for
recommendation and up to the unspecified order inside the user lists, the response computed
from the availability list without the orphaned records.  When both computations traverse the
map in insertion order the two ranked lists are equal. -/
theorem orphaned_reference_tolerated (sortSlice : Sorter) (hs : SortSliceSpec sortSlice)
    (order order' : MapOrder) (s : RecommendationService) (eventID : UUID) (event : Event)
    (timeSlots : List TimeSlot) (availabilities : List Availability) (users : List User)
    (hf : Fetches order s eventID event timeSlots availabilities users) :
    ∃ recs recs', GetRecommendations sortSlice order s eventID = (some ⟨recs⟩, none) ∧
      GetRecommendations sortSlice order'
        (fixedService event timeSlots (withoutOrphans users availabilities) users) eventID =
          (some ⟨recs'⟩, none) ∧
      (∀ r ∈ recs, ∀ uid, ¬ Resolves users uid →
        uid ∉ listedIDs r.Attendees ∧ uid ∉ listedIDs r.NonAttendees) ∧
      (∀ r ∈ recs, ∃ r' ∈ recs', SameLists r r') ∧
      (∀ r' ∈ recs', ∃ r ∈ recs, SameLists r r') ∧
      computeRecommendations sortSlice MapOrder.insertion event timeSlots
        (withoutOrphans users availabilities) users =
        computeRecommendations sortSlice MapOrder.insertion event timeSlots availabilities
          users := by
  refine ⟨_, _, GetRecommendations_of_fetches sortSlice hs order s eventID event timeSlots
    availabilities users hf, GetRecommendations_of_fetches sortSlice hs order' _ eventID event
    timeSlots (withoutOrphans users availabilities) users (fetches_fixedService _ _ _ _ _ _),
    ?_, ?_, ?_, ?_⟩
  · intro r hr uid hres
    rw [mem_computeRecommendations sortSlice hs] at hr
    obtain ⟨slot, _, ks, _, _, hks, hatt, hnon, _⟩ :=
      slotLoop_record order event availabilities users 1 timeSlots r hr
    constructor
    · rw [hatt, mem_attendees_iff event slot availabilities users ks hks uid]
      exact fun h => hres h.1
    · rw [hnon, mem_nonAttendees_iff event slot availabilities users ks hks uid]
      exact fun h => hres h.2.1
  · intro r hr
    rw [mem_computeRecommendations sortSlice hs] at hr
    obtain ⟨r', hr', hsame⟩ := mem_slotLoop_withoutOrphans order order' event availabilities
      users 1 timeSlots r hr
    exact ⟨r', (mem_computeRecommendations sortSlice hs _ _ _ _ _ r').mpr hr', hsame⟩
  · intro r' hr'
    rw [mem_computeRecommendations sortSlice hs] at hr'
    obtain ⟨r, hr, hsame⟩ := mem_slotLoop_withOrphans order order' event availabilities
      users 1 timeSlots r' hr'
    exact ⟨r, (mem_computeRecommendations sortSlice hs _ _ _ _ _ r).mpr hr, hsame⟩
  · unfold computeRecommendations
    rw [slotLoop_insertion_withoutOrphans]

/-- Witness of C9: the test scenario with a record of the unknown user 7 added. -/
theorem orphaned_reference_tolerated_witness :
    SortSliceSpec Slice ∧
    Fetches MapOrder.insertion
      (fixedService testEvent testTimeSlots orphanAvailability testUsers) 1 testEvent
      testTimeSlots orphanAvailability testUsers ∧
    HasAvailability orphanAvailability 7 ∧ ¬ Resolves testUsers 7 ∧
    ∃ recs recs', GetRecommendations Slice MapOrder.insertion
        (fixedService testEvent testTimeSlots orphanAvailability testUsers) 1 =
          (some ⟨recs⟩, none) ∧
      GetRecommendations Slice MapOrder.insertion
        (fixedService testEvent testTimeSlots (withoutOrphans testUsers orphanAvailability)
          testUsers) 1 = (some ⟨recs'⟩, none) ∧
      (∀ r ∈ recs, ∀ uid, ¬ Resolves testUsers uid →
        uid ∉ listedIDs r.Attendees ∧ uid ∉ listedIDs r.NonAttendees) ∧
      (∀ r ∈ recs, ∃ r' ∈ recs', SameLists r r') ∧
      (∀ r' ∈ recs', ∃ r ∈ recs, SameLists r r') ∧
      computeRecommendations Slice MapOrder.insertion testEvent testTimeSlots
        (withoutOrphans testUsers orphanAvailability) testUsers =
        computeRecommendations Slice MapOrder.insertion testEvent testTimeSlots
          orphanAvailability testUsers :=
  ⟨Slice_spec, fetches_fixedService _ _ _ _ _ _, by decide, by decide,
    orphaned_reference_tolerated Slice Slice_spec MapOrder.insertion
      MapOrder.insertion (fixedService testEvent testTimeSlots orphanAvailability testUsers) 1
      testEvent testTimeSlots orphanAvailability testUsers (fetches_fixedService _ _ _ _ _ _)⟩

/-! ## `pkg/timeutil`: comparisons, overlap and duration -/

theorem before_iff (t u : Time) : t.Before u = true ↔ t.unixNano < u.unixNano := by
  simp [Time.Before]

theorem after_iff (t u : Time) : t.After u = true ↔ u.unixNano < t.unixNano := by
  simp [Time.After]

theorem equal_iff (t u : Time) : t.Equal u = true ↔ t.unixNano = u.unixNano := by
  simp [Time.Equal]

theorem overlaps_iff (a b : TimeRange) :
    a.Overlaps b = true ↔
      a.Start.unixNano ≤ b.End.unixNano ∧ b.Start.unixNano ≤ a.End.unixNano := by
  simp only [TimeRange.Overlaps, Bool.and_eq_true, Bool.or_eq_true, before_iff, after_iff,
    equal_iff]
  omega

theorem contains_iff (a b : TimeRange) :
    a.Contains b = true ↔
      a.Start.unixNano ≤ b.Start.unixNano ∧ b.End.unixNano ≤ a.End.unixNano := by
  simp only [TimeRange.Contains, Bool.and_eq_true, Bool.or_eq_true, before_iff, after_iff,
    equal_iff]
  omega

/-- The later of two instants, as line 36-39 pick it. -/
theorem later_eq_max (x y : Time) :
    (if y.After x = true then y else x) = ⟨max x.unixNano y.unixNano⟩ := by
  by_cases hc : x.unixNano < y.unixNano
  · rw [if_pos ((after_iff _ _).mpr hc), max_eq_right (le_of_lt hc)]
  · rw [if_neg (fun hh => hc ((after_iff _ _).mp hh)), max_eq_left (not_lt.mp hc)]

/-- The earlier of two instants, as lines 41-44 pick it. -/
theorem earlier_eq_min (x y : Time) :
    (if y.Before x = true then y else x) = ⟨min x.unixNano y.unixNano⟩ := by
  by_cases hc : y.unixNano < x.unixNano
  · rw [if_pos ((before_iff _ _).mpr hc), min_eq_right (le_of_lt hc)]
  · rw [if_neg (fun hh => hc ((before_iff _ _).mp hh)), min_eq_left (not_lt.mp hc)]

theorem FindOverlap_of_overlaps (a b : TimeRange) (h : a.Overlaps b = true) :
    FindOverlap a b =
      (⟨⟨max a.Start.unixNano b.Start.unixNano⟩, ⟨min a.End.unixNano b.End.unixNano⟩⟩,
        true) := by
  unfold FindOverlap
  simp only [h, Bool.not_true, Bool.false_eq_true, if_false]
  rw [later_eq_max, earlier_eq_min]

theorem FindOverlap_of_not_overlaps (a b : TimeRange) (h : a.Overlaps b = false) :
    FindOverlap a b = (TimeRange.zero, false) := by
  unfold FindOverlap
  simp [h]

theorem FindOverlap_snd (a b : TimeRange) : (FindOverlap a b).2 = a.Overlaps b := by
  cases h : a.Overlaps b
  · rw [FindOverlap_of_not_overlaps a b h]
  · rw [FindOverlap_of_overlaps a b h]

theorem wrapInt64_of_fits (x : Int) (h1 : minDuration ≤ x) (h2 : x ≤ maxDuration) :
    wrapInt64 x = x := by
  have h1' : (-9223372036854775808 : Int) ≤ x := h1
  have h2' : x ≤ (9223372036854775807 : Int) := h2
  unfold wrapInt64
  rw [Int.emod_eq_of_lt (by omega) (by omega)]
  omega

theorem wrapInt64_bounds (x : Int) :
    (-9223372036854775808 : Int) ≤ wrapInt64 x ∧ wrapInt64 x ≤ (9223372036854775807 : Int) := by
  unfold wrapInt64
  have h1 := Int.emod_nonneg (x + 9223372036854775808)
    (show (18446744073709551616 : Int) ≠ 0 by decide)
  have h2 := Int.emod_lt_of_pos (x + 9223372036854775808)
    (show (0 : Int) < 18446744073709551616 by decide)
  constructor <;> omega

/-- The duration between two instants is their difference when it fits a `time.Duration`. -/
theorem Sub_of_fits (t u : Time) (h1 : minDuration ≤ t.unixNano - u.unixNano)
    (h2 : t.unixNano - u.unixNano ≤ maxDuration) : t.Sub u = t.unixNano - u.unixNano := by
  unfold Time.Sub
  simp only [wrapInt64_of_fits _ h1 h2]
  rw [if_pos]
  rw [equal_iff]
  simp [Time.Add]

/-- A difference above the largest duration is reported as the largest duration. -/
theorem Sub_of_above (t u : Time) (h : maxDuration < t.unixNano - u.unixNano) :
    t.Sub u = maxDuration := by
  have hb := wrapInt64_bounds (t.unixNano - u.unixNano)
  have h' : (9223372036854775807 : Int) < t.unixNano - u.unixNano := h
  unfold Time.Sub
  simp only
  rw [if_neg, if_neg]
  · rw [before_iff]
    omega
  · rw [equal_iff]
    simp only [Time.Add]
    omega

/-- A difference below the smallest duration is reported as the smallest duration. -/
theorem Sub_of_below (t u : Time) (h : t.unixNano - u.unixNano < minDuration) :
    t.Sub u = minDuration := by
  have hb := wrapInt64_bounds (t.unixNano - u.unixNano)
  have h' : t.unixNano - u.unixNano < (-9223372036854775808 : Int) := h
  unfold Time.Sub
  simp only
  rw [if_neg, if_pos]
  · rw [before_iff]
    omega
  · rw [equal_iff]
    simp only [Time.Add]
    omega

/-- The duration between two instants never exceeds a bound on their difference. -/
theorem Sub_le_of_le (t u : Time) (k : Int) (hk : minDuration ≤ k)
    (h : t.unixNano - u.unixNano ≤ k) : t.Sub u ≤ k := by
  by_cases h1 : minDuration ≤ t.unixNano - u.unixNano
  · by_cases h2 : t.unixNano - u.unixNano ≤ maxDuration
    · rw [Sub_of_fits t u h1 h2]
      exact h
    · rw [Sub_of_above t u (not_le.mp h2)]
      exact le_trans (le_of_lt (not_le.mp h2)) h
  · rw [Sub_of_below t u (not_le.mp h1)]
    exact hk

/-- A duration strictly inside the representable range is the exact difference. -/
theorem diff_of_Sub_eq (t u : Time) (k : Int) (h : t.Sub u = k) (h1 : minDuration < k)
    (h2 : k < maxDuration) : t.unixNano - u.unixNano = k := by
  by_cases c1 : minDuration ≤ t.unixNano - u.unixNano
  · by_cases c2 : t.unixNano - u.unixNano ≤ maxDuration
    · rw [Sub_of_fits t u c1 c2] at h
      exact h
    · rw [Sub_of_above t u (not_le.mp c2)] at h
      exact absurd h (ne_of_gt h2)
  · rw [Sub_of_below t u (not_le.mp c1)] at h
    exact absurd h (ne_of_lt h1)

/-! ## `pkg/timeutil`: the loops of `FindCommonAvailability` and `GetCommonTimeSlots` -/

theorem overlapsWith_eq_filterMap (availability : TimeRange) (commonRanges : List TimeRange) :
    overlapsWith availability commonRanges =
      commonRanges.filterMap (fun c =>
        if (FindOverlap c availability).2 = true then some (FindOverlap c availability).1
        else none) := by
  induction commonRanges with
  | nil => rfl
  | cons c rest ih =>
    by_cases h : (FindOverlap c availability).2 = true
    · simp only [overlapsWith, h, if_true, List.filterMap_cons, ih]
    · simp only [overlapsWith, h, if_false, List.filterMap_cons, ih, Bool.false_eq_true]

theorem overlapsWith_length_le (availability : TimeRange) (commonRanges : List TimeRange) :
    (overlapsWith availability commonRanges).length ≤ commonRanges.length := by
  rw [overlapsWith_eq_filterMap]
  exact List.length_filterMap_le _ _

/-- With enough fuel the index loop is the left fold over the ranges from index `i` on. -/
theorem commonLoop_eq_foldl (availabilities : List TimeRange) (fuel i : Nat)
    (commonRanges : List TimeRange) (hfuel : availabilities.length ≤ i + fuel) :
    commonLoop availabilities fuel i commonRanges =
      (availabilities.drop i).foldl (fun acc ri => overlapsWith ri acc) commonRanges := by
  induction fuel generalizing i commonRanges with
  | zero =>
    rw [List.drop_eq_nil_of_le (by omega)]
    rfl
  | succ fuel ih =>
    unfold commonLoop
    by_cases h : i < availabilities.length
    · rw [dif_pos h, ih (i + 1) _ (by omega), List.drop_eq_getElem_cons h]
      rfl
    · rw [dif_neg h, List.drop_eq_nil_of_le (by omega)]
      rfl

theorem FindCommonAvailability_cons_cons (r1 r2 : TimeRange) (rest : List TimeRange) :
    FindCommonAvailability (r1 :: r2 :: rest) =
      (r2 :: rest).foldl (fun acc ri => overlapsWith ri acc) [r1] := by
  unfold FindCommonAvailability
  rw [dif_neg (by simp), if_neg (by simp), commonLoop_eq_foldl _ _ _ _ (by omega)]
  rfl

theorem validRanges_eq_filter (duration : Duration) (commonRanges : List TimeRange) :
    validRanges duration commonRanges =
      commonRanges.filter (fun r => decide (duration ≤ r.Duration)) := by
  induction commonRanges with
  | nil => rfl
  | cons r rest ih =>
    by_cases h : duration ≤ r.Duration
    · simp only [validRanges, ge_iff_le, h, if_true, List.filter_cons, decide_True, ih]
    · simp only [validRanges, ge_iff_le, h, if_false, List.filter_cons, decide_False, ih,
        Bool.false_eq_true]

theorem GetCommonTimeSlots_eq (slots : List TimeRange) (duration : Duration) :
    GetCommonTimeSlots slots duration =
      (FindCommonAvailability slots).filter (fun r => decide (duration ≤ r.Duration)) := by
  unfold GetCommonTimeSlots
  by_cases h : slots.length = 0
  · rw [if_pos h, List.length_eq_zero.mp h]
    rfl
  · rw [if_neg h, validRanges_eq_filter]

theorem FindCommonAvailability_of_length_le_one (slots : List TimeRange)
    (h : slots.length ≤ 1) : FindCommonAvailability slots = slots := by
  match slots, h with
  | [], _ => rfl
  | [_], _ => rfl

/-- The overlap of two ranges is no longer than the span of the first, and no longer than the
span of the second. -/
theorem FindOverlap_span_le (a b : TimeRange) (h : a.Overlaps b = true) :
    (FindOverlap a b).1.End.unixNano - (FindOverlap a b).1.Start.unixNano ≤
        a.End.unixNano - a.Start.unixNano ∧
      (FindOverlap a b).1.End.unixNano - (FindOverlap a b).1.Start.unixNano ≤
        b.End.unixNano - b.Start.unixNano := by
  rw [FindOverlap_of_overlaps a b h]
  simp only
  omega

theorem Sub_le_maxDuration (t u : Time) : t.Sub u ≤ maxDuration := by
  have hmm : minDuration ≤ maxDuration := by decide
  by_cases c1 : minDuration ≤ t.unixNano - u.unixNano
  · by_cases c2 : t.unixNano - u.unixNano ≤ maxDuration
    · rw [Sub_of_fits t u c1 c2]
      exact c2
    · rw [Sub_of_above t u (not_le.mp c2)]
  · rw [Sub_of_below t u (not_le.mp c1)]
    exact hmm

/-- The duration between two instants grows with their difference. -/
theorem Sub_mono (t u t' u' : Time)
    (h : t.unixNano - u.unixNano ≤ t'.unixNano - u'.unixNano) : t.Sub u ≤ t'.Sub u' := by
  by_cases c1 : minDuration ≤ t'.unixNano - u'.unixNano
  · by_cases c2 : t'.unixNano - u'.unixNano ≤ maxDuration
    · rw [Sub_of_fits t' u' c1 c2]
      exact Sub_le_of_le t u _ c1 h
    · rw [Sub_of_above t' u' (not_le.mp c2)]
      exact Sub_le_maxDuration t u
  · rw [Sub_of_below t' u' (not_le.mp c1), Sub_of_below t u (lt_of_le_of_lt h (not_le.mp c1))]

/-- Every range the inner loop produces is no longer than the common range it comes from and
no longer than the availability. -/
theorem span_overlapsWith (availability : TimeRange) (commonRanges : List TimeRange)
    (r : TimeRange) (hr : r ∈ overlapsWith availability commonRanges) :
    (∃ c ∈ commonRanges, r.End.unixNano - r.Start.unixNano ≤ c.End.unixNano - c.Start.unixNano) ∧
      r.End.unixNano - r.Start.unixNano ≤
        availability.End.unixNano - availability.Start.unixNano := by
  rw [overlapsWith_eq_filterMap, List.mem_filterMap] at hr
  obtain ⟨c, hc, hsome⟩ := hr
  by_cases h : (FindOverlap c availability).2 = true
  · rw [if_pos h] at hsome
    have hov : c.Overlaps availability = true := by rw [← FindOverlap_snd]; exact h
    have hspan := FindOverlap_span_le c availability hov
    rw [Option.some.inj hsome] at hspan
    exact ⟨⟨c, hc, hspan.1⟩, hspan.2⟩
  · rw [if_neg h] at hsome
    exact absurd hsome (by simp)

/-- A bound on the span of every common range, or of one of the ranges still to come, bounds
the span of every range the fold returns. -/
theorem span_foldl_overlapsWith (k : Int) (rest acc : List TimeRange)
    (h : (∀ c ∈ acc, c.End.unixNano - c.Start.unixNano ≤ k) ∨
      ∃ ri ∈ rest, ri.End.unixNano - ri.Start.unixNano ≤ k) :
    ∀ r ∈ rest.foldl (fun acc ri => overlapsWith ri acc) acc,
      r.End.unixNano - r.Start.unixNano ≤ k := by
  induction rest generalizing acc with
  | nil =>
    rcases h with h | ⟨ri, hri, _⟩
    · exact h
    · exact absurd hri (List.not_mem_nil ri)
  | cons x rest ih =>
    rw [List.foldl_cons]
    apply ih
    rcases h with h | ⟨ri, hri, hk⟩
    · left
      intro c hc
      obtain ⟨⟨c0, hc0, hle⟩, _⟩ := span_overlapsWith x acc c hc
      exact le_trans hle (h c0 hc0)
    · rcases List.mem_cons.mp hri with rfl | hmem
      · left
        intro c hc
        exact le_trans (span_overlapsWith ri acc c hc).2 hk
      · right
        exact ⟨ri, hmem, hk⟩

/-- Of two or more ranges, every common range is no longer than each of them. -/
theorem span_FindCommonAvailability (slots : List TimeRange) (h : 2 ≤ slots.length)
    (a : TimeRange) (ha : a ∈ slots) :
    ∀ r ∈ FindCommonAvailability slots,
      r.End.unixNano - r.Start.unixNano ≤ a.End.unixNano - a.Start.unixNano := by
  match slots, h with
  | r1 :: r2 :: rest, _ =>
    rw [FindCommonAvailability_cons_cons]
    apply span_foldl_overlapsWith
    rcases List.mem_cons.mp ha with rfl | hmem
    · left
      intro c hc
      rw [List.mem_singleton.mp hc]
    · right
      exact ⟨a, hmem, le_refl _⟩

/-- Of two or more ranges of which one is shorter than the required duration, no common range
passes the duration filter. -/
theorem GetCommonTimeSlots_of_short (slots : List TimeRange) (d : Duration)
    (h : 2 ≤ slots.length) (a : TimeRange) (ha : a ∈ slots) (hd : a.Duration < d) :
    GetCommonTimeSlots slots d = [] := by
  rw [GetCommonTimeSlots_eq, List.filter_eq_nil_iff]
  intro r hr hdec
  have hle : r.Duration ≤ a.Duration :=
    Sub_mono _ _ _ _ (span_FindCommonAvailability slots h a ha r hr)
  have hdr : d ≤ r.Duration := of_decide_eq_true hdec
  exact absurd (lt_of_le_of_lt (le_trans hdr hle) hd) (lt_irrefl _)

/-! ## The claims about users without a covering record and about unresolved users -/

/-- No union across availability records, by the computed meeting end: with the fetches
successful, in every
recommendation of a fitting slot a resolved user none of whose availability records on its own
holds the meeting from the slot start to the computed meeting end is listed among the
non-attendees and not among the attendees, whatever the user's records cover when taken
together; and when no resolved user has such a record, the score of the slot is 0. -/
theorem no_union_across_records (sortSlice : Sorter) (hs : SortSliceSpec sortSlice)
    (order : MapOrder) (s : RecommendationService) (eventID : UUID) (event : Event)
    (timeSlots : List TimeSlot) (availabilities : List Availability) (users : List User)
    (hf : Fetches order s eventID event timeSlots availabilities users) :
    ∃ recs, GetRecommendations sortSlice order s eventID = (some ⟨recs⟩, none) ∧
      ∀ slot ∈ timeSlots, Fits event slot →
        (∃ r ∈ recs, r.TimeSlot = slotTriple event slot) ∧
        ∀ r ∈ recs, r.TimeSlot = slotTriple event slot →
          (∀ uid, HasAvailability availabilities uid → Resolves users uid →
            (∀ a ∈ availabilities, a.UserID = uid → ¬ Covers event slot a) →
            uid ∈ listedIDs r.NonAttendees ∧ uid ∉ listedIDs r.Attendees) ∧
          ((∀ uid, Resolves users uid →
              ∀ a ∈ availabilities, a.UserID = uid → ¬ Covers event slot a) →
            r.Score = 0) := by
  refine ⟨_, GetRecommendations_of_fetches sortSlice hs order s eventID event timeSlots
    availabilities users hf, ?_⟩
  intro slot hslot hfit
  constructor
  · obtain ⟨r, hr, ht⟩ := slotLoop_has_record order event (groupAvailabilities availabilities)
      (buildUserMap users) 1 timeSlots slot hslot hfit
    exact ⟨r, (mem_computeRecommendations sortSlice hs _ _ _ _ _ r).mpr hr, ht⟩
  · intro r hr ht
    rw [mem_computeRecommendations sortSlice hs] at hr
    obtain ⟨slot', _, ks, _, ht', hks, hatt, hnon, hscore⟩ :=
      slotLoop_record order event availabilities users 1 timeSlots r hr
    have hcong := covers_congr event slot slot' (ht'.symm.trans ht)
    constructor
    · intro uid hav hres hno
      have hno' : ¬ ∃ a ∈ availabilities, a.UserID = uid ∧ Covers event slot' a := by
        rintro ⟨a, ha, hu, hc⟩
        exact hno a ha hu ((hcong a).mp hc)
      constructor
      · rw [hnon, mem_nonAttendees_iff event slot' availabilities users ks hks uid]
        exact ⟨hav, hres, hno'⟩
      · rw [hatt, mem_attendees_iff event slot' availabilities users ks hks uid]
        rintro ⟨_, h⟩
        exact hno' h
    · intro hnone
      have hnil : r.Attendees = [] := by
        apply List.eq_nil_iff_forall_not_mem.mpr
        intro x hx
        have hmem : x.ID ∈ listedIDs r.Attendees := List.mem_map.mpr ⟨x, hx, rfl⟩
        rw [hatt, mem_attendees_iff event slot' availabilities users ks hks x.ID] at hmem
        obtain ⟨hres, a, ha, hu, hc⟩ := hmem
        exact hnone x.ID hres a ha hu ((hcong a).mp hc)
      rw [hscore, hnil]
      rfl

/-- The records 09:00-09:30 and 09:30-10:15 together cover the meeting 09:00-10:00. -/
theorem adjoining_union_covers : UnionCovers testEvent noUnionSlot adjoiningAvailability 5 := by
  intro t h1 h2
  have hs : noUnionSlot.StartTime.unixNano = 32400000000000 := by decide
  have he : (meetingEndTime testEvent noUnionSlot).unixNano = 36000000000000 := by decide
  rw [hs] at h1
  rw [he] at h2
  by_cases hc : t ≤ 34200000000000
  · refine ⟨⟨20, 5, 1, minute 540, minute 570, ⟨0⟩, ⟨0⟩⟩, by decide, rfl, ?_, ?_⟩
    · show (540 : Int) * 60000000000 ≤ t
      omega
    · show t ≤ (570 : Int) * 60000000000
      omega
  · refine ⟨⟨21, 5, 1, minute 570, minute 615, ⟨0⟩, ⟨0⟩⟩, by decide, rfl, ?_, ?_⟩
    · show (570 : Int) * 60000000000 ≤ t
      omega
    · show t ≤ (615 : Int) * 60000000000
      omega

/-- The records 09:00-09:30 and 09:45-10:15 leave the instant 09:40 of the meeting 09:00-10:00
uncovered. -/
theorem noUnion_records_leave_gap :
    ¬ UnionCovers testEvent noUnionSlot noUnionAvailability 5 := by
  intro h
  obtain ⟨a, ha, _, h1, h2⟩ := h (minute 580).unixNano (by decide) (by decide)
  simp only [noUnionAvailability, List.mem_cons, List.mem_singleton, List.not_mem_nil,
    or_false] at ha
  rcases ha with rfl | rfl
  · exact absurd h2 (by decide)
  · exact absurd h1 (by decide)

/-- No union on two examples: with the records 09:00-09:30 and 09:45-10:15, the slot 09:00-10:00 and a
60-minute event, user 5 is a non-attendee and the score is 0; the same holds with the records
09:00-09:30 and 09:30-10:15, which together cover the meeting. -/
theorem no_union_across_records_witness :
    SortSliceSpec Slice ∧
    (Fetches MapOrder.insertion (noUnionService noUnionAvailability) 1 testEvent
        [noUnionSlot] noUnionAvailability testUsers ∧
      GetRecommendations Slice MapOrder.insertion (noUnionService noUnionAvailability) 1 =
        (some ⟨[⟨⟨10, minute 540, minute 600⟩, [], [⟨5, "User 1", "user1@example.com"⟩],
          0⟩]⟩, none) ∧
      ∃ recs, GetRecommendations Slice MapOrder.insertion
          (noUnionService noUnionAvailability) 1 = (some ⟨recs⟩, none) ∧
        ∀ slot ∈ [noUnionSlot], Fits testEvent slot →
          (∃ r ∈ recs, r.TimeSlot = slotTriple testEvent slot) ∧
          ∀ r ∈ recs, r.TimeSlot = slotTriple testEvent slot →
            (∀ uid, HasAvailability noUnionAvailability uid → Resolves testUsers uid →
              (∀ a ∈ noUnionAvailability, a.UserID = uid → ¬ Covers testEvent slot a) →
              uid ∈ listedIDs r.NonAttendees ∧ uid ∉ listedIDs r.Attendees) ∧
            ((∀ uid, Resolves testUsers uid →
                ∀ a ∈ noUnionAvailability, a.UserID = uid → ¬ Covers testEvent slot a) →
              r.Score = 0)) ∧
    (UnionCovers testEvent noUnionSlot adjoiningAvailability 5 ∧
      Fetches MapOrder.insertion (noUnionService adjoiningAvailability) 1 testEvent
        [noUnionSlot] adjoiningAvailability testUsers ∧
      GetRecommendations Slice MapOrder.insertion (noUnionService adjoiningAvailability) 1 =
        (some ⟨[⟨⟨10, minute 540, minute 600⟩, [], [⟨5, "User 1", "user1@example.com"⟩],
          0⟩]⟩, none) ∧
      ∃ recs, GetRecommendations Slice MapOrder.insertion
          (noUnionService adjoiningAvailability) 1 = (some ⟨recs⟩, none) ∧
        ∀ slot ∈ [noUnionSlot], Fits testEvent slot →
          (∃ r ∈ recs, r.TimeSlot = slotTriple testEvent slot) ∧
          ∀ r ∈ recs, r.TimeSlot = slotTriple testEvent slot →
            (∀ uid, HasAvailability adjoiningAvailability uid → Resolves testUsers uid →
              (∀ a ∈ adjoiningAvailability, a.UserID = uid → ¬ Covers testEvent slot a) →
              uid ∈ listedIDs r.NonAttendees ∧ uid ∉ listedIDs r.Attendees) ∧
            ((∀ uid, Resolves testUsers uid →
                ∀ a ∈ adjoiningAvailability, a.UserID = uid → ¬ Covers testEvent slot a) →
              r.Score = 0)) :=
  ⟨Slice_spec,
    ⟨fetches_fixedService _ _ _ _ _ _, by decide,
      no_union_across_records Slice Slice_spec MapOrder.insertion
        (noUnionService noUnionAvailability) 1 testEvent [noUnionSlot] noUnionAvailability
        testUsers (fetches_fixedService _ _ _ _ _ _)⟩,
    ⟨adjoining_union_covers, fetches_fixedService _ _ _ _ _ _, by decide,
      no_union_across_records Slice Slice_spec MapOrder.insertion
        (noUnionService adjoiningAvailability) 1 testEvent [noUnionSlot] adjoiningAvailability
        testUsers (fetches_fixedService _ _ _ _ _ _)⟩⟩

/-- C12 as stated fails. In the scenario of the repository's test with one more availability
record, of user 7 whom the directory does not resolve, the method succeeds with two
recommendations, and user 7, who has a record, is in neither list of either. -/
theorem unresolved_user_listed_nowhere :
    HasAvailability orphanAvailability 7 ∧
    ∃ r0 r1, GetRecommendations Slice MapOrder.insertion
        (fixedService testEvent testTimeSlots orphanAvailability testUsers) 1 =
          (some ⟨[r0, r1]⟩, none) ∧
      7 ∉ listedIDs r0.Attendees ∧ 7 ∉ listedIDs r0.NonAttendees ∧
      7 ∉ listedIDs r1.Attendees ∧ 7 ∉ listedIDs r1.NonAttendees := by
  refine ⟨by decide, _, _, rfl, ?_⟩
  decide

/-- C12, amended. Partition over the resolved users: with the fetches successful, in every
recommendation of the response no user ID is listed twice over `attendees ++ nonAttendees`,
and the IDs listed are exactly the IDs that have an availability record for the event and
that the user directory resolves; a user with a record whom the directory does not resolve
is in neither list. -/
theorem listed_users_are_resolved_record_holders (sortSlice : Sorter)
    (hs : SortSliceSpec sortSlice) (order : MapOrder) (s : RecommendationService)
    (eventID : UUID) (event : Event) (timeSlots : List TimeSlot)
    (availabilities : List Availability) (users : List User)
    (hf : Fetches order s eventID event timeSlots availabilities users) :
    ∃ recs, GetRecommendations sortSlice order s eventID = (some ⟨recs⟩, none) ∧
      ∀ r ∈ recs,
        (listedIDs (r.Attendees ++ r.NonAttendees)).Nodup ∧
        (∀ uid, uid ∈ listedIDs (r.Attendees ++ r.NonAttendees) ↔
          HasAvailability availabilities uid ∧ Resolves users uid) ∧
        ∀ uid, HasAvailability availabilities uid → ¬ Resolves users uid →
          uid ∉ listedIDs r.Attendees ∧ uid ∉ listedIDs r.NonAttendees := by
  refine ⟨_, GetRecommendations_of_fetches sortSlice hs order s eventID event timeSlots
    availabilities users hf, ?_⟩
  intro r hr
  rw [mem_computeRecommendations sortSlice hs] at hr
  obtain ⟨slot, _, ks, _, _, hks, hatt, hnon, _⟩ :=
    slotLoop_record order event availabilities users 1 timeSlots r hr
  have hnodup : ks.Nodup := hks.nodup_iff.mpr (groupAvailabilities_nodup availabilities)
  have hmem : ∀ uid, uid ∈ listedIDs (r.Attendees ++ r.NonAttendees) ↔
      HasAvailability availabilities uid ∧ Resolves users uid := by
    intro uid
    have hsplit : uid ∈ listedIDs (r.Attendees ++ r.NonAttendees) ↔
        uid ∈ listedIDs r.Attendees ∨ uid ∈ listedIDs r.NonAttendees := by
      unfold listedIDs
      rw [List.map_append, List.mem_append]
    rw [hsplit, hatt, hnon, mem_attendees_iff event slot availabilities users ks hks uid,
      mem_nonAttendees_iff event slot availabilities users ks hks uid]
    constructor
    · rintro (⟨hres, a, ha, hu, _⟩ | ⟨hav, hres, _⟩)
      · exact ⟨⟨a, ha, hu⟩, hres⟩
      · exact ⟨hav, hres⟩
    · rintro ⟨hav, hres⟩
      by_cases hc : ∃ a ∈ availabilities, a.UserID = uid ∧ Covers event slot a
      · exact Or.inl ⟨hres, hc⟩
      · exact Or.inr ⟨hav, hres, hc⟩
  refine ⟨?_, hmem, ?_⟩
  · rw [List.nodup_iff_count_le_one]
    intro uid
    rw [hatt, hnon, count_listed]
    split
    · exact List.nodup_iff_count_le_one.mp hnodup uid
    · exact Nat.zero_le 1
  · intro uid _ hres
    have hnot : uid ∉ listedIDs (r.Attendees ++ r.NonAttendees) := fun h =>
      hres ((hmem uid).mp h).2
    unfold listedIDs at hnot ⊢
    rw [List.map_append, List.mem_append] at hnot
    exact ⟨fun h => hnot (Or.inl h), fun h => hnot (Or.inr h)⟩

/-- Witness of C12, amended, on the scenario with the record of the unresolved user 7. -/
theorem listed_users_are_resolved_record_holders_witness :
    SortSliceSpec Slice ∧
    Fetches MapOrder.insertion
      (fixedService testEvent testTimeSlots orphanAvailability testUsers) 1 testEvent
      testTimeSlots orphanAvailability testUsers ∧
    ∃ recs, GetRecommendations Slice MapOrder.insertion
        (fixedService testEvent testTimeSlots orphanAvailability testUsers) 1 =
          (some ⟨recs⟩, none) ∧
      ∀ r ∈ recs,
        (listedIDs (r.Attendees ++ r.NonAttendees)).Nodup ∧
        (∀ uid, uid ∈ listedIDs (r.Attendees ++ r.NonAttendees) ↔
          HasAvailability orphanAvailability uid ∧ Resolves testUsers uid) ∧
        ∀ uid, HasAvailability orphanAvailability uid → ¬ Resolves testUsers uid →
          uid ∉ listedIDs r.Attendees ∧ uid ∉ listedIDs r.NonAttendees :=
  ⟨Slice_spec, fetches_fixedService _ _ _ _ _ _,
    listed_users_are_resolved_record_holders Slice Slice_spec MapOrder.insertion
      (fixedService testEvent testTimeSlots orphanAvailability testUsers) 1 testEvent
      testTimeSlots orphanAvailability testUsers (fetches_fixedService _ _ _ _ _ _)⟩

/-! ## The claims about the interval functions -/

/-- C13. For all time ranges `a` and `b`, with no assumption that a range starts before it
ends, `a.Overlaps(b)` is true if and only if `a.start <= b.end` and `a.end >= b.start`. -/
theorem Overlaps_iff_endpoints (a b : TimeRange) :
    a.Overlaps b = true ↔
      a.Start.unixNano ≤ b.End.unixNano ∧ a.End.unixNano ≥ b.Start.unixNano :=
  overlaps_iff a b

/-- C14. Closed-interval semantics: for ranges `a` and `b` that each start no later than they
end, `a.Overlaps(b)` is true if and only if some instant lies in both ranges, end points
included; and two such ranges that merely touch (`a.end = b.start`) overlap. -/
theorem Overlaps_iff_common_instant (a b : TimeRange)
    (ha : a.Start.unixNano ≤ a.End.unixNano) (hb : b.Start.unixNano ≤ b.End.unixNano) :
    (a.Overlaps b = true ↔
      ∃ t : Time, (a.Start.unixNano ≤ t.unixNano ∧ t.unixNano ≤ a.End.unixNano) ∧
        (b.Start.unixNano ≤ t.unixNano ∧ t.unixNano ≤ b.End.unixNano)) ∧
    (a.End.unixNano = b.Start.unixNano → a.Overlaps b = true) := by
  constructor
  · rw [overlaps_iff]
    constructor
    · rintro ⟨h1, h2⟩
      refine ⟨⟨max a.Start.unixNano b.Start.unixNano⟩, ⟨?_, ?_⟩, ?_, ?_⟩ <;> simp only <;> omega
    · rintro ⟨t, ⟨h1, h2⟩, h3, h4⟩
      constructor <;> omega
  · intro h
    rw [overlaps_iff]
    constructor <;> omega

/-- Witness of C14: 09:00-10:00 and 10:00-11:00 touch at 10:00. -/
theorem Overlaps_iff_common_instant_witness :
    (morningRange.Start.unixNano ≤ morningRange.End.unixNano ∧
      lateMorningRange.Start.unixNano ≤ lateMorningRange.End.unixNano) ∧
    ((morningRange.Overlaps lateMorningRange = true ↔
      ∃ t : Time, (morningRange.Start.unixNano ≤ t.unixNano ∧
          t.unixNano ≤ morningRange.End.unixNano) ∧
        (lateMorningRange.Start.unixNano ≤ t.unixNano ∧
          t.unixNano ≤ lateMorningRange.End.unixNano)) ∧
    (morningRange.End.unixNano = lateMorningRange.Start.unixNano →
      morningRange.Overlaps lateMorningRange = true)) :=
  ⟨by decide, Overlaps_iff_common_instant morningRange lateMorningRange (by decide) (by decide)⟩

/-- C15. For all time ranges `a` and `b`, `a.Contains(b)` is true if and only if
`a.start <= b.start` and `a.end >= b.end`; both ends are inclusive, so every range contains
itself. -/
theorem Contains_iff_endpoints (a b : TimeRange) :
    (a.Contains b = true ↔
      a.Start.unixNano ≤ b.Start.unixNano ∧ a.End.unixNano ≥ b.End.unixNano) ∧
    a.Contains a = true := by
  constructor
  · exact contains_iff a b
  · rw [contains_iff]
    exact ⟨le_refl _, le_refl _⟩

/-- C16. For all ranges `a` and `b`: when `a.Overlaps(b)` is false, `FindOverlap(a, b)` returns
the zero range and `false`; otherwise it returns the range from the later of the two starts
to the earlier of the two ends, and `true`. -/
theorem FindOverlap_later_start_earlier_end (a b : TimeRange) :
    (a.Overlaps b = false → FindOverlap a b = (TimeRange.zero, false)) ∧
    (a.Overlaps b = true →
      FindOverlap a b =
        (⟨⟨max a.Start.unixNano b.Start.unixNano⟩, ⟨min a.End.unixNano b.End.unixNano⟩⟩,
          true)) :=
  ⟨FindOverlap_of_not_overlaps a b, FindOverlap_of_overlaps a b⟩

/-- Witness of C16: 09:00-10:30 and 09:00-09:30 overlap in 09:00-09:30; 09:00-10:00 and
13:00-14:00 do not overlap. -/
theorem FindOverlap_later_start_earlier_end_witness :
    (ninetyMinuteRange.Overlaps halfHourRange = true ∧
      FindOverlap ninetyMinuteRange halfHourRange = (⟨minute 540, minute 570⟩, true)) ∧
    (morningRange.Overlaps afternoonRange = false ∧
      FindOverlap morningRange afternoonRange = (TimeRange.zero, false)) :=
  ⟨⟨by decide, ((FindOverlap_later_start_earlier_end ninetyMinuteRange halfHourRange).2
      (by decide)).trans (by decide)⟩,
    ⟨by decide, (FindOverlap_later_start_earlier_end morningRange afternoonRange).1
      (by decide)⟩⟩

/-- C17. Interval algebra round-trip: when `a.Overlaps(b)`, `FindOverlap(a, b)` reports an
overlap and the range it returns is contained in `a` and in `b`; when the two ranges do not
overlap, `FindOverlap` reports no intersection. -/
theorem FindOverlap_contained_in_both (a b : TimeRange) :
    (a.Overlaps b = true →
      (FindOverlap a b).2 = true ∧ a.Contains (FindOverlap a b).1 = true ∧
        b.Contains (FindOverlap a b).1 = true) ∧
    (a.Overlaps b = false → FindOverlap a b = (TimeRange.zero, false)) := by
  constructor
  · intro h
    have ho := (overlaps_iff a b).mp h
    rw [FindOverlap_of_overlaps a b h, contains_iff, contains_iff]
    simp only
    refine ⟨trivial, ⟨?_, ?_⟩, ?_, ?_⟩ <;> omega
  · exact FindOverlap_of_not_overlaps a b

/-- Witness of C17 on 09:00-10:30 and 09:00-09:30, and on 09:00-10:00 and 13:00-14:00. -/
theorem FindOverlap_contained_in_both_witness :
    (ninetyMinuteRange.Overlaps halfHourRange = true ∧
      (FindOverlap ninetyMinuteRange halfHourRange).2 = true ∧
      ninetyMinuteRange.Contains (FindOverlap ninetyMinuteRange halfHourRange).1 = true ∧
      halfHourRange.Contains (FindOverlap ninetyMinuteRange halfHourRange).1 = true) ∧
    (morningRange.Overlaps afternoonRange = false ∧
      FindOverlap morningRange afternoonRange = (TimeRange.zero, false)) :=
  ⟨⟨by decide, (FindOverlap_contained_in_both ninetyMinuteRange halfHourRange).1 (by decide)⟩,
    ⟨by decide, (FindOverlap_contained_in_both morningRange afternoonRange).2 (by decide)⟩⟩

/-- C18. Multi-way intersection arity: `FindCommonAvailability` of the empty list is empty, of
a one-element list is that list, and of a list `r1, r2, ..., rn` with `n >= 2` is the left fold
over `r2, ..., rn` that starts from the accumulator `[r1]` and replaces the accumulator, for
each next range `ri`, by the successful `FindOverlap(c, ri)` results over its elements `c`. -/
theorem FindCommonAvailability_arity :
    FindCommonAvailability [] = [] ∧
    (∀ r : TimeRange, FindCommonAvailability [r] = [r]) ∧
    ∀ (r1 r2 : TimeRange) (rest : List TimeRange),
      FindCommonAvailability (r1 :: r2 :: rest) =
        (r2 :: rest).foldl (fun acc ri =>
          acc.filterMap (fun c =>
            if (FindOverlap c ri).2 = true then some (FindOverlap c ri).1 else none)) [r1] := by
  refine ⟨rfl, fun _ => rfl, ?_⟩
  intro r1 r2 rest
  rw [FindCommonAvailability_cons_cons]
  congr 1
  funext acc ri
  exact overlapsWith_eq_filterMap ri acc

/-- C19 as stated fails. For the 30-minute range 09:00-09:30 followed by the 90-minute range
09:00-10:30 and a minimum of 60 minutes, the input ranges of sufficient duration are the
90-minute range alone, but `GetCommonTimeSlots` returns nothing: it filters the overlap
09:00-09:30 of the two ranges, which is too short. -/
theorem duration_filter_not_on_input_ranges :
    halfHourRange.Duration = 30 * Minute ∧ ninetyMinuteRange.Duration = 90 * Minute ∧
    [halfHourRange, ninetyMinuteRange].filter (fun r => decide (r.Duration ≥ 60 * Minute)) =
      [ninetyMinuteRange] ∧
    FindCommonAvailability [halfHourRange, ninetyMinuteRange] = [halfHourRange] ∧
    GetCommonTimeSlots [halfHourRange, ninetyMinuteRange] (60 * Minute) = [] := by
  decide

/-- C19, amended. The duration filter of `GetCommonTimeSlots` (lines 143-148) keeps exactly the
ranges whose duration is at least the minimum, in order and without deduplication, and
`GetCommonTimeSlots` applies it to the ranges found by `FindCommonAvailability`, not to the
input ranges. For an input of at most one range the result is the input filtered by duration;
for an input of two or more ranges of which one is shorter than the minimum, such as a
30-minute range and a 90-minute range with a minimum of 60 minutes, nothing is returned. -/
theorem duration_filter_on_common_ranges (slots : List TimeRange) (d : Duration) :
    validRanges d slots = slots.filter (fun r => decide (r.Duration ≥ d)) ∧
    GetCommonTimeSlots slots d = validRanges d (FindCommonAvailability slots) ∧
    (slots.length ≤ 1 →
      GetCommonTimeSlots slots d = slots.filter (fun r => decide (r.Duration ≥ d))) ∧
    (2 ≤ slots.length → ∀ a ∈ slots, a.Duration < d → GetCommonTimeSlots slots d = []) := by
  refine ⟨validRanges_eq_filter d slots, ?_, ?_, ?_⟩
  · rw [GetCommonTimeSlots_eq, validRanges_eq_filter]
  · intro h
    rw [GetCommonTimeSlots_eq, FindCommonAvailability_of_length_le_one slots h]
  · intro h a ha hd
    exact GetCommonTimeSlots_of_short slots d h a ha hd

/-- Witness of C19, amended: the single 90-minute range passes a 60-minute minimum, and the
30-minute range with the 90-minute range yields nothing. -/
theorem duration_filter_on_common_ranges_witness :
    ([ninetyMinuteRange].length ≤ 1 ∧
      GetCommonTimeSlots [ninetyMinuteRange] (60 * Minute) = [ninetyMinuteRange]) ∧
    (2 ≤ [halfHourRange, ninetyMinuteRange].length ∧
      halfHourRange ∈ [halfHourRange, ninetyMinuteRange] ∧
      halfHourRange.Duration < 60 * Minute ∧
      GetCommonTimeSlots [halfHourRange, ninetyMinuteRange] (60 * Minute) = []) :=
  ⟨⟨by decide,
    ((duration_filter_on_common_ranges [ninetyMinuteRange] (60 * Minute)).2.2.1
      (by decide)).trans (by decide)⟩,
    ⟨by decide, by decide, by decide,
      (duration_filter_on_common_ranges [halfHourRange, ninetyMinuteRange]
        (60 * Minute)).2.2.2 (by decide) halfHourRange (by decide) (by decide)⟩⟩

/-- C20. For every list of ranges and every duration `d`, `GetCommonTimeSlots(slots, d)` is the
list of the ranges `r` of `FindCommonAvailability(slots)` with `r.Duration() >= d`, in the same
order; on the empty input it is empty, and every range it returns has `Duration() >= d`. -/
theorem GetCommonTimeSlots_filters_common_ranges (slots : List TimeRange) (d : Duration) :
    GetCommonTimeSlots slots d =
        (FindCommonAvailability slots).filter (fun r => decide (r.Duration ≥ d)) ∧
    GetCommonTimeSlots [] d = [] ∧
    ∀ r ∈ GetCommonTimeSlots slots d, r.Duration ≥ d := by
  refine ⟨GetCommonTimeSlots_eq slots d, rfl, ?_⟩
  intro r hr
  rw [GetCommonTimeSlots_eq, List.mem_filter] at hr
  exact of_decide_eq_true hr.2

/-! ## `pkg/timeutil`: the shape of the common ranges -/

theorem foldl_overlapsWith_nil (rest : List TimeRange) :
    rest.foldl (fun acc ri => overlapsWith ri acc) [] = [] := by
  induction rest with
  | nil => rfl
  | cons r rest ih => exact ih

theorem overlapsWith_singleton (c r : TimeRange) :
    overlapsWith r [c] =
      if c.Overlaps r = true then
        [⟨⟨max c.Start.unixNano r.Start.unixNano⟩, ⟨min c.End.unixNano r.End.unixNano⟩⟩]
      else [] := by
  by_cases h : c.Overlaps r = true
  · simp only [overlapsWith, FindOverlap_of_overlaps c r h, if_true, h]
  · rw [Bool.not_eq_true] at h
    simp only [overlapsWith, FindOverlap_of_not_overlaps c r h, Bool.false_eq_true, if_false, h]

theorem overlaps_box_iff (c r x : TimeRange) :
    (TimeRange.mk ⟨max c.Start.unixNano r.Start.unixNano⟩
      ⟨min c.End.unixNano r.End.unixNano⟩).Overlaps x = true ↔
      c.Overlaps x = true ∧ r.Overlaps x = true := by
  simp only [overlaps_iff]
  omega

/-- The fold from a one-range accumulator: the range from the latest start to the earliest end
when every two of the ranges overlap, nothing otherwise. -/
theorem foldl_overlapsWith_singleton (c : TimeRange) (rest : List TimeRange) :
    (PairwiseOverlap (c :: rest) →
      rest.foldl (fun acc ri => overlapsWith ri acc) [c] = [commonBox c rest]) ∧
    (¬ PairwiseOverlap (c :: rest) →
      rest.foldl (fun acc ri => overlapsWith ri acc) [c] = []) := by
  induction rest generalizing c with
  | nil =>
    constructor
    · intro _
      rfl
    · intro h
      exact absurd (List.pairwise_singleton _ c) h
  | cons r rest ih =>
    have hiff : c.Overlaps r = true →
        (PairwiseOverlap (⟨⟨max c.Start.unixNano r.Start.unixNano⟩,
            ⟨min c.End.unixNano r.End.unixNano⟩⟩ :: rest) ↔
          PairwiseOverlap (c :: r :: rest)) := by
      intro hcr
      unfold PairwiseOverlap
      simp only [List.pairwise_cons, List.mem_cons, forall_eq_or_imp, overlaps_box_iff]
      constructor
      · rintro ⟨h1, h2⟩
        exact ⟨⟨hcr, fun x hx => (h1 x hx).1⟩, fun x hx => (h1 x hx).2, h2⟩
      · rintro ⟨⟨_, h1⟩, h2, h3⟩
        exact ⟨fun x hx => ⟨h1 x hx, h2 x hx⟩, h3⟩
    rw [List.foldl_cons, overlapsWith_singleton]
    by_cases hcr : c.Overlaps r = true
    · rw [if_pos hcr]
      constructor
      · intro hp
        exact (ih _).1 ((hiff hcr).mpr hp)
      · intro hp
        exact (ih _).2 (fun h => hp ((hiff hcr).mp h))
    · rw [if_neg hcr, foldl_overlapsWith_nil]
      constructor
      · intro hp
        unfold PairwiseOverlap at hp
        rw [List.pairwise_cons] at hp
        exact absurd (hp.1 r (List.mem_cons_self _ _)) hcr
      · intro _
        rfl

/-- The start of the box is the latest start, and the end of the box the earliest end. -/
theorem commonBox_extremal (c : TimeRange) (rest : List TimeRange) :
    ((∃ r ∈ c :: rest, r.Start.unixNano = (commonBox c rest).Start.unixNano) ∧
      ∀ r ∈ c :: rest, r.Start.unixNano ≤ (commonBox c rest).Start.unixNano) ∧
    ((∃ r ∈ c :: rest, r.End.unixNano = (commonBox c rest).End.unixNano) ∧
      ∀ r ∈ c :: rest, (commonBox c rest).End.unixNano ≤ r.End.unixNano) := by
  induction rest generalizing c with
  | nil =>
    refine ⟨⟨⟨c, List.mem_singleton_self c, rfl⟩, ?_⟩, ⟨c, List.mem_singleton_self c, rfl⟩, ?_⟩
    · intro r hr
      rw [List.mem_singleton.mp hr]
      exact le_refl _
    · intro r hr
      rw [List.mem_singleton.mp hr]
      exact le_refl _
  | cons x rest ih =>
    have hstep : commonBox c (x :: rest) =
        commonBox ⟨⟨max c.Start.unixNano x.Start.unixNano⟩,
          ⟨min c.End.unixNano x.End.unixNano⟩⟩ rest := rfl
    rw [hstep]
    obtain ⟨⟨⟨r1, hr1, e1⟩, hs⟩, ⟨r2, hr2, e2⟩, he⟩ :=
      ih ⟨⟨max c.Start.unixNano x.Start.unixNano⟩, ⟨min c.End.unixNano x.End.unixNano⟩⟩
    have hs0 := hs _ (List.mem_cons_self _ _)
    have he0 := he _ (List.mem_cons_self _ _)
    simp only at hs0 he0
    refine ⟨⟨?_, ?_⟩, ?_, ?_⟩
    · rcases List.mem_cons.mp hr1 with rfl | hmem
      · simp only at e1
        by_cases hc : c.Start.unixNano ≤ x.Start.unixNano
        · exact ⟨x, by simp, by rw [← e1, max_eq_right hc]⟩
        · exact ⟨c, by simp, by rw [← e1, max_eq_left (le_of_lt (not_le.mp hc))]⟩
      · exact ⟨r1, by simp [hmem], e1⟩
    · intro r hr
      rcases List.mem_cons.mp hr with rfl | hr
      · omega
      · rcases List.mem_cons.mp hr with rfl | hr
        · omega
        · exact hs r (List.mem_cons_of_mem _ hr)
    · rcases List.mem_cons.mp hr2 with rfl | hmem
      · simp only at e2
        by_cases hc : c.End.unixNano ≤ x.End.unixNano
        · exact ⟨c, by simp, by rw [← e2, min_eq_left hc]⟩
        · exact ⟨x, by simp, by rw [← e2, min_eq_right (le_of_lt (not_le.mp hc))]⟩
      · exact ⟨r2, by simp [hmem], e2⟩
    · intro r hr
      rcases List.mem_cons.mp hr with rfl | hr
      · omega
      · rcases List.mem_cons.mp hr with rfl | hr
        · omega
        · exact he r (List.mem_cons_of_mem _ hr)

/-- The box of a list is determined by a latest start and an earliest end of the list. -/
theorem commonBox_eq (c : TimeRange) (rest : List TimeRange) (S E : Int)
    (hS : (∃ r ∈ c :: rest, r.Start.unixNano = S) ∧ ∀ r ∈ c :: rest, r.Start.unixNano ≤ S)
    (hE : (∃ r ∈ c :: rest, r.End.unixNano = E) ∧ ∀ r ∈ c :: rest, E ≤ r.End.unixNano) :
    commonBox c rest = ⟨⟨S⟩, ⟨E⟩⟩ := by
  obtain ⟨⟨⟨r1, hr1, e1⟩, hs⟩, ⟨r2, hr2, e2⟩, he⟩ := commonBox_extremal c rest
  obtain ⟨⟨r3, hr3, e3⟩, hs'⟩ := hS
  obtain ⟨⟨r4, hr4, e4⟩, he'⟩ := hE
  have h1 := hs r3 hr3
  have h2 := hs' r1 hr1
  have h3 := he r4 hr4
  have h4 := he' r2 hr2
  have hSeq : (commonBox c rest).Start.unixNano = S := by omega
  have hEeq : (commonBox c rest).End.unixNano = E := by omega
  cases hb : commonBox c rest with
  | mk s e =>
    rw [hb] at hSeq hEeq
    cases s
    cases e
    simp only at hSeq hEeq
    rw [hSeq, hEeq]

theorem FindCommonAvailability_cons (c : TimeRange) (rest : List TimeRange) :
    FindCommonAvailability (c :: rest) =
      rest.foldl (fun acc ri => overlapsWith ri acc) [c] := by
  cases rest with
  | nil => rfl
  | cons r rest => exact FindCommonAvailability_cons_cons c r rest

theorem overlaps_symm (a b : TimeRange) (h : a.Overlaps b = true) : b.Overlaps a = true := by
  rw [overlaps_iff] at h ⊢
  exact ⟨h.2, h.1⟩

/-! ## Counting the listed users -/

/-- No user ID is listed twice over the attendees and the non-attendees of a record. -/
theorem listed_nodup (event : Event) (slot : TimeSlot) (availabilities : List Availability)
    (users : List User) (ks : List UUID)
    (hks : ks.Perm (mapKeys (groupAvailabilities availabilities))) :
    (listedIDs (ks.filterMap (attendeeEntry (groupAvailabilities availabilities)
        (buildUserMap users) slot (meetingEndTime event slot)) ++
      ks.filterMap (nonAttendeeEntry (groupAvailabilities availabilities)
        (buildUserMap users) slot (meetingEndTime event slot)))).Nodup := by
  have hnodup : ks.Nodup := hks.nodup_iff.mpr (groupAvailabilities_nodup availabilities)
  rw [List.nodup_iff_count_le_one]
  intro uid
  rw [count_listed]
  split
  · exact List.nodup_iff_count_le_one.mp hnodup uid
  · exact Nat.zero_le 1

/-- The IDs listed over both lists of a record are the IDs with a record that resolve. -/
theorem mem_listed_iff (event : Event) (slot : TimeSlot) (availabilities : List Availability)
    (users : List User) (ks : List UUID)
    (hks : ks.Perm (mapKeys (groupAvailabilities availabilities))) (uid : UUID) :
    uid ∈ listedIDs (ks.filterMap (attendeeEntry (groupAvailabilities availabilities)
        (buildUserMap users) slot (meetingEndTime event slot)) ++
      ks.filterMap (nonAttendeeEntry (groupAvailabilities availabilities)
        (buildUserMap users) slot (meetingEndTime event slot))) ↔
      HasAvailability availabilities uid ∧ Resolves users uid := by
  have hsplit : ∀ l1 l2 : List UserResponse,
      uid ∈ listedIDs (l1 ++ l2) ↔ uid ∈ listedIDs l1 ∨ uid ∈ listedIDs l2 := by
    intro l1 l2
    unfold listedIDs
    rw [List.map_append, List.mem_append]
  rw [hsplit, mem_attendees_iff event slot availabilities users ks hks uid,
    mem_nonAttendees_iff event slot availabilities users ks hks uid]
  constructor
  · rintro (⟨hres, a, ha, hu, _⟩ | ⟨hav, hres, _⟩)
    · exact ⟨⟨a, ha, hu⟩, hres⟩
    · exact ⟨hav, hres⟩
  · rintro ⟨hav, hres⟩
    by_cases hc : ∃ a ∈ availabilities, a.UserID = uid ∧ Covers event slot a
    · exact Or.inl ⟨hres, hc⟩
    · exact Or.inr ⟨hav, hres, hc⟩

/-- The two lists of a record hold as many entries as there are resolved users with a
record. -/
theorem listed_length (event : Event) (slot : TimeSlot) (availabilities : List Availability)
    (users : List User) (ks : List UUID)
    (hks : ks.Perm (mapKeys (groupAvailabilities availabilities))) :
    (ks.filterMap (attendeeEntry (groupAvailabilities availabilities)
        (buildUserMap users) slot (meetingEndTime event slot))).length +
      (ks.filterMap (nonAttendeeEntry (groupAvailabilities availabilities)
        (buildUserMap users) slot (meetingEndTime event slot))).length =
      resolvedUserCount availabilities users := by
  have hperm := (List.perm_ext_iff_of_nodup
    (listed_nodup event slot availabilities users ks hks)
    ((List.nodup_dedup (availabilities.map (fun a => a.UserID))).filter
      (fun uid => decide (Resolves users uid)))).mpr (fun uid => by
        rw [mem_listed_iff event slot availabilities users ks hks uid, List.mem_filter,
          List.mem_dedup, List.mem_map, decide_eq_true_eq]
        rfl)
  have hlen := hperm.length_eq
  unfold listedIDs at hlen
  rw [List.length_map, List.length_append] at hlen
  exact hlen

theorem covers_eq_Contains (slot : TimeSlot) (meetingEnd : Time) (avail : Availability) :
    covers slot meetingEnd avail =
      (availabilityRange avail).Contains ⟨slot.StartTime, meetingEnd⟩ := by
  rw [Bool.eq_iff_iff, covers_iff, contains_iff]
  rfl

theorem Covers_iff_Contains (event : Event) (slot : TimeSlot) (avail : Availability) :
    Covers event slot avail ↔
      (availabilityRange avail).Contains (meetingRange event slot) = true := by
  rw [contains_iff]
  rfl

/-! ## The services: range validation and the availability lookup -/

theorem range_check_iff (startTime endTime : Time) :
    (endTime.Before startTime || endTime.Equal startTime) = true ↔
      endTime.unixNano ≤ startTime.unixNano := by
  rw [Bool.or_eq_true, before_iff, equal_iff]
  omega

/-- The outcome of handing an entity to a repository write. -/
theorem validatesRange_of_write {α : Type} (startTime endTime : Time)
    (write : α → α × Option Error) (x : α) (call : WriteCall) (keepsTimes : Prop)
    (startOf endOf : α → Time) (out : Outcome α)
    (hinvalid : endTime.unixNano ≤ startTime.unixNano →
      out = ⟨none, some Error.ErrInvalidTimeRange, []⟩)
    (hfailed : startTime.unixNano < endTime.unixNano → ∀ stored err,
      write x = (stored, some err) → out = ⟨none, some err, [call]⟩)
    (hstored : startTime.unixNano < endTime.unixNano → ∀ stored,
      write x = (stored, none) → out = ⟨some stored, none, [call]⟩)
    (hkeeps : keepsTimes → startTime.unixNano < endTime.unixNano →
      (startOf (write x).1).unixNano < (endOf (write x).1).unixNano) :
    ValidatesRange startTime endTime (ReportsOwnErrors write) keepsTimes startOf endOf out := by
  by_cases hle : endTime.unixNano ≤ startTime.unixNano
  · have hout := hinvalid hle
    subst hout
    refine ⟨⟨fun _ => hle, fun _ => ⟨rfl, rfl, rfl⟩⟩, fun _ => ⟨fun _ => hle, fun _ => ⟨rfl, rfl⟩⟩,
      ?_⟩
    intro y hy
    exact absurd hy (by simp)
  · have hlt : startTime.unixNano < endTime.unixNano := not_le.mp hle
    have hk := hkeeps
    cases hw : write x with
    | mk stored e =>
      rw [hw] at hk
      cases e with
      | some err =>
        have hout := hfailed hlt stored err hw
        subst hout
        refine ⟨⟨fun h => absurd h.2.2 (by simp), fun h => absurd h hle⟩, ?_, ?_⟩
        · intro hown
          have hne : err ≠ Error.ErrInvalidTimeRange := fun h =>
            hown x (by rw [hw, h])
          exact ⟨fun h => absurd (Option.some.inj h.2) hne, fun h => absurd h hle⟩
        · intro y hy
          exact absurd hy (by simp)
      | none =>
        have hout := hstored hlt stored hw
        subst hout
        refine ⟨⟨fun h => absurd h.1 (by simp), fun h => absurd h hle⟩, ?_, ?_⟩
        · intro _
          exact ⟨fun h => absurd h.1 (by simp), fun h => absurd h hle⟩
        · intro y hy
          have hy' : stored = y := Option.some.inj hy
          subst hy'
          exact ⟨rfl, hlt, rfl, fun hkt => hk hkt hlt⟩

theorem CreateTimeSlot_validates (parse : String → Except Error Time) (now : Time)
    (s : TimeSlotService) (eventID : UUID) (req : TimeSlotRequest) (event : Event)
    (startTime endTime : Time) (hevent : s.eventRepo.GetByID eventID = .ok event)
    (hstart : parse req.StartTime = .ok startTime) (hend : parse req.EndTime = .ok endTime) :
    ValidatesRange startTime endTime (ReportsOwnErrors s.timeslotRepo.Create)
      (KeepsSlotTimes s.timeslotRepo.Create) TimeSlot.StartTime TimeSlot.EndTime
      (CreateTimeSlot parse now s eventID req) := by
  apply validatesRange_of_write startTime endTime s.timeslotRepo.Create
    ⟨uuidNil, eventID, startTime, endTime, now, now⟩
    (WriteCall.createTimeSlot ⟨uuidNil, eventID, startTime, endTime, now, now⟩)
  · intro hle
    unfold CreateTimeSlot
    simp only [hevent, hstart, hend, (range_check_iff startTime endTime).mpr hle, if_true]
  · intro hlt stored err hw
    have hno : ¬ (endTime.Before startTime || endTime.Equal startTime) = true := fun h =>
      absurd ((range_check_iff startTime endTime).mp h) (not_le.mpr hlt)
    unfold CreateTimeSlot
    simp only [hevent, hstart, hend]
    rw [if_neg hno]
    simp only [hw]
  · intro hlt stored hw
    have hno : ¬ (endTime.Before startTime || endTime.Equal startTime) = true := fun h =>
      absurd ((range_check_iff startTime endTime).mp h) (not_le.mpr hlt)
    unfold CreateTimeSlot
    simp only [hevent, hstart, hend]
    rw [if_neg hno]
    simp only [hw]
  · intro hkeeps hlt
    have h := hkeeps ⟨uuidNil, eventID, startTime, endTime, now, now⟩
    rw [h.1, h.2]
    exact hlt

theorem UpdateTimeSlot_validates (parse : String → Except Error Time) (now : Time)
    (s : TimeSlotService) (id : UUID) (req : TimeSlotRequest) (slot : TimeSlot)
    (startTime endTime : Time) (hslot : s.timeslotRepo.GetByID id = .ok slot)
    (hstart : parse req.StartTime = .ok startTime) (hend : parse req.EndTime = .ok endTime) :
    ValidatesRange startTime endTime (ReportsOwnErrors s.timeslotRepo.Update)
      (KeepsSlotTimes s.timeslotRepo.Update) TimeSlot.StartTime TimeSlot.EndTime
      (UpdateTimeSlot parse now s id req) := by
  apply validatesRange_of_write startTime endTime s.timeslotRepo.Update
    { slot with StartTime := startTime, EndTime := endTime, UpdatedAt := now }
    (WriteCall.updateTimeSlot
      { slot with StartTime := startTime, EndTime := endTime, UpdatedAt := now })
  · intro hle
    unfold UpdateTimeSlot
    simp only [hslot, hstart, hend, (range_check_iff startTime endTime).mpr hle, if_true]
  · intro hlt stored err hw
    have hno : ¬ (endTime.Before startTime || endTime.Equal startTime) = true := fun h =>
      absurd ((range_check_iff startTime endTime).mp h) (not_le.mpr hlt)
    unfold UpdateTimeSlot
    simp only [hslot, hstart, hend]
    rw [if_neg hno]
    simp only [hw]
  · intro hlt stored hw
    have hno : ¬ (endTime.Before startTime || endTime.Equal startTime) = true := fun h =>
      absurd ((range_check_iff startTime endTime).mp h) (not_le.mpr hlt)
    unfold UpdateTimeSlot
    simp only [hslot, hstart, hend]
    rw [if_neg hno]
    simp only [hw]
  · intro hkeeps hlt
    have h := hkeeps { slot with StartTime := startTime, EndTime := endTime, UpdatedAt := now }
    rw [h.1, h.2]
    exact hlt

theorem CreateAvailability_validates (parse : String → Except Error Time) (now : Time)
    (s : AvailabilityService) (eventID : UUID) (req : AvailabilityRequest) (event : Event)
    (user : User) (startTime endTime : Time)
    (hevent : s.eventRepo.GetByID eventID = .ok event)
    (huser : s.userRepo.GetByID req.UserID = .ok user)
    (hstart : parse req.StartTime = .ok startTime) (hend : parse req.EndTime = .ok endTime) :
    ValidatesRange startTime endTime (ReportsOwnErrors s.availabilityRepo.Create)
      (KeepsAvailabilityTimes s.availabilityRepo.Create) Availability.StartTime
      Availability.EndTime (CreateAvailability parse now s eventID req) := by
  apply validatesRange_of_write startTime endTime s.availabilityRepo.Create
    ⟨uuidNil, req.UserID, eventID, startTime, endTime, now, now⟩
    (WriteCall.createAvailability ⟨uuidNil, req.UserID, eventID, startTime, endTime, now, now⟩)
  · intro hle
    unfold CreateAvailability
    simp only [hevent, huser, hstart, hend, (range_check_iff startTime endTime).mpr hle,
      if_true]
  · intro hlt stored err hw
    have hno : ¬ (endTime.Before startTime || endTime.Equal startTime) = true := fun h =>
      absurd ((range_check_iff startTime endTime).mp h) (not_le.mpr hlt)
    unfold CreateAvailability
    simp only [hevent, huser, hstart, hend]
    rw [if_neg hno]
    simp only [hw]
  · intro hlt stored hw
    have hno : ¬ (endTime.Before startTime || endTime.Equal startTime) = true := fun h =>
      absurd ((range_check_iff startTime endTime).mp h) (not_le.mpr hlt)
    unfold CreateAvailability
    simp only [hevent, huser, hstart, hend]
    rw [if_neg hno]
    simp only [hw]
  · intro hkeeps hlt
    have h := hkeeps ⟨uuidNil, req.UserID, eventID, startTime, endTime, now, now⟩
    rw [h.1, h.2]
    exact hlt

/-- The outcome of `UpdateAvailability` once the lookup has returned a first record and the
two time strings have parsed. -/
theorem UpdateAvailability_of_records (parse : String → Except Error Time) (now : Time)
    (s : AvailabilityService) (id : UUID) (req : AvailabilityRequest) (first : Availability)
    (rest : List Availability) (startTime endTime : Time)
    (hget : s.availabilityRepo.GetByUserAndEvent req.UserID id = .ok (first :: rest))
    (hstart : parse req.StartTime = .ok startTime) (hend : parse req.EndTime = .ok endTime) :
    UpdateAvailability parse now s id req =
      if endTime.Before startTime || endTime.Equal startTime then
        ⟨none, some Error.ErrInvalidTimeRange, []⟩
      else
        match s.availabilityRepo.Update
          { first with StartTime := startTime, EndTime := endTime, UpdatedAt := now } with
        | (_, some err) => ⟨none, some err, [WriteCall.updateAvailability
            { first with StartTime := startTime, EndTime := endTime, UpdatedAt := now }]⟩
        | (stored, none) => ⟨some stored, none, [WriteCall.updateAvailability
            { first with StartTime := startTime, EndTime := endTime, UpdatedAt := now }]⟩ := by
  unfold UpdateAvailability
  simp only [hget, hstart, hend]
  rw [dif_neg (by simp)]
  rfl

theorem UpdateAvailability_validates (parse : String → Except Error Time) (now : Time)
    (s : AvailabilityService) (id : UUID) (req : AvailabilityRequest) (first : Availability)
    (rest : List Availability) (startTime endTime : Time)
    (hget : s.availabilityRepo.GetByUserAndEvent req.UserID id = .ok (first :: rest))
    (hstart : parse req.StartTime = .ok startTime) (hend : parse req.EndTime = .ok endTime) :
    ValidatesRange startTime endTime (ReportsOwnErrors s.availabilityRepo.Update)
      (KeepsAvailabilityTimes s.availabilityRepo.Update) Availability.StartTime
      Availability.EndTime (UpdateAvailability parse now s id req) := by
  rw [UpdateAvailability_of_records parse now s id req first rest startTime endTime hget hstart
    hend]
  apply validatesRange_of_write startTime endTime s.availabilityRepo.Update
    { first with StartTime := startTime, EndTime := endTime, UpdatedAt := now }
    (WriteCall.updateAvailability
      { first with StartTime := startTime, EndTime := endTime, UpdatedAt := now })
  · intro hle
    rw [if_pos ((range_check_iff startTime endTime).mpr hle)]
  · intro hlt stored err hw
    rw [if_neg (fun h =>
      absurd ((range_check_iff startTime endTime).mp h) (not_le.mpr hlt))]
    simp only [hw]
  · intro hlt stored hw
    rw [if_neg (fun h =>
      absurd ((range_check_iff startTime endTime).mp h) (not_le.mpr hlt))]
    simp only [hw]
  · intro hkeeps hlt
    have h := hkeeps { first with StartTime := startTime, EndTime := endTime, UpdatedAt := now }
    rw [h.1, h.2]
    exact hlt

/-! ## The claims about durations and common ranges -/

/-- C21 as stated fails. The range from the zero time (January 1 of year 1) to
2025-01-15T10:00:00Z spans 63,872,532,000 seconds, more than a `time.Duration` holds:
`Duration()` returns the largest duration, not the difference of the two instants. -/
theorem Duration_saturates_two_millennia :
    twoMillenniaRange.End.unixNano - twoMillenniaRange.Start.unixNano =
      63872532000000000000 ∧
    twoMillenniaRange.Duration = 9223372036854775807 ∧
    twoMillenniaRange.Duration ≠
      twoMillenniaRange.End.unixNano - twoMillenniaRange.Start.unixNano := by
  decide

/-- C21, amended. For every time range whose `end - start` fits a `time.Duration` (a signed
64-bit count of nanoseconds, about 292 years either way), `Duration()` is exactly
`end - start`; for instants further apart it is the largest duration, or the smallest when
the end comes first. In every case it is zero when the end equals the start and negative when
the end is before the start. -/
theorem Duration_exact_when_representable (a : TimeRange) :
    (minDuration ≤ a.End.unixNano - a.Start.unixNano →
      a.End.unixNano - a.Start.unixNano ≤ maxDuration →
      a.Duration = a.End.unixNano - a.Start.unixNano) ∧
    (maxDuration < a.End.unixNano - a.Start.unixNano → a.Duration = maxDuration) ∧
    (a.End.unixNano - a.Start.unixNano < minDuration → a.Duration = minDuration) ∧
    (a.End.unixNano = a.Start.unixNano → a.Duration = 0) ∧
    (a.End.unixNano < a.Start.unixNano → a.Duration < 0) := by
  refine ⟨Sub_of_fits a.End a.Start, Sub_of_above a.End a.Start, Sub_of_below a.End a.Start,
    ?_, ?_⟩
  · intro h
    have h0 : a.End.unixNano - a.Start.unixNano = 0 := by omega
    unfold TimeRange.Duration
    rw [Sub_of_fits a.End a.Start (by rw [h0]; decide) (by rw [h0]; decide), h0]
  · intro h
    unfold TimeRange.Duration
    have hle : a.End.Sub a.Start ≤ -1 := Sub_le_of_le a.End a.Start (-1) (by decide) (by omega)
    exact lt_of_le_of_lt hle (by decide)

/-- Witness of C21, amended: 09:00-09:30 lasts 30 minutes, the reversed range lasts minus 30
minutes, an empty range lasts nothing, and the range from the zero time to 2025 is reported
with the largest duration. -/
theorem Duration_exact_when_representable_witness :
    halfHourRange.Duration = 30 * Minute ∧
    (TimeRange.mk (minute 570) (minute 540)).Duration = -(30 * Minute) ∧
    (TimeRange.mk (minute 570) (minute 570)).Duration = 0 ∧
    (TimeRange.mk (minute 570) (minute 540)).Duration < 0 ∧
    twoMillenniaRange.Duration = maxDuration ∧
    (TimeRange.mk date2025 Time.zero).Duration = minDuration :=
  ⟨((Duration_exact_when_representable halfHourRange).1 (by decide) (by decide)).trans
      (by decide),
    ((Duration_exact_when_representable ⟨minute 570, minute 540⟩).1 (by decide)
      (by decide)).trans (by decide),
    (Duration_exact_when_representable ⟨minute 570, minute 570⟩).2.2.2.1 (by decide),
    (Duration_exact_when_representable ⟨minute 570, minute 540⟩).2.2.2.2 (by decide),
    (Duration_exact_when_representable twoMillenniaRange).2.1 (by decide),
    (Duration_exact_when_representable ⟨date2025, Time.zero⟩).2.2.1 (by decide)⟩

/-- C26. For every list of ranges that each start no later than they end, with `S` the latest
of the starts and `E` the earliest of the ends (so the list is not empty),
`FindCommonAvailability` returns the single range from `S` to `E` when `S <= E`, and the empty
list otherwise. -/
theorem FindCommonAvailability_latest_start_earliest_end (slots : List TimeRange) (S E : Int)
    (hwf : ∀ r ∈ slots, r.Start.unixNano ≤ r.End.unixNano)
    (hS : (∃ r ∈ slots, r.Start.unixNano = S) ∧ ∀ r ∈ slots, r.Start.unixNano ≤ S)
    (hE : (∃ r ∈ slots, r.End.unixNano = E) ∧ ∀ r ∈ slots, E ≤ r.End.unixNano) :
    (S ≤ E → FindCommonAvailability slots = [⟨⟨S⟩, ⟨E⟩⟩]) ∧
    (E < S → FindCommonAvailability slots = []) := by
  cases slots with
  | nil =>
    obtain ⟨⟨r, hr, _⟩, _⟩ := hS
    exact absurd hr (List.not_mem_nil r)
  | cons c rest =>
    rw [FindCommonAvailability_cons]
    have hbox := commonBox_eq c rest S E hS hE
    obtain ⟨⟨r1, hr1, e1⟩, hs⟩ := hS
    obtain ⟨⟨r2, hr2, e2⟩, he⟩ := hE
    constructor
    · intro hle
      rw [← hbox]
      apply (foldl_overlapsWith_singleton c rest).1
      apply List.pairwise_of_forall_mem_list
      intro a ha b hb
      rw [overlaps_iff]
      have := hs a ha
      have := hs b hb
      have := he a ha
      have := he b hb
      constructor <;> omega
    · intro hlt
      apply (foldl_overlapsWith_singleton c rest).2
      intro hp
      have hall := List.Pairwise.forall_of_forall (fun x y h => overlaps_symm x y h)
        (fun x hx => (overlaps_iff x x).mpr ⟨hwf x hx, hwf x hx⟩) hp
      have h12 := (overlaps_iff r1 r2).mp (hall hr1 hr2)
      omega

/-- Witness of C26: 09:00-10:30, 09:00-09:30 and 09:15-11:00 have 09:15-09:30 in common. -/
theorem FindCommonAvailability_latest_start_earliest_end_witness :
    (∀ r ∈ [ninetyMinuteRange, halfHourRange, ⟨minute 555, minute 660⟩],
      r.Start.unixNano ≤ r.End.unixNano) ∧
    FindCommonAvailability [ninetyMinuteRange, halfHourRange, ⟨minute 555, minute 660⟩] =
      [⟨minute 555, minute 570⟩] :=
  ⟨by decide,
    (FindCommonAvailability_latest_start_earliest_end
      [ninetyMinuteRange, halfHourRange, ⟨minute 555, minute 660⟩]
      (minute 555).unixNano (minute 570).unixNano (by decide)
      ⟨⟨⟨minute 555, minute 660⟩, by decide, rfl⟩, by decide⟩
      ⟨⟨halfHourRange, by decide, rfl⟩, by decide⟩).1 (by decide)⟩

/-- C27. `FindCommonAvailability` is independent of the order of its input: for every list of
ranges, ranges that end before they start included, and every rearrangement of the list, the
two results are the same list, so they contain the same ranges. -/
theorem FindCommonAvailability_order_independent (l l' : List TimeRange) (h : l'.Perm l) :
    FindCommonAvailability l' = FindCommonAvailability l ∧
    ∀ r, r ∈ FindCommonAvailability l' ↔ r ∈ FindCommonAvailability l := by
  have heq : FindCommonAvailability l' = FindCommonAvailability l := by
    cases l with
    | nil => rw [List.Perm.eq_nil h]
    | cons c rest =>
      cases l' with
      | nil => exact absurd (List.Perm.eq_nil h.symm) (List.cons_ne_nil c rest)
      | cons c' rest' =>
        rw [FindCommonAvailability_cons, FindCommonAvailability_cons]
        have hpw : PairwiseOverlap (c' :: rest') ↔ PairwiseOverlap (c :: rest) :=
          h.pairwise_iff (fun {x y} hxy => overlaps_symm x y hxy)
        by_cases hp : PairwiseOverlap (c :: rest)
        · rw [(foldl_overlapsWith_singleton c rest).1 hp,
            (foldl_overlapsWith_singleton c' rest').1 (hpw.mpr hp)]
          obtain ⟨⟨⟨r1, hr1, e1⟩, hs⟩, ⟨r2, hr2, e2⟩, he⟩ := commonBox_extremal c rest
          rw [commonBox_eq c' rest' _ _
            ⟨⟨r1, h.mem_iff.mpr hr1, e1⟩, fun r hr => hs r (h.mem_iff.mp hr)⟩
            ⟨⟨r2, h.mem_iff.mpr hr2, e2⟩, fun r hr => he r (h.mem_iff.mp hr)⟩]
        · rw [(foldl_overlapsWith_singleton c rest).2 hp,
            (foldl_overlapsWith_singleton c' rest').2 (fun hh => hp (hpw.mp hh))]
  exact ⟨heq, fun r => by rw [heq]⟩

/-- Witness of C27 on 09:00-10:30, 09:00-09:30 and the reversed range 09:20-09:10, taken in
two orders: both results are the reversed range 09:20-09:10. -/
theorem FindCommonAvailability_order_independent_witness :
    [⟨minute 560, minute 550⟩, ninetyMinuteRange, halfHourRange].Perm
      [ninetyMinuteRange, halfHourRange, ⟨minute 560, minute 550⟩] ∧
    FindCommonAvailability [ninetyMinuteRange, halfHourRange, ⟨minute 560, minute 550⟩] =
      [⟨minute 560, minute 550⟩] ∧
    FindCommonAvailability [⟨minute 560, minute 550⟩, ninetyMinuteRange, halfHourRange] =
      FindCommonAvailability [ninetyMinuteRange, halfHourRange, ⟨minute 560, minute 550⟩] :=
  ⟨by decide, by decide,
    (FindCommonAvailability_order_independent
      [ninetyMinuteRange, halfHourRange, ⟨minute 560, minute 550⟩]
      [⟨minute 560, minute 550⟩, ninetyMinuteRange, halfHourRange] (by decide)).1⟩

/-- C28. For every input list `FindCommonAvailability` returns at most one range, and so does
`GetCommonTimeSlots`; and when the result is empty for a list of two or more ranges, it is
empty for every list that extends it. -/
theorem FindCommonAvailability_at_most_one (slots : List TimeRange) (d : Duration) :
    (FindCommonAvailability slots).length ≤ 1 ∧
    (GetCommonTimeSlots slots d).length ≤ 1 ∧
    ∀ ext : List TimeRange, 2 ≤ slots.length → FindCommonAvailability slots = [] →
      FindCommonAvailability (slots ++ ext) = [] := by
  have hlen : (FindCommonAvailability slots).length ≤ 1 := by
    cases slots with
    | nil => exact Nat.zero_le 1
    | cons c rest =>
      rw [FindCommonAvailability_cons]
      by_cases hp : PairwiseOverlap (c :: rest)
      · rw [(foldl_overlapsWith_singleton c rest).1 hp]
        exact le_refl 1
      · rw [(foldl_overlapsWith_singleton c rest).2 hp]
        exact Nat.zero_le 1
  refine ⟨hlen, ?_, ?_⟩
  · rw [GetCommonTimeSlots_eq]
    exact le_trans (List.length_filter_le _ _) hlen
  · intro ext h2 hnil
    match slots, h2 with
    | c :: r :: rest, _ =>
      rw [FindCommonAvailability_cons] at hnil
      rw [List.cons_append, FindCommonAvailability_cons, List.foldl_append, hnil,
        foldl_overlapsWith_nil]

/-- Witness of C28: 09:00-10:00 and 13:00-14:00 have nothing in common, and adding
09:00-10:30 changes nothing. -/
theorem FindCommonAvailability_at_most_one_witness :
    2 ≤ [morningRange, afternoonRange].length ∧
    FindCommonAvailability [morningRange, afternoonRange] = [] ∧
    FindCommonAvailability ([morningRange, afternoonRange] ++ [ninetyMinuteRange]) = [] :=
  ⟨by decide, by decide,
    (FindCommonAvailability_at_most_one [morningRange, afternoonRange] 0).2.2
      [ninetyMinuteRange] (by decide) (by decide)⟩

/-! ## The claims about attendance as containment, the listed total and monotonicity -/

/-- C24. The inline attendance test of lines 120-121 equals `Contains` of the interval
functions: for every availability record, slot and meeting end, the inline condition is
`TimeRange{avail.start, avail.end}.Contains(TimeRange{slot.start, meetingEnd})`; hence, with
the fetches successful, a resolved user with a record is an attendee of a fitting slot if and
only if the range of one of the user's records contains the meeting range. -/
theorem inline_test_is_Contains (sortSlice : Sorter) (hs : SortSliceSpec sortSlice)
    (order : MapOrder) (s : RecommendationService) (eventID : UUID) (event : Event)
    (timeSlots : List TimeSlot) (availabilities : List Availability) (users : List User)
    (hf : Fetches order s eventID event timeSlots availabilities users) :
    (∀ (avail : Availability) (slot : TimeSlot) (meetingEnd : Time),
      covers slot meetingEnd avail =
        (TimeRange.mk avail.StartTime avail.EndTime).Contains ⟨slot.StartTime, meetingEnd⟩) ∧
    ∃ recs, GetRecommendations sortSlice order s eventID = (some ⟨recs⟩, none) ∧
      ∀ slot ∈ timeSlots, Fits event slot →
        (∃ r ∈ recs, r.TimeSlot = slotTriple event slot) ∧
        ∀ r ∈ recs, r.TimeSlot = slotTriple event slot →
          ∀ uid, HasAvailability availabilities uid → Resolves users uid →
            (uid ∈ listedIDs r.Attendees ↔
              ∃ a ∈ availabilities, a.UserID = uid ∧
                (availabilityRange a).Contains (meetingRange event slot) = true) := by
  refine ⟨fun avail slot meetingEnd => covers_eq_Contains slot meetingEnd avail, _,
    GetRecommendations_of_fetches sortSlice hs order s eventID event timeSlots
      availabilities users hf, ?_⟩
  intro slot hslot hfit
  constructor
  · obtain ⟨r, hr, ht⟩ := slotLoop_has_record order event (groupAvailabilities availabilities)
      (buildUserMap users) 1 timeSlots slot hslot hfit
    exact ⟨r, (mem_computeRecommendations sortSlice hs _ _ _ _ _ r).mpr hr, ht⟩
  · intro r hr ht uid _ hres
    rw [mem_computeRecommendations sortSlice hs] at hr
    obtain ⟨slot', _, ks, _, ht', hks, hatt, _, _⟩ :=
      slotLoop_record order event availabilities users 1 timeSlots r hr
    have hcong := covers_congr event slot slot' (ht'.symm.trans ht)
    rw [hatt, mem_attendees_iff event slot' availabilities users ks hks uid]
    constructor
    · rintro ⟨_, a, ha, hu, hc⟩
      exact ⟨a, ha, hu, (Covers_iff_Contains event slot a).mp ((hcong a).mp hc)⟩
    · rintro ⟨a, ha, hu, hc⟩
      exact ⟨hres, a, ha, hu, (hcong a).mpr ((Covers_iff_Contains event slot a).mpr hc)⟩

/-- Witness of C24 on the scenario of the repository's test. -/
theorem inline_test_is_Contains_witness :
    SortSliceSpec Slice ∧
    Fetches MapOrder.insertion testService 1 testEvent testTimeSlots testAvailability
      testUsers ∧
    (∀ (avail : Availability) (slot : TimeSlot) (meetingEnd : Time),
      covers slot meetingEnd avail =
        (TimeRange.mk avail.StartTime avail.EndTime).Contains ⟨slot.StartTime, meetingEnd⟩) ∧
    ∃ recs, GetRecommendations Slice MapOrder.insertion testService 1 =
        (some ⟨recs⟩, none) ∧
      ∀ slot ∈ testTimeSlots, Fits testEvent slot →
        (∃ r ∈ recs, r.TimeSlot = slotTriple testEvent slot) ∧
        ∀ r ∈ recs, r.TimeSlot = slotTriple testEvent slot →
          ∀ uid, HasAvailability testAvailability uid → Resolves testUsers uid →
            (uid ∈ listedIDs r.Attendees ↔
              ∃ a ∈ testAvailability, a.UserID = uid ∧
                (availabilityRange a).Contains (meetingRange testEvent slot) = true) :=
  ⟨Slice_spec, fetches_fixedService _ _ _ _ _ _,
    inline_test_is_Contains Slice Slice_spec MapOrder.insertion
      testService 1 testEvent testTimeSlots testAvailability testUsers
      (fetches_fixedService _ _ _ _ _ _)⟩

/-- C29. With the fetches successful, in every recommendation of the response the number of
attendees plus the number of non-attendees is the number of distinct user IDs that occur in
the availability list and resolve in the user directory; the total is therefore the same for
all recommendations of the response, and the score lies between 0 and that number. -/
theorem listed_total_is_resolved_user_count (sortSlice : Sorter)
    (hs : SortSliceSpec sortSlice) (order : MapOrder) (s : RecommendationService)
    (eventID : UUID) (event : Event) (timeSlots : List TimeSlot)
    (availabilities : List Availability) (users : List User)
    (hf : Fetches order s eventID event timeSlots availabilities users) :
    ∃ recs, GetRecommendations sortSlice order s eventID = (some ⟨recs⟩, none) ∧
      (∀ r ∈ recs,
        r.Attendees.length + r.NonAttendees.length =
            resolvedUserCount availabilities users ∧
          0 ≤ r.Score ∧ r.Score ≤ (resolvedUserCount availabilities users : Int)) ∧
      ∀ r ∈ recs, ∀ r' ∈ recs,
        r.Attendees.length + r.NonAttendees.length =
          r'.Attendees.length + r'.NonAttendees.length := by
  have hall : ∀ r ∈ computeRecommendations sortSlice order event timeSlots availabilities
      users,
      r.Attendees.length + r.NonAttendees.length =
          resolvedUserCount availabilities users ∧
        0 ≤ r.Score ∧ r.Score ≤ (resolvedUserCount availabilities users : Int) := by
    intro r hr
    rw [mem_computeRecommendations sortSlice hs] at hr
    obtain ⟨slot, _, ks, _, _, hks, hatt, hnon, hscore⟩ :=
      slotLoop_record order event availabilities users 1 timeSlots r hr
    have hlen := listed_length event slot availabilities users ks hks
    rw [← hatt, ← hnon] at hlen
    refine ⟨hlen, ?_, ?_⟩
    · rw [hscore]
      exact Int.ofNat_nonneg _
    · rw [hscore, ← hlen]
      exact Int.ofNat_le.mpr (Nat.le_add_right _ _)
  refine ⟨_, GetRecommendations_of_fetches sortSlice hs order s eventID event timeSlots
    availabilities users hf, hall, ?_⟩
  intro r hr r' hr'
  rw [(hall r hr).1, (hall r' hr').1]

/-- Witness of C29 on the scenario with the record of the unresolved user 7: three distinct
user IDs have records, two of them resolve. -/
theorem listed_total_is_resolved_user_count_witness :
    SortSliceSpec Slice ∧
    Fetches MapOrder.insertion
      (fixedService testEvent testTimeSlots orphanAvailability testUsers) 1 testEvent
      testTimeSlots orphanAvailability testUsers ∧
    resolvedUserCount orphanAvailability testUsers = 2 ∧
    ∃ recs, GetRecommendations Slice MapOrder.insertion
        (fixedService testEvent testTimeSlots orphanAvailability testUsers) 1 =
          (some ⟨recs⟩, none) ∧
      (∀ r ∈ recs,
        r.Attendees.length + r.NonAttendees.length =
            resolvedUserCount orphanAvailability testUsers ∧
          0 ≤ r.Score ∧ r.Score ≤ (resolvedUserCount orphanAvailability testUsers : Int)) ∧
      ∀ r ∈ recs, ∀ r' ∈ recs,
        r.Attendees.length + r.NonAttendees.length =
          r'.Attendees.length + r'.NonAttendees.length :=
  ⟨Slice_spec, fetches_fixedService _ _ _ _ _ _, by decide,
    listed_total_is_resolved_user_count Slice Slice_spec MapOrder.insertion
      (fixedService testEvent testTimeSlots orphanAvailability testUsers) 1 testEvent
      testTimeSlots orphanAvailability testUsers (fetches_fixedService _ _ _ _ _ _)⟩

/-- C30. Monotonicity of the score: for one event, slot list and user directory, when the
availability list of a second run is that of a first run plus one record, every fitting
slot's score in the second run is at least its score in the first, and every attendee of the
slot in the first run is an attendee of it in the second. -/
theorem score_monotone_in_availability (sortSlice : Sorter) (hs : SortSliceSpec sortSlice)
    (order order' : MapOrder) (s s' : RecommendationService) (eventID : UUID) (event : Event)
    (timeSlots : List TimeSlot) (availabilities availabilities' : List Availability)
    (extra : Availability) (users users' : List User)
    (hf : Fetches order s eventID event timeSlots availabilities users)
    (hf' : Fetches order' s' eventID event timeSlots availabilities' users')
    (hplus : availabilities'.Perm (extra :: availabilities))
    (hdir : ∀ uid, Resolves users uid → Resolves users' uid) :
    ∃ recs recs', GetRecommendations sortSlice order s eventID = (some ⟨recs⟩, none) ∧
      GetRecommendations sortSlice order' s' eventID = (some ⟨recs'⟩, none) ∧
      ∀ slot ∈ timeSlots, Fits event slot →
        (∃ r ∈ recs, r.TimeSlot = slotTriple event slot) ∧
        (∃ r' ∈ recs', r'.TimeSlot = slotTriple event slot) ∧
        ∀ r ∈ recs, r.TimeSlot = slotTriple event slot →
          ∀ r' ∈ recs', r'.TimeSlot = slotTriple event slot →
            r.Score ≤ r'.Score ∧
            ∀ uid, uid ∈ listedIDs r.Attendees → uid ∈ listedIDs r'.Attendees := by
  refine ⟨_, _, GetRecommendations_of_fetches sortSlice hs order s eventID event timeSlots
    availabilities users hf, GetRecommendations_of_fetches sortSlice hs order' s' eventID event
    timeSlots availabilities' users' hf', ?_⟩
  intro slot hslot hfit
  refine ⟨?_, ?_, ?_⟩
  · obtain ⟨r, hr, ht⟩ := slotLoop_has_record order event (groupAvailabilities availabilities)
      (buildUserMap users) 1 timeSlots slot hslot hfit
    exact ⟨r, (mem_computeRecommendations sortSlice hs _ _ _ _ _ r).mpr hr, ht⟩
  · obtain ⟨r, hr, ht⟩ := slotLoop_has_record order' event
      (groupAvailabilities availabilities') (buildUserMap users') 1 timeSlots slot hslot hfit
    exact ⟨r, (mem_computeRecommendations sortSlice hs _ _ _ _ _ r).mpr hr, ht⟩
  · intro r hr ht r' hr' ht'
    rw [mem_computeRecommendations sortSlice hs] at hr hr'
    obtain ⟨slot1, _, ks, _, hts, hks, hatt, hnon, hscore⟩ :=
      slotLoop_record order event availabilities users 1 timeSlots r hr
    obtain ⟨slot2, _, ks', _, hts', hks', hatt', hnon', hscore'⟩ :=
      slotLoop_record order' event availabilities' users' 1 timeSlots r' hr'
    have hcong := covers_congr event slot slot1 (hts.symm.trans ht)
    have hcong' := covers_congr event slot slot2 (hts'.symm.trans ht')
    have hsub : ∀ uid, uid ∈ listedIDs r.Attendees → uid ∈ listedIDs r'.Attendees := by
      intro uid hmem
      rw [hatt, mem_attendees_iff event slot1 availabilities users ks hks uid] at hmem
      obtain ⟨hres, a, ha, hu, hc⟩ := hmem
      rw [hatt', mem_attendees_iff event slot2 availabilities' users' ks' hks' uid]
      exact ⟨hdir uid hres, a, hplus.mem_iff.mpr (List.mem_cons_of_mem _ ha), hu,
        (hcong' a).mpr ((hcong a).mp hc)⟩
    refine ⟨?_, hsub⟩
    have hnd : (listedIDs r.Attendees).Nodup := by
      have h := listed_nodup event slot1 availabilities users ks hks
      rw [← hatt, ← hnon] at h
      unfold listedIDs at h ⊢
      rw [List.map_append] at h
      exact h.of_append_left
    have hle := (List.subperm_of_subset hnd hsub).length_le
    unfold listedIDs at hle
    rw [List.length_map, List.length_map] at hle
    rw [hscore, hscore']
    exact Int.ofNat_le.mpr hle

/-- Witness of C30: the scenario of the repository's test, and the same with a record that
makes user 6 free for the first slot too. -/
theorem score_monotone_in_availability_witness :
    SortSliceSpec Slice ∧
    Fetches MapOrder.insertion testService 1 testEvent testTimeSlots testAvailability
      testUsers ∧
    Fetches MapOrder.insertion
      (fixedService testEvent testTimeSlots
        (testAvailability ++ [⟨23, 6, 1, hour 10, hour 12, ⟨0⟩, ⟨0⟩⟩]) testUsers) 1 testEvent
      testTimeSlots (testAvailability ++ [⟨23, 6, 1, hour 10, hour 12, ⟨0⟩, ⟨0⟩⟩])
      testUsers ∧
    ∃ recs recs', GetRecommendations Slice MapOrder.insertion testService 1 =
        (some ⟨recs⟩, none) ∧
      GetRecommendations Slice MapOrder.insertion
        (fixedService testEvent testTimeSlots
          (testAvailability ++ [⟨23, 6, 1, hour 10, hour 12, ⟨0⟩, ⟨0⟩⟩]) testUsers) 1 =
          (some ⟨recs'⟩, none) ∧
      ∀ slot ∈ testTimeSlots, Fits testEvent slot →
        (∃ r ∈ recs, r.TimeSlot = slotTriple testEvent slot) ∧
        (∃ r' ∈ recs', r'.TimeSlot = slotTriple testEvent slot) ∧
        ∀ r ∈ recs, r.TimeSlot = slotTriple testEvent slot →
          ∀ r' ∈ recs', r'.TimeSlot = slotTriple testEvent slot →
            r.Score ≤ r'.Score ∧
            ∀ uid, uid ∈ listedIDs r.Attendees → uid ∈ listedIDs r'.Attendees := by
  have h1 : Fetches MapOrder.insertion testService 1 testEvent testTimeSlots testAvailability
      testUsers := fetches_fixedService _ _ _ _ _ _
  have h2 : Fetches MapOrder.insertion
      (fixedService testEvent testTimeSlots
        (testAvailability ++ [⟨23, 6, 1, hour 10, hour 12, ⟨0⟩, ⟨0⟩⟩]) testUsers) 1 testEvent
      testTimeSlots (testAvailability ++ [⟨23, 6, 1, hour 10, hour 12, ⟨0⟩, ⟨0⟩⟩])
      testUsers := fetches_fixedService _ _ _ _ _ _
  have h3 : (testAvailability ++
      [(⟨23, 6, 1, hour 10, hour 12, ⟨0⟩, ⟨0⟩⟩ : Availability)]).Perm
      (⟨23, 6, 1, hour 10, hour 12, ⟨0⟩, ⟨0⟩⟩ :: testAvailability) :=
    List.perm_append_singleton _ _
  exact ⟨Slice_spec, h1, h2,
    score_monotone_in_availability Slice Slice_spec MapOrder.insertion MapOrder.insertion
      testService _ 1 testEvent testTimeSlots testAvailability _ _ testUsers testUsers
      h1 h2 h3 (fun _ h => h)⟩

/-! ## The claims about the time-slot service and the availability service -/

/-- C22. InvalidTimeRange: for each of `CreateTimeSlot`, `UpdateTimeSlot`, `CreateAvailability`
and `UpdateAvailability`, when the preceding lookups succeed and both time strings parse, the
operation returns `ErrInvalidTimeRange` with no entity and without any repository `Create` or
`Update` if and only if the parsed end is not after the parsed start, equal instants
included; with a repository that reports errors of its own only, `ErrInvalidTimeRange` with no
entity is returned in that case only; and an entity is returned only for a start strictly
before the end, after one write, and has its start strictly before its end when the
repository leaves the times it is handed as they are. -/
theorem invalid_time_range_rejected (parse : String → Except Error Time) (now : Time)
    (startTime endTime : Time) :
    (∀ (s : TimeSlotService) (eventID : UUID) (req : TimeSlotRequest) (event : Event),
      s.eventRepo.GetByID eventID = .ok event →
      parse req.StartTime = .ok startTime → parse req.EndTime = .ok endTime →
      ValidatesRange startTime endTime (ReportsOwnErrors s.timeslotRepo.Create)
        (KeepsSlotTimes s.timeslotRepo.Create) TimeSlot.StartTime TimeSlot.EndTime
        (CreateTimeSlot parse now s eventID req)) ∧
    (∀ (s : TimeSlotService) (id : UUID) (req : TimeSlotRequest) (slot : TimeSlot),
      s.timeslotRepo.GetByID id = .ok slot →
      parse req.StartTime = .ok startTime → parse req.EndTime = .ok endTime →
      ValidatesRange startTime endTime (ReportsOwnErrors s.timeslotRepo.Update)
        (KeepsSlotTimes s.timeslotRepo.Update) TimeSlot.StartTime TimeSlot.EndTime
        (UpdateTimeSlot parse now s id req)) ∧
    (∀ (s : AvailabilityService) (eventID : UUID) (req : AvailabilityRequest) (event : Event)
        (user : User),
      s.eventRepo.GetByID eventID = .ok event → s.userRepo.GetByID req.UserID = .ok user →
      parse req.StartTime = .ok startTime → parse req.EndTime = .ok endTime →
      ValidatesRange startTime endTime (ReportsOwnErrors s.availabilityRepo.Create)
        (KeepsAvailabilityTimes s.availabilityRepo.Create) Availability.StartTime
        Availability.EndTime (CreateAvailability parse now s eventID req)) ∧
    (∀ (s : AvailabilityService) (id : UUID) (req : AvailabilityRequest)
        (first : Availability) (rest : List Availability),
      s.availabilityRepo.GetByUserAndEvent req.UserID id = .ok (first :: rest) →
      parse req.StartTime = .ok startTime → parse req.EndTime = .ok endTime →
      ValidatesRange startTime endTime (ReportsOwnErrors s.availabilityRepo.Update)
        (KeepsAvailabilityTimes s.availabilityRepo.Update) Availability.StartTime
        Availability.EndTime (UpdateAvailability parse now s id req)) :=
  ⟨fun s eventID req event hevent hstart hend =>
      CreateTimeSlot_validates parse now s eventID req event startTime endTime hevent hstart
        hend,
    fun s id req slot hslot hstart hend =>
      UpdateTimeSlot_validates parse now s id req slot startTime endTime hslot hstart hend,
    fun s eventID req event user hevent huser hstart hend =>
      CreateAvailability_validates parse now s eventID req event user startTime endTime hevent
        huser hstart hend,
    fun s id req first rest hget hstart hend =>
      UpdateAvailability_validates parse now s id req first rest startTime endTime hget hstart
        hend⟩

/-- Witness of C22: the request of `TestCreateTimeSlotInvalidTimeRange`, from 12:00 to 10:00,
is rejected by the four operations without a write; a request from 12:00 to 12:00 is rejected
too; and the entity returned for the request from 10:00 to 12:00 starts before it ends. -/
theorem invalid_time_range_rejected_witness :
    RejectedRange (CreateTimeSlot parseExample (hour 9) exampleTimeSlotService 1
      ⟨"2025-01-15T12:00:00Z", "2025-01-15T10:00:00Z"⟩) ∧
    RejectedRange (UpdateTimeSlot parseExample (hour 9) exampleTimeSlotService 10
      ⟨"2025-01-15T12:00:00Z", "2025-01-15T10:00:00Z"⟩) ∧
    RejectedRange (CreateAvailability parseExample (hour 9)
      (exampleAvailabilityService (.ok exampleRecords)) 1
      ⟨5, "2025-01-15T12:00:00Z", "2025-01-15T10:00:00Z"⟩) ∧
    RejectedRange (UpdateAvailability parseExample (hour 9)
      (exampleAvailabilityService (.ok exampleRecords)) 1
      ⟨5, "2025-01-15T12:00:00Z", "2025-01-15T10:00:00Z"⟩) ∧
    RejectedRange (CreateTimeSlot parseExample (hour 9) exampleTimeSlotService 1
      ⟨"2025-01-15T12:00:00Z", "2025-01-15T12:00:00Z"⟩) ∧
    CreateTimeSlot parseExample (hour 9) exampleTimeSlotService 1
      ⟨"2025-01-15T10:00:00Z", "2025-01-15T12:00:00Z"⟩ =
      ⟨some ⟨77, 1, hour 10, hour 12, hour 9, hour 9⟩, none,
        [WriteCall.createTimeSlot ⟨0, 1, hour 10, hour 12, hour 9, hour 9⟩]⟩ ∧
    (hour 10).unixNano < (hour 12).unixNano :=
  ⟨((invalid_time_range_rejected parseExample (hour 9) (hour 12) (hour 10)).1
      exampleTimeSlotService 1 ⟨"2025-01-15T12:00:00Z", "2025-01-15T10:00:00Z"⟩ testEvent
      rfl rfl rfl).1.mpr (by decide),
    ((invalid_time_range_rejected parseExample (hour 9) (hour 12) (hour 10)).2.1
      exampleTimeSlotService 10 ⟨"2025-01-15T12:00:00Z", "2025-01-15T10:00:00Z"⟩
      ⟨10, 1, hour 10, hour 12, ⟨0⟩, ⟨0⟩⟩ rfl rfl rfl).1.mpr (by decide),
    ((invalid_time_range_rejected parseExample (hour 9) (hour 12) (hour 10)).2.2.1
      (exampleAvailabilityService (.ok exampleRecords)) 1
      ⟨5, "2025-01-15T12:00:00Z", "2025-01-15T10:00:00Z"⟩ testEvent
      ⟨5, "User 1", "user1@example.com", ⟨0⟩, ⟨0⟩⟩ rfl rfl rfl
      rfl).1.mpr (by decide),
    ((invalid_time_range_rejected parseExample (hour 9) (hour 12) (hour 10)).2.2.2
      (exampleAvailabilityService (.ok exampleRecords)) 1
      ⟨5, "2025-01-15T12:00:00Z", "2025-01-15T10:00:00Z"⟩
      ⟨20, 5, 1, hour 10, hour 12, ⟨0⟩, ⟨0⟩⟩ [⟨21, 5, 1, hour 14, hour 16, ⟨0⟩, ⟨0⟩⟩]
      rfl rfl rfl).1.mpr (by decide),
    ((invalid_time_range_rejected parseExample (hour 9) (hour 12) (hour 12)).1
      exampleTimeSlotService 1 ⟨"2025-01-15T12:00:00Z", "2025-01-15T12:00:00Z"⟩ testEvent
      rfl rfl rfl).1.mpr (by decide),
    by decide,
    (((invalid_time_range_rejected parseExample (hour 9) (hour 10) (hour 12)).1
      exampleTimeSlotService 1 ⟨"2025-01-15T10:00:00Z", "2025-01-15T12:00:00Z"⟩ testEvent
      rfl rfl rfl).2.2 ⟨77, 1, hour 10, hour 12, hour 9, hour 9⟩
      (by decide)).2.1⟩

/-- C23. `UpdateAvailability` returns `ErrAvailabilityNotFound` and no record, without calling
the repository's `Update`, whenever the lookup of the user's records for the event fails,
whatever its error, or returns an empty list; the time strings are not looked at: the outcome
is the same whether or not they parse or form a valid range. -/
theorem UpdateAvailability_not_found (parse : String → Except Error Time) (now : Time)
    (s : AvailabilityService) (id : UUID) (req : AvailabilityRequest)
    (h : (∃ err, s.availabilityRepo.GetByUserAndEvent req.UserID id = .error err) ∨
      s.availabilityRepo.GetByUserAndEvent req.UserID id = .ok []) :
    UpdateAvailability parse now s id req =
      ⟨none, some Error.ErrAvailabilityNotFound, []⟩ := by
  unfold UpdateAvailability
  rcases h with ⟨err, h⟩ | h
  · rw [h]
  · rw [h]
    rfl

/-- Witness of C23: with no record, and with a lookup that fails with a storage error, a
request whose start does not parse and a request whose range is reversed are answered with
`ErrAvailabilityNotFound`. -/
theorem UpdateAvailability_not_found_witness :
    UpdateAvailability parseExample (hour 9) (exampleAvailabilityService (.ok [])) 1
      ⟨5, "not a time", "2025-01-15T16:00:00Z"⟩ =
      ⟨none, some Error.ErrAvailabilityNotFound, []⟩ ∧
    UpdateAvailability parseExample (hour 9)
      (exampleAvailabilityService (.error (Error.other "storage unavailable"))) 1
      ⟨5, "2025-01-15T12:00:00Z", "2025-01-15T10:00:00Z"⟩ =
      ⟨none, some Error.ErrAvailabilityNotFound, []⟩ :=
  ⟨UpdateAvailability_not_found parseExample (hour 9) (exampleAvailabilityService (.ok [])) 1
      ⟨5, "not a time", "2025-01-15T16:00:00Z"⟩ (Or.inr rfl),
    UpdateAvailability_not_found parseExample (hour 9)
      (exampleAvailabilityService (.error (Error.other "storage unavailable"))) 1
      ⟨5, "2025-01-15T12:00:00Z", "2025-01-15T10:00:00Z"⟩
      (Or.inl ⟨Error.other "storage unavailable", rfl⟩)⟩

/-- C25. When the lookup returns the records `first, ...` of the user for the event, both time
strings parse and the start is before the end, `UpdateAvailability` makes exactly one write:
`Update` of the first record with the new start and end and the time of the update, its ID,
UserID, EventID and CreatedAt unchanged; no other record is written. It returns the record as
`Update` leaves it, or the error of `Update`. -/
theorem UpdateAvailability_first_record_only (parse : String → Except Error Time)
    (now : Time) (s : AvailabilityService) (id : UUID) (req : AvailabilityRequest)
    (first : Availability) (rest : List Availability) (startTime endTime : Time)
    (hget : s.availabilityRepo.GetByUserAndEvent req.UserID id = .ok (first :: rest))
    (hstart : parse req.StartTime = .ok startTime) (hend : parse req.EndTime = .ok endTime)
    (hlt : startTime.unixNano < endTime.unixNano) :
    (UpdateAvailability parse now s id req).writes =
      [WriteCall.updateAvailability
        ⟨first.ID, first.UserID, first.EventID, startTime, endTime, first.CreatedAt, now⟩] ∧
    (∀ stored err,
      s.availabilityRepo.Update
        ⟨first.ID, first.UserID, first.EventID, startTime, endTime, first.CreatedAt, now⟩ =
          (stored, some err) →
      (UpdateAvailability parse now s id req).value = none ∧
        (UpdateAvailability parse now s id req).err = some err) ∧
    (∀ stored,
      s.availabilityRepo.Update
        ⟨first.ID, first.UserID, first.EventID, startTime, endTime, first.CreatedAt, now⟩ =
          (stored, none) →
      (UpdateAvailability parse now s id req).value = some stored ∧
        (UpdateAvailability parse now s id req).err = none) := by
  have hno : ¬ (endTime.Before startTime || endTime.Equal startTime) = true := fun h =>
    absurd ((range_check_iff startTime endTime).mp h) (not_le.mpr hlt)
  rw [UpdateAvailability_of_records parse now s id req first rest startTime endTime hget hstart
    hend, if_neg hno]
  refine ⟨?_, ?_, ?_⟩
  · cases hw : s.availabilityRepo.Update
      { first with StartTime := startTime, EndTime := endTime, UpdatedAt := now } with
    | mk stored e => cases e <;> rfl
  · intro stored err hw
    have hw' : s.availabilityRepo.Update
      { first with StartTime := startTime, EndTime := endTime, UpdatedAt := now } =
        (stored, some err) := hw
    rw [hw']
    exact ⟨rfl, rfl⟩
  · intro stored hw
    have hw' : s.availabilityRepo.Update
      { first with StartTime := startTime, EndTime := endTime, UpdatedAt := now } =
        (stored, none) := hw
    rw [hw']
    exact ⟨rfl, rfl⟩

/-- Witness of C25: of the records 10:00-12:00 and 14:00-16:00 of user 5, a request for
14:00-16:00 rewrites the first, record 20, and writes nothing else. -/
theorem UpdateAvailability_first_record_only_witness :
    (hour 14).unixNano < (hour 16).unixNano ∧
    (UpdateAvailability parseExample (hour 9)
      (exampleAvailabilityService (.ok exampleRecords)) 1
      ⟨5, "2025-01-15T14:00:00Z", "2025-01-15T16:00:00Z"⟩).writes =
      [WriteCall.updateAvailability ⟨20, 5, 1, hour 14, hour 16, ⟨0⟩, hour 9⟩] ∧
    UpdateAvailability parseExample (hour 9)
      (exampleAvailabilityService (.ok exampleRecords)) 1
      ⟨5, "2025-01-15T14:00:00Z", "2025-01-15T16:00:00Z"⟩ =
      ⟨some ⟨20, 5, 1, hour 14, hour 16, ⟨0⟩, hour 9⟩, none,
        [WriteCall.updateAvailability ⟨20, 5, 1, hour 14, hour 16, ⟨0⟩, hour 9⟩]⟩ :=
  ⟨by decide,
    (UpdateAvailability_first_record_only parseExample (hour 9)
      (exampleAvailabilityService (.ok exampleRecords)) 1
      ⟨5, "2025-01-15T14:00:00Z", "2025-01-15T16:00:00Z"⟩
      ⟨20, 5, 1, hour 10, hour 12, ⟨0⟩, ⟨0⟩⟩ [⟨21, 5, 1, hour 14, hour 16, ⟨0⟩, ⟨0⟩⟩]
      (hour 14) (hour 16) rfl rfl rfl (by decide)).1,
    by decide⟩

/-! ## Sorting routines that sort short slices by insertion sort -/

theorem insertionSort_func_whole {α : Type} (less : α → α → Bool) (l : List α) :
    insertionSort_func less l 0 l.length = insertionFold less l := by
  have h := insertionSort_func_eq less [] l []
  simpa using h

/-- From Go 1.19 on, `sort.Slice` sorts at most 12 elements by insertion sort alone. -/
theorem Slice_insertionSortUpTo : InsertionSortUpTo Slice 12 := by
  intro less l h
  rw [Slice_eq_insertionFold less l h, insertionSort_func_whole]

theorem shellPass_of_le {α : Type} (less : α → α → Bool) (b n i : Nat) (data : List α)
    (h : b ≤ i) : shellPass less b n i data = data := by
  cases n with
  | zero => rfl
  | succ n =>
    unfold shellPass
    rw [if_neg (by omega)]

/-- Before Go 1.19, `sort.Slice` sorts at most 6 elements by insertion sort alone: the pass
with gap 6 has nothing to compare. -/
theorem SliceLegacy_insertionSortUpTo : InsertionSortUpTo SliceLegacy 6 := by
  intro less l h
  unfold SliceLegacy quickSortTail_func
  by_cases h1 : l.length - 0 > 1
  · rw [if_pos h1, shellPass_of_le less l.length _ _ l (by omega)]
  · rw [if_neg h1, insertionSort_func_whole]
    match l, h1 with
    | [], _ => rfl
    | [x], _ => rfl
    | _ :: _ :: _, h1 => exact absurd (by simp) h1

/-- With the fetches successful and a sorting routine that returns the empty slice for the
empty slice, the method returns the sorted records of the slot loop. -/
theorem GetRecommendations_of_fetches_of_nil (sortSlice : Sorter)
    (hnil : sortSlice scoreLess [] = []) (order : MapOrder) (s : RecommendationService)
    (eventID : UUID) (event : Event) (timeSlots : List TimeSlot)
    (availabilities : List Availability) (users : List User)
    (hf : Fetches order s eventID event timeSlots availabilities users) :
    GetRecommendations sortSlice order s eventID =
      (some ⟨sortSlice scoreLess
        (slotOrderRecommendations order event timeSlots availabilities users)⟩, none) := by
  obtain ⟨h1, h2, h3, h4⟩ := hf
  unfold GetRecommendations
  rw [h1, h2]
  simp only
  by_cases hlen : timeSlots.length = 0
  · have hempty : timeSlots = [] := List.length_eq_zero.mp hlen
    subst hempty
    simp [slotOrderRecommendations, slotLoop, hnil]
  · simp only [hlen, if_false]
    rw [h3]
    simp only
    rw [h4]
    rfl

/-- A routine that sorts the records of the slot loop by insertion sort alone returns them
rearranged, by score descending, and with equal scores in slot order. -/
theorem stable_of_insertionSortUpTo (sortSlice : Sorter) (k : Nat)
    (hk : InsertionSortUpTo sortSlice k) (order : MapOrder) (s : RecommendationService)
    (eventID : UUID) (event : Event) (timeSlots : List TimeSlot)
    (availabilities : List Availability) (users : List User)
    (hf : Fetches order s eventID event timeSlots availabilities users)
    (hsmall : (slotOrderRecommendations order event timeSlots availabilities users).length ≤
      k) :
    ∃ recs, GetRecommendations sortSlice order s eventID = (some ⟨recs⟩, none) ∧
      recs.Perm (slotOrderRecommendations order event timeSlots availabilities users) ∧
      recs.Pairwise (fun a b => a.Score ≥ b.Score) ∧
      StableRanking recs (slotOrderRecommendations order event timeSlots availabilities users)
    := by
  have hnil : sortSlice scoreLess [] = [] := by
    rw [hk scoreLess [] (Nat.zero_le k)]
    rfl
  have heq : sortSlice scoreLess
      (slotOrderRecommendations order event timeSlots availabilities users) =
      insertionFold scoreLess
        (slotOrderRecommendations order event timeSlots availabilities users) := by
    rw [hk scoreLess _ hsmall, insertionSort_func_whole]
  refine ⟨_, GetRecommendations_of_fetches_of_nil sortSlice hnil order s eventID event
    timeSlots availabilities users hf, ?_, ?_, ?_⟩
  · rw [heq]
    exact perm_insertionFold scoreLess _
  · rw [heq]
    refine (pairwise_insertionFold scoreLess scoreLess_strictWeakOrder _).imp ?_
    intro a b h
    simp only [scoreLess, decide_eq_false_iff_not] at h
    omega
  · intro j
    rw [heq]
    apply filter_insertionFold
    intro x y hx hy
    simp only [decide_eq_true_eq] at hx hy
    simp [scoreLess, hx, hy]

/-- With seven fitting slots of which only the last has an attendee, `sort.Slice` before
Go 1.19 returns the records of the slots in the order 6, 1, 2, 3, 4, 5, 0: the pass with gap
6 exchanges the first and the last record, and the recommendations of score 0 do not stand in
the order of their slots. -/
theorem legacy_ranking_not_stable_seven_slots :
    ∃ recs, GetRecommendations SliceLegacy MapOrder.insertion
        (fixedService testEvent (hourlySlots 7) seventhAvailability testUsers) 1 =
        (some ⟨recs⟩, none) ∧
      recs.map (fun r => (r.TimeSlot.ID, r.Score)) =
        [(6, 1), (1, 0), (2, 0), (3, 0), (4, 0), (5, 0), (0, 0)] ∧
      ¬ StableRanking recs (slotOrderRecommendations MapOrder.insertion testEvent
        (hourlySlots 7) seventhAvailability testUsers) := by
  refine ⟨_, rfl, by decide, ?_⟩
  intro h
  exact absurd (congrArg (List.map (fun r => r.TimeSlot.ID)) (h 0)) (by decide)

/-- C6, amended. `GetRecommendations` sorts by score descending with `sort.Slice`, which is
not a stable sort. With the fetches successful, the response rearranges the records of the
slot loop, is ordered by score descending, and keeps recommendations of equal score in the
order of their slots whenever `sort.Slice` sorts the response by insertion sort alone: with
`sort.Slice` of Go 1.19 and later when the response holds at most 12 recommendations, with
`sort.Slice` of Go 1.8 to Go 1.18 when it holds at most 6, and with any routine that sorts up
to `k` elements by insertion sort alone when it holds at most `k`. -/
theorem ranking_stable_for_short_responses (order : MapOrder) (s : RecommendationService)
    (eventID : UUID) (event : Event) (timeSlots : List TimeSlot)
    (availabilities : List Availability) (users : List User)
    (hf : Fetches order s eventID event timeSlots availabilities users) :
    ((slotOrderRecommendations order event timeSlots availabilities users).length ≤ 12 →
      ∃ recs, GetRecommendations Slice order s eventID = (some ⟨recs⟩, none) ∧
        recs.Perm (slotOrderRecommendations order event timeSlots availabilities users) ∧
        recs.Pairwise (fun a b => a.Score ≥ b.Score) ∧
        StableRanking recs
          (slotOrderRecommendations order event timeSlots availabilities users)) ∧
    ((slotOrderRecommendations order event timeSlots availabilities users).length ≤ 6 →
      ∃ recs, GetRecommendations SliceLegacy order s eventID = (some ⟨recs⟩, none) ∧
        recs.Perm (slotOrderRecommendations order event timeSlots availabilities users) ∧
        recs.Pairwise (fun a b => a.Score ≥ b.Score) ∧
        StableRanking recs
          (slotOrderRecommendations order event timeSlots availabilities users)) ∧
    (∀ (sortSlice : Sorter) (k : Nat), InsertionSortUpTo sortSlice k →
      (slotOrderRecommendations order event timeSlots availabilities users).length ≤ k →
      ∃ recs, GetRecommendations sortSlice order s eventID = (some ⟨recs⟩, none) ∧
        recs.Perm (slotOrderRecommendations order event timeSlots availabilities users) ∧
        recs.Pairwise (fun a b => a.Score ≥ b.Score) ∧
        StableRanking recs
          (slotOrderRecommendations order event timeSlots availabilities users)) :=
  ⟨fun h => stable_of_insertionSortUpTo Slice 12 Slice_insertionSortUpTo order s eventID event
      timeSlots availabilities users hf h,
    fun h => stable_of_insertionSortUpTo SliceLegacy 6 SliceLegacy_insertionSortUpTo order s
      eventID event timeSlots availabilities users hf h,
    fun sortSlice k hk h => stable_of_insertionSortUpTo sortSlice k hk order s eventID event
      timeSlots availabilities users hf h⟩

/-- Witness of C6, amended: six one-hour slots of which user 5 can attend slots 2 and 5. The
records of the slots 0 to 5 have the scores 0, 0, 1, 0, 0, 1; both routines return the slots
in the order 2, 5, 0, 1, 3, 4, each tie in slot order. -/
theorem ranking_stable_for_short_responses_witness :
    Fetches MapOrder.insertion tiedService 1 testEvent (hourlySlots 6) tiedAvailability
      testUsers ∧
    (slotOrderRecommendations MapOrder.insertion testEvent (hourlySlots 6) tiedAvailability
      testUsers).map (fun r => (r.TimeSlot.ID, r.Score)) =
      [(0, 0), (1, 0), (2, 1), (3, 0), (4, 0), (5, 1)] ∧
    (∃ recs, GetRecommendations Slice MapOrder.insertion tiedService 1 =
        (some ⟨recs⟩, none) ∧
      recs.map (fun r => (r.TimeSlot.ID, r.Score)) =
        [(2, 1), (5, 1), (0, 0), (1, 0), (3, 0), (4, 0)] ∧
      StableRanking recs (slotOrderRecommendations MapOrder.insertion testEvent
        (hourlySlots 6) tiedAvailability testUsers)) ∧
    (∃ recs, GetRecommendations SliceLegacy MapOrder.insertion tiedService 1 =
        (some ⟨recs⟩, none) ∧
      recs.map (fun r => (r.TimeSlot.ID, r.Score)) =
        [(2, 1), (5, 1), (0, 0), (1, 0), (3, 0), (4, 0)] ∧
      StableRanking recs (slotOrderRecommendations MapOrder.insertion testEvent
        (hourlySlots 6) tiedAvailability testUsers)) := by
  have hf : Fetches MapOrder.insertion tiedService 1 testEvent (hourlySlots 6)
      tiedAvailability testUsers := fetches_fixedService _ _ _ _ _ _
  have hthm := ranking_stable_for_short_responses MapOrder.insertion tiedService 1 testEvent
    (hourlySlots 6) tiedAvailability testUsers hf
  obtain ⟨recs, hrecs, _, _, hstable⟩ := hthm.1 (by decide)
  obtain ⟨recs', hrecs', _, _, hstable'⟩ := hthm.2.1 (by decide)
  have e : recs = Slice scoreLess (slotOrderRecommendations MapOrder.insertion testEvent
      (hourlySlots 6) tiedAvailability testUsers) := by
    have h := hrecs.symm.trans (GetRecommendations_Slice_of_fetches MapOrder.insertion
      tiedService 1 testEvent (hourlySlots 6) tiedAvailability testUsers hf)
    injection h with h1 _
    injection h1 with h2
    injection h2
  have e' : recs' = SliceLegacy scoreLess (slotOrderRecommendations MapOrder.insertion
      testEvent (hourlySlots 6) tiedAvailability testUsers) := by
    have h := hrecs'.symm.trans (GetRecommendations_of_fetches_of_nil SliceLegacy rfl
      MapOrder.insertion tiedService 1 testEvent (hourlySlots 6) tiedAvailability testUsers
      hf)
    injection h with h1 _
    injection h1 with h2
    injection h2
  refine ⟨hf, by decide, ⟨recs, hrecs, ?_, hstable⟩, ⟨recs', hrecs', ?_, hstable'⟩⟩
  · rw [e]
    decide
  · rw [e']
    decide

/-! ## The meeting end in exact arithmetic -/

/-- The wrapped product is never above the exact one unless the exact one is below the
smallest `int64`. -/
theorem wrapInt64_le_self (x : Int) (h : -9223372036854775808 ≤ x) : wrapInt64 x ≤ x := by
  unfold wrapInt64
  omega

/-- For a duration that is not negative, the computed meeting end is never after the slot
start plus that many minutes. -/
theorem meetingEndTime_le (event : Event) (slot : TimeSlot) (hdur : 0 ≤ event.Duration) :
    (meetingEndTime event slot).unixNano ≤
      slot.StartTime.unixNano + event.Duration * 60000000000 := by
  have h := wrapInt64_le_self (event.Duration * 60000000000) (by omega)
  unfold meetingEndTime Time.Add mulDuration Minute
  simp only
  omega

/-- C1 fails for an event too long for `time.Duration`. The event lasts 153,722,868 minutes
and the slot starts at 10:00 and lasts as long, so the event fits the slot; the only record
of user 5 is 10:00-11:00 and does not reach the slot start plus the duration. The product in
nanoseconds wraps around, the computed meeting end lies before the slot start, and the method
lists user 5 among the attendees with score 1. -/
theorem long_event_lists_attendee_without_cover :
    longSlot.StartTime.unixNano + longEvent.Duration * 60000000000 ≤
      longSlot.EndTime.unixNano ∧
    (∀ a ∈ oneHourAvailability,
      ¬ (longSlot.StartTime.unixNano ≥ a.StartTime.unixNano ∧
        longSlot.StartTime.unixNano + longEvent.Duration * 60000000000 ≤
          a.EndTime.unixNano)) ∧
    GetRecommendations Slice MapOrder.insertion
      (fixedService longEvent [longSlot] oneHourAvailability testUsers) 1 =
      (some ⟨[⟨⟨10, hour 10, ⟨-9223335993709551616⟩⟩, [⟨5, "User 1", "user1@example.com"⟩],
        [], 1⟩]⟩, none) := by
  decide

/-- C3 fails for an event too long for `time.Duration`. The event lasts 153,722,868 minutes
and the slot is 10:00-11:00, so the slot start plus the duration is after the slot end and
the slot has to be skipped. The product in nanoseconds wraps around, the computed meeting end
is not after the slot end, and the method returns a record for the slot whose end lies before
its start. -/
theorem long_event_keeps_slot_that_does_not_fit :
    ¬ (overflowSlot.StartTime.unixNano + longEvent.Duration * 60000000000 ≤
      overflowSlot.EndTime.unixNano) ∧
    GetRecommendations Slice MapOrder.insertion
      (fixedService longEvent [overflowSlot] oneHourAvailability testUsers) 1 =
      (some ⟨[⟨⟨10, hour 10, ⟨-9223335993709551616⟩⟩, [⟨5, "User 1", "user1@example.com"⟩],
        [], 1⟩]⟩, none) ∧
    (-9223335993709551616 : Int) < (hour 10).unixNano := by
  decide

/-- C11 fails for an event too long for `time.Duration`. The event lasts 153,722,868 minutes
and fits the slot, which starts at 10:00 and lasts as long; user 5 has the records
10:00-10:30 and 10:45-11:15, neither of which covers the window from the slot start to the
slot start plus the duration. The computed meeting end wraps around to before the slot
start, the first record passes the test, and the method lists user 5 among the attendees with
score 1. -/
theorem long_event_attendee_from_split_records :
    longSlot.StartTime.unixNano + longEvent.Duration * 60000000000 ≤
      longSlot.EndTime.unixNano ∧
    (∀ a ∈ splitAvailability,
      ¬ (a.StartTime.unixNano ≤ longSlot.StartTime.unixNano ∧
        longSlot.StartTime.unixNano + longEvent.Duration * 60000000000 ≤
          a.EndTime.unixNano)) ∧
    GetRecommendations Slice MapOrder.insertion
      (fixedService longEvent [longSlot] splitAvailability testUsers) 1 =
      (some ⟨[⟨⟨10, hour 10, ⟨-9223335993709551616⟩⟩, [⟨5, "User 1", "user1@example.com"⟩],
        [], 1⟩]⟩, none) := by
  decide

/-- C10. Fit boundary is inclusive: with the fetches successful and a duration that is not
negative, a slot whose start plus the duration in minutes is exactly its end is not skipped,
and every resolved user with an availability record that starts at the slot start and ends
at the slot start plus the duration is an attendee of that slot. -/
theorem fit_boundary_inclusive (sortSlice : Sorter) (hs : SortSliceSpec sortSlice)
    (order : MapOrder) (s : RecommendationService) (eventID : UUID) (event : Event)
    (timeSlots : List TimeSlot) (availabilities : List Availability) (users : List User)
    (hf : Fetches order s eventID event timeSlots availabilities users)
    (slot : TimeSlot) (hslot : slot ∈ timeSlots) (hdur : 0 ≤ event.Duration)
    (hend : slot.StartTime.unixNano + event.Duration * 60000000000 =
      slot.EndTime.unixNano) :
    ∃ recs, GetRecommendations sortSlice order s eventID = (some ⟨recs⟩, none) ∧
      (∃ r ∈ recs, r.TimeSlot.ID = slot.ID ∧ r.TimeSlot.StartTime = slot.StartTime ∧
        r.TimeSlot = slotTriple event slot) ∧
      ∀ r ∈ recs, r.TimeSlot = slotTriple event slot →
        ∀ uid, Resolves users uid →
          (∃ a ∈ availabilities, a.UserID = uid ∧
            a.StartTime.unixNano = slot.StartTime.unixNano ∧
            a.EndTime.unixNano = slot.StartTime.unixNano + event.Duration * 60000000000) →
          uid ∈ listedIDs r.Attendees := by
  have hle := meetingEndTime_le event slot hdur
  have hfit : Fits event slot := by
    unfold Fits
    omega
  refine ⟨_, GetRecommendations_of_fetches sortSlice hs order s eventID event timeSlots
    availabilities users hf, ?_, ?_⟩
  · obtain ⟨r, hr, ht⟩ := slotLoop_has_record order event (groupAvailabilities availabilities)
      (buildUserMap users) 1 timeSlots slot hslot hfit
    refine ⟨r, (mem_computeRecommendations sortSlice hs _ _ _ _ _ r).mpr hr, ?_, ?_, ht⟩
    · rw [ht]
      rfl
    · rw [ht]
      rfl
  · intro r hr ht uid hres hrec
    obtain ⟨a, ha, hu, hst, hen⟩ := hrec
    rw [mem_computeRecommendations sortSlice hs] at hr
    obtain ⟨slot', _, ks, _, ht', hks, hatt, _, _⟩ :=
      slotLoop_record order event availabilities users 1 timeSlots r hr
    rw [hatt, mem_attendees_iff event slot' availabilities users ks hks uid]
    refine ⟨hres, a, ha, hu, ?_⟩
    rw [covers_congr event slot slot' (ht'.symm.trans ht)]
    unfold Covers
    constructor <;> omega

/-- Witness of C10: the 60-minute event with the slot 10:00-11:00 and the availability
10:00-11:00; and the event of 153,722,868 minutes with the slot and the availability that
start at 10:00 and last as long. User 5 is an attendee in both. -/
theorem fit_boundary_inclusive_witness :
    SortSliceSpec Slice ∧
    (overflowSlot.StartTime.unixNano + testEvent.Duration * 60000000000 =
        overflowSlot.EndTime.unixNano ∧
      GetRecommendations Slice MapOrder.insertion boundaryService 1 =
        (some ⟨[⟨⟨10, hour 10, hour 11⟩, [⟨5, "User 1", "user1@example.com"⟩], [], 1⟩]⟩,
          none) ∧
      ∃ recs, GetRecommendations Slice MapOrder.insertion boundaryService 1 =
          (some ⟨recs⟩, none) ∧
        (∃ r ∈ recs, r.TimeSlot.ID = overflowSlot.ID ∧
          r.TimeSlot.StartTime = overflowSlot.StartTime ∧
          r.TimeSlot = slotTriple testEvent overflowSlot) ∧
        ∀ r ∈ recs, r.TimeSlot = slotTriple testEvent overflowSlot →
          ∀ uid, Resolves testUsers uid →
            (∃ a ∈ oneHourAvailability, a.UserID = uid ∧
              a.StartTime.unixNano = overflowSlot.StartTime.unixNano ∧
              a.EndTime.unixNano =
                overflowSlot.StartTime.unixNano + testEvent.Duration * 60000000000) →
            uid ∈ listedIDs r.Attendees) ∧
    (longSlot.StartTime.unixNano + longEvent.Duration * 60000000000 =
        longSlot.EndTime.unixNano ∧
      ∃ recs, GetRecommendations Slice MapOrder.insertion
          (fixedService longEvent [longSlot] longAvailability testUsers) 1 =
          (some ⟨recs⟩, none) ∧
        (∃ r ∈ recs, r.TimeSlot.ID = longSlot.ID ∧
          r.TimeSlot.StartTime = longSlot.StartTime ∧
          r.TimeSlot = slotTriple longEvent longSlot) ∧
        ∀ r ∈ recs, r.TimeSlot = slotTriple longEvent longSlot →
          ∀ uid, Resolves testUsers uid →
            (∃ a ∈ longAvailability, a.UserID = uid ∧
              a.StartTime.unixNano = longSlot.StartTime.unixNano ∧
              a.EndTime.unixNano =
                longSlot.StartTime.unixNano + longEvent.Duration * 60000000000) →
            uid ∈ listedIDs r.Attendees) := by
  have h1 : Fetches MapOrder.insertion boundaryService 1 testEvent [overflowSlot]
      oneHourAvailability testUsers := fetches_fixedService _ _ _ _ _ _
  have h2 : Fetches MapOrder.insertion
      (fixedService longEvent [longSlot] longAvailability testUsers) 1 longEvent [longSlot]
      longAvailability testUsers := fetches_fixedService _ _ _ _ _ _
  exact ⟨Slice_spec,
    ⟨by decide, by decide,
      fit_boundary_inclusive Slice Slice_spec MapOrder.insertion boundaryService 1 testEvent
        [overflowSlot] oneHourAvailability testUsers h1 overflowSlot
        (List.mem_singleton.mpr rfl) (by decide) (by decide)⟩,
    ⟨by decide,
      fit_boundary_inclusive Slice Slice_spec MapOrder.insertion
        (fixedService longEvent [longSlot] longAvailability testUsers) 1 longEvent [longSlot]
        longAvailability testUsers h2 longSlot (List.mem_singleton.mpr rfl) (by decide)
        (by decide)⟩⟩
end MeetingScheduler
